import Mathlib

/-!
# go-sensitive: the masking engine

A shallow embedding of the package `masker` (files `masker.go`, `options.go`,
`patterns.go`) and of the part of Go's standard `regexp` package the masker
calls.

Conventions of the embedding.

* A Go `string` is the list of its code points (`List Char`); offsets into a
  string count code points.  `len` is the UTF-8 byte length.
* A function that can panic returns `Option`; `none` is the panic.
* A Go map is the list of its entries; the keys of a map are pairwise
  distinct (`Value.WF`).  A nil map or slice and an empty one are both the
  empty list.
* The masker's mutex does not appear: every function is a pure function of
  the masker and its argument.
-/

namespace regexp

/-- Go's `s[i:j]` for `i ≤ j ≤ len s`. -/
def substr (s : List Char) (i j : Nat) : List Char := (s.take j).drop i

/-- A compiled regular expression (`*regexp.Regexp`) as its callers see it:
`doExecute s pos` is the leftmost match of the expression in `s` among the
matches that start at offset `pos` or later, as the pair of its start and end
offsets, or `none` when there is no such match.  `inRange` is the library's
guarantee on the offsets it reports. -/
structure Regexp where
  doExecute : List Char → Nat → Option (Nat × Nat)
  inRange : ∀ s pos a b, doExecute s pos = some (a, b) → pos ≤ a ∧ a ≤ b ∧ b ≤ s.length

/-- The method `(*Regexp).MatchString`: does `s` contain any match of the expression. -/
def Regexp.MatchString (re : Regexp) (s : List Char) : Bool :=
  (re.doExecute s 0).isSome

/-- The loop of `(*Regexp).replaceAll`.  The first argument bounds the number
of iterations; `lastMatchEnd`, `searchPos` and `buf` are the loop's
variables.  `repl` returns the replacement of a match, or panics. -/
def Regexp.replaceAllLoop (re : Regexp) (src : List Char)
    (repl : List Char → Option (List Char)) :
    Nat → Nat → Nat → List Char → Option (List Char)
  | 0, lastMatchEnd, _, buf => some (buf ++ src.drop lastMatchEnd)
  | fuel + 1, lastMatchEnd, searchPos, buf =>
    if searchPos ≤ src.length then
      match re.doExecute src searchPos with
      | none => some (buf ++ src.drop lastMatchEnd)
      | some (a0, a1) =>
        -- Copy the unmatched characters before this match.
        let buf1 := buf ++ substr src lastMatchEnd a0
        -- Advance past this match; always advance at least one character.
        let width := if searchPos < src.length then 1 else 0
        let next :=
          if searchPos + width > a1 then searchPos + width
          else if searchPos + 1 > a1 then searchPos + 1
          else a1
        -- Insert the replacement, but not for a match of the empty string
        -- immediately after another match.
        if a1 > lastMatchEnd ∨ a0 = 0 then
          match repl (substr src a0 a1) with
          | none => none
          | some r => replaceAllLoop re src repl fuel a1 next (buf1 ++ r)
        else replaceAllLoop re src repl fuel a1 next buf1
    else some (buf ++ src.drop lastMatchEnd)

/-- The method `(*Regexp).ReplaceAllStringFunc`, for a `repl` that may panic.  The search
position grows by at least one in every iteration and the loop stops once
it exceeds `len src`, so `len src + 1` iterations are enough. -/
def Regexp.ReplaceAllStringFunc (re : Regexp) (src : List Char)
    (repl : List Char → Option (List Char)) : Option (List Char) :=
  re.replaceAllLoop src repl (src.length + 1) 0 0 []

/-- The loop of `(*Regexp).allMatches` (behind `FindAllStringIndex(s, -1)`):
the successive non-overlapping matches, left to right.  `pos` and
`prevMatchEnd` are the loop's variables. -/
def Regexp.allMatchesLoop (re : Regexp) (s : List Char) :
    Nat → Nat → Int → List (Nat × Nat)
  | 0, _, _ => []
  | fuel + 1, pos, prevMatchEnd =>
    if pos ≤ s.length then
      match re.doExecute s pos with
      | none => []
      | some (m0, m1) =>
        if m1 = pos then
          -- We've found an empty match; it is ignored right after a previous match.
          let next := if pos < s.length then pos + 1 else s.length + 1
          if (m0 : Int) = prevMatchEnd then allMatchesLoop re s fuel next m1
          else (m0, m1) :: allMatchesLoop re s fuel next m1
        else (m0, m1) :: allMatchesLoop re s fuel m1 m1
    else []

/-- The method `(*Regexp).FindAllStringIndex(s, -1)`: all successive matches of the
expression.  Its bound `n = len s + 1` on the number of matches is never
reached, the position growing in every iteration, and is left out. -/
def Regexp.FindAllStringIndex (re : Regexp) (s : List Char) : List (Nat × Nat) :=
  re.allMatchesLoop s (s.length + 1) 0 (-1)

/-! ## The expressions of `regexp/syntax` and their execution

The part of Go's regular expressions the rules of this repository are
written in: literals, `.`, character classes with ranges and the Perl
classes `\d \s \w` (and their negations), the assertions `^ $ \A \z \b \B`,
groups, alternation, the repetitions `* + ? {n} {n,} {n,m}` and their
non-greedy forms, and the flag `i` on literals.  `Parse` returns `none` for
a source text that Go rejects and for one outside this part.  Matching is
leftmost-first, like Go's: among the matches at the leftmost start, the one
a backtracking search finds first.
-/

/-- A character class: ranges of code points, complemented when `negated`. -/
structure CharClass where
  negated : Bool
  ranges : List (Nat × Nat)
  deriving DecidableEq

/-- Is `n` in one of the ranges. -/
def inRanges (n : Nat) : List (Nat × Nat) → Bool
  | [] => false
  | (lo, hi) :: rest => if lo ≤ n ∧ n ≤ hi then true else inRanges n rest

/-- Does the class contain the character. -/
def CharClass.contains (cls : CharClass) (c : Char) : Bool :=
  if cls.negated then !inRanges c.toNat cls.ranges else inRanges c.toNat cls.ranges

/-- The empty-width assertions `^` (`\A`), `$` (`\z`), `\b` and `\B`. -/
inductive Look where
  | beginText
  | endText
  | wordBoundary
  | noWordBoundary
  deriving DecidableEq

/-- A parsed expression (`syntax.Regexp`); a capturing group is its body. -/
inductive Re where
  | emptyMatch
  | charClass (cls : CharClass)
  | look (l : Look)
  | concat (r1 r2 : Re)
  | alternate (r1 r2 : Re)
  | star (greedy : Bool) (r : Re)
  | plus (greedy : Bool) (r : Re)
  | quest (greedy : Bool) (r : Re)
  | rep (greedy : Bool) (min : Nat) (max : Option Nat) (r : Re)
  deriving DecidableEq

/-- `syntax.IsWordChar`: an ASCII letter, digit or underscore. -/
def IsWordChar (c : Char) : Bool :=
  inRanges c.toNat [(48, 57), (65, 90), (95, 95), (97, 122)]

/-- Is there a word character on this side of a position. -/
def isWord : Option Char → Bool
  | none => false
  | some c => IsWordChar c

/-- Does the assertion hold between the characters `prev` and `next`
(`none` at the beginning and at the end of the text). -/
def Look.holds : Look → Option Char → Option Char → Bool
  | .beginText, prev, _ => prev.isNone
  | .endText, _, next => next.isNone
  | .wordBoundary, prev, next => isWord prev != isWord next
  | .noWordBoundary, prev, next => isWord prev == isWord next

/-- Can the compiled fragment match without consuming input (`frag.nullable`). -/
def Re.nullable : Re → Bool
  | .emptyMatch => true
  | .charClass _ => false
  | .look _ => true
  | .concat r1 r2 => r1.nullable && r2.nullable
  | .alternate r1 r2 => r1.nullable || r2.nullable
  | .star _ _ => true
  | .plus _ r => r.nullable
  | .quest _ _ => true
  | .rep _ min _ r => min == 0 || r.nullable

/-- What remains to be matched after a fragment: a function of the character
before the position and of the rest of the input, returning the input left
after the whole match. -/
abbrev Cont := Option Char → List Char → Option (List Char)

/-- The higher-priority branch `a` if it matches, else `b`. -/
def firstOf (a b : Option (List Char)) : Option (List Char) :=
  match a with
  | some r => some r
  | none => b

/-- `n` copies of `body` in a row. -/
def runCopies (body : Option Char → List Char → Cont → Option (List Char)) : Nat → Cont → Cont
  | 0, k => k
  | n + 1, k => fun p s => body p s (runCopies body n k)

/-- `x?`: `body` first when greedy, the continuation first otherwise. -/
def runQuest (body : Option Char → List Char → Cont → Option (List Char)) (greedy : Bool)
    (k : Cont) : Cont :=
  fun p s => if greedy then firstOf (body p s k) (k p s) else firstOf (k p s) (body p s k)

/-- `(x(x(x)?)?)?` with `n` levels, the tail of `x{min,max}`. -/
def runNested (body : Option Char → List Char → Cont → Option (List Char)) (greedy : Bool) :
    Nat → Cont → Cont
  | 0, k => k
  | n + 1, k => runQuest (fun p s k1 => body p s (runNested body greedy n k1)) greedy k

/-- The loop of `x*`; the loop is not entered again at a position it was
entered at before. -/
def runLoop (body : Option Char → List Char → Cont → Option (List Char)) (greedy : Bool)
    (k : Cont) : Nat → Cont
  | 0 => fun _ _ => none
  | fuel + 1 => fun p s =>
    let again := body p s (fun p1 s1 =>
      if s1.length < s.length then runLoop body greedy k fuel p1 s1 else none)
    if greedy then firstOf again (k p s) else firstOf (k p s) again

/-- The loop of `x+`. -/
def runPlus (body : Option Char → List Char → Cont → Option (List Char)) (greedy : Bool)
    (k : Cont) : Nat → Cont
  | 0 => fun _ _ => none
  | fuel + 1 => fun p s =>
    body p s (fun p1 s1 =>
      let again := if s1.length < s.length then runPlus body greedy k fuel p1 s1 else none
      if greedy then firstOf again (k p1 s1) else firstOf (k p1 s1) again)

/-- `x*`, compiled as `(x+)?` when `x` can match the empty string. -/
def runStar (body : Option Char → List Char → Cont → Option (List Char))
    (nullable greedy : Bool) (k : Cont) : Cont :=
  fun p s =>
    if nullable then
      runQuest (fun p1 s1 k1 => runPlus body greedy k1 (s1.length + 1) p1 s1) greedy k p s
    else runLoop body greedy k (s.length + 1) p s

/-- The backtracking search for a match of `re` at the current position,
followed by the continuation.  `x{n,m}` is expanded as `syntax.Simplify` does. -/
def Re.run : Re → Option Char → List Char → Cont → Option (List Char)
  | .emptyMatch, p, s, k => k p s
  | .charClass cls, _, s, k =>
    match s with
    | [] => none
    | c :: cs => if cls.contains c then k (some c) cs else none
  | .look l, p, s, k => if l.holds p s.head? then k p s else none
  | .concat r1 r2, p, s, k => r1.run p s (fun p1 s1 => r2.run p1 s1 k)
  | .alternate r1 r2, p, s, k => firstOf (r1.run p s k) (r2.run p s k)
  | .star greedy r, p, s, k => runStar r.run r.nullable greedy k p s
  | .plus greedy r, p, s, k => runPlus r.run greedy k (s.length + 1) p s
  | .quest greedy r, p, s, k => runQuest r.run greedy k p s
  | .rep greedy min none r, p, s, k =>
    if min = 0 then runStar r.run r.nullable greedy k p s
    else
      runCopies r.run (min - 1)
        (fun p1 s1 => runPlus r.run greedy k (s1.length + 1) p1 s1) p s
  | .rep greedy min (some max) r, p, s, k =>
    if max = 0 then k p s
    else if max < min then none
    else runCopies r.run min (runNested r.run greedy (max - min) k) p s

/-- The unanchored search: the first start offset, from `pos` on, at which
`re` matches, with the end offset of the match found there.  `prev` is the
character before `pos`, `rest` the input from `pos` on. -/
def Re.searchFrom (re : Re) : Option Char → List Char → Nat → Option (Nat × Nat)
  | prev, [], pos =>
    match re.run prev [] (fun _ r => some r) with
    | some _ => some (pos, pos)
    | none => none
  | prev, c :: cs, pos =>
    match re.run prev (c :: cs) (fun _ r => some r) with
    | some r => some (pos, pos + ((c :: cs).length - r.length))
    | none => re.searchFrom (some c) cs (pos + 1)

/-- The character before offset `pos` of `s`. -/
def prevAt (s : List Char) (pos : Nat) : Option Char :=
  if pos = 0 then none else s.get? (pos - 1)

/-- The leftmost match of `re` in `s` that starts at `pos` or later. -/
def Re.exec (re : Re) (s : List Char) (pos : Nat) : Option (Nat × Nat) :=
  if pos ≤ s.length then re.searchFrom (prevAt s pos) (s.drop pos) pos else none

/-- A repetition operator. -/
inductive RepOp where
  | star
  | plus
  | quest
  | count (min : Nat) (max : Option Nat)
  deriving DecidableEq

/-- The tokens of a source text. -/
inductive Token where
  | atom (re : Re)
  | leftParen
  | rightParen
  | verticalBar
  | rep (op : RepOp) (greedy : Bool)
  deriving DecidableEq

/-- An ASCII digit. -/
def isDigitChar (c : Char) : Bool := inRanges c.toNat [(48, 57)]

/-- An ASCII letter or digit. -/
def isalnum (c : Char) : Bool :=
  inRanges c.toNat [(48, 57), (65, 90), (97, 122)]

/-- The class of the one character with code point `n`. -/
def literal (n : Nat) : Re := .charClass ⟨false, [(n, n)]⟩

/-- A literal under the flag `i`: an ASCII character with its case
variants (`unicode.SimpleFold`, which also takes `k` to the Kelvin sign and
`s` to the long s). -/
def foldLiteral (n : Nat) : Option Re :=
  if n ≥ 128 then none
  else if n = 75 ∨ n = 107 then some (.charClass ⟨false, [(75, 75), (107, 107), (8490, 8490)]⟩)
  else if n = 83 ∨ n = 115 then some (.charClass ⟨false, [(83, 83), (115, 115), (383, 383)]⟩)
  else if 65 ≤ n ∧ n ≤ 90 then some (.charClass ⟨false, [(n, n), (n + 32, n + 32)]⟩)
  else if 97 ≤ n ∧ n ≤ 122 then some (.charClass ⟨false, [(n - 32, n - 32), (n, n)]⟩)
  else some (literal n)

/-- A literal under the current flags. -/
def mkLiteral (fold : Bool) (n : Nat) : Option Re :=
  if fold then foldLiteral n else some (literal n)

/-- The ranges of `\d \D \s \S \w \W`. -/
def perlClass (c : Char) : Option (List (Nat × Nat)) :=
  if c = 'd' then some [(48, 57)]
  else if c = 'D' then some [(0, 47), (58, 1114111)]
  else if c = 's' then some [(9, 10), (12, 13), (32, 32)]
  else if c = 'S' then some [(0, 8), (11, 11), (14, 31), (33, 1114111)]
  else if c = 'w' then some [(48, 57), (65, 90), (95, 95), (97, 122)]
  else if c = 'W' then some [(0, 47), (58, 64), (91, 94), (96, 96), (123, 1114111)]
  else none

/-- The character an escape `\c` stands for: a control character or an
escaped punctuation character. -/
def parseEscape (c : Char) : Option Nat :=
  if c = 'a' then some 7
  else if c = 'f' then some 12
  else if c = 'n' then some 10
  else if c = 'r' then some 13
  else if c = 't' then some 9
  else if c = 'v' then some 11
  else if c.toNat < 128 ∧ isalnum c = false then some c.toNat
  else none

/-- One character of a bracketed class, escaped or not. -/
def parseClassChar : List Char → Option (Nat × List Char)
  | [] => none
  | c :: t =>
    if c = '\\' then
      match t with
      | [] => none
      | d :: t1 => (parseEscape d).map (fun n => (n, t1))
    else some (c.toNat, t)

/-- The body of a bracketed class up to its closing bracket. -/
def parseClass : Nat → Bool → List (Nat × Nat) → List Char →
    Option (List (Nat × Nat) × List Char)
  | 0, _, _, _ => none
  | _ + 1, _, _, [] => none
  | fuel + 1, first, acc, c :: t =>
    if c = ']' ∧ first = false then some (acc, t)
    else if c = '[' ∧ t.head? = some ':' then none
    else if c = '\\' ∧ (t.head?.bind perlClass).isSome then
      match t with
      | [] => none
      | d :: t1 =>
        match perlClass d with
        | none => none
        | some rs => parseClass fuel false (acc ++ rs) t1
    else
      match parseClassChar (c :: t) with
      | none => none
      | some (lo, t1) =>
        match t1 with
        | [] => none
        | [_] => parseClass fuel false (acc ++ [(lo, lo)]) t1
        | d :: e :: t2 =>
          if d = '-' ∧ e ≠ ']' then
            match parseClassChar (e :: t2) with
            | none => none
            | some (hi, t3) =>
              if hi < lo then none else parseClass fuel false (acc ++ [(lo, hi)]) t3
          else parseClass fuel false (acc ++ [(lo, lo)]) t1

/-- The digits at the head of the input, read as a decimal number. -/
def takeDigits : List Char → Nat → Nat × List Char
  | [], n => (n, [])
  | c :: t, n => if isDigitChar c then takeDigits t (n * 10 + (c.toNat - 48)) else (n, c :: t)

/-- `parseInt`: a decimal number without leading zeros. -/
def parseInt : List Char → Option (Nat × List Char)
  | [] => none
  | c :: t =>
    if isDigitChar c = false then none
    else if c = '0' ∧ (t.head?.map isDigitChar) = some true then none
    else some (takeDigits (c :: t) 0)

/-- `parseRepeat` on the input after the opening brace: `n}`, `n,}` or `n,m}`. -/
def parseRepeat (s : List Char) : Option (Nat × Option Nat × List Char) :=
  match parseInt s with
  | none => none
  | some (min, s1) =>
    match s1 with
    | [] => none
    | c :: s2 =>
      if c = '}' then some (min, some min, s2)
      else if c = ',' then
        match s2 with
        | [] => none
        | d :: s3 =>
          if d = '}' then some (min, none, s3)
          else
            match parseInt (d :: s3) with
            | none => none
            | some (max, s4) =>
              match s4 with
              | [] => none
              | e :: s5 => if e = '}' then some (min, some max, s5) else none
      else none

/-- A `?` after a repetition operator makes it non-greedy. -/
def lazySuffix : List Char → Bool × List Char
  | [] => (true, [])
  | c :: t => if c = '?' then (false, t) else (true, c :: t)

/-- The tokens of a source text.  `fold` is the flag `i`; `saved` holds the
flag of every open group, restored at its closing parenthesis. -/
def lex : Nat → Bool → List Bool → List Char → Option (List Token)
  | 0, _, _, _ => none
  | _ + 1, _, _, [] => some []
  | fuel + 1, fold, saved, c :: t =>
    if c = '(' then
      match t with
      | [] => (lex fuel fold (fold :: saved) t).map (fun ts => Token.leftParen :: ts)
      | q :: t1 =>
        if q = '?' then
          match t1 with
          | [] => none
          | f :: t2 =>
            if f = ':' then
              (lex fuel fold (fold :: saved) t2).map (fun ts => Token.leftParen :: ts)
            else if f = 'i' then
              match t2 with
              | [] => none
              | g :: t3 =>
                if g = ')' then lex fuel true saved t3
                else if g = ':' then
                  (lex fuel true (fold :: saved) t3).map (fun ts => Token.leftParen :: ts)
                else none
            else none
        else (lex fuel fold (fold :: saved) t).map (fun ts => Token.leftParen :: ts)
    else if c = ')' then
      match saved with
      | [] => none
      | f :: rest => (lex fuel f rest t).map (fun ts => Token.rightParen :: ts)
    else if c = '|' then (lex fuel fold saved t).map (fun ts => Token.verticalBar :: ts)
    else if c = '*' then
      (lex fuel fold saved (lazySuffix t).2).map
        (fun ts => Token.rep .star (lazySuffix t).1 :: ts)
    else if c = '+' then
      (lex fuel fold saved (lazySuffix t).2).map
        (fun ts => Token.rep .plus (lazySuffix t).1 :: ts)
    else if c = '?' then
      (lex fuel fold saved (lazySuffix t).2).map
        (fun ts => Token.rep .quest (lazySuffix t).1 :: ts)
    else if c = '{' then
      match parseRepeat t with
      | none => (lex fuel fold saved t).map (fun ts => Token.atom (literal 123) :: ts)
      | some (min, max, t1) =>
        if min > 1000 ∨ max.getD 0 > 1000 ∨ max.getD min < min then none
        else
          (lex fuel fold saved (lazySuffix t1).2).map
            (fun ts => Token.rep (.count min max) (lazySuffix t1).1 :: ts)
    else if c = '[' then
      if fold then none
      else
        match t with
        | [] => none
        | n :: t1 =>
          if n = '^' then
            match parseClass (t1.length + 1) true [] t1 with
            | none => none
            | some (rs, t2) =>
              (lex fuel fold saved t2).map (fun ts => Token.atom (.charClass ⟨true, rs⟩) :: ts)
          else
            match parseClass (t.length + 1) true [] t with
            | none => none
            | some (rs, t2) =>
              (lex fuel fold saved t2).map (fun ts => Token.atom (.charClass ⟨false, rs⟩) :: ts)
    else if c = '\\' then
      match t with
      | [] => none
      | d :: t1 =>
        if d = 'A' then
          (lex fuel fold saved t1).map (fun ts => Token.atom (.look .beginText) :: ts)
        else if d = 'z' then
          (lex fuel fold saved t1).map (fun ts => Token.atom (.look .endText) :: ts)
        else if d = 'b' then
          (lex fuel fold saved t1).map (fun ts => Token.atom (.look .wordBoundary) :: ts)
        else if d = 'B' then
          (lex fuel fold saved t1).map (fun ts => Token.atom (.look .noWordBoundary) :: ts)
        else
          match perlClass d with
          | some rs =>
            if fold then none
            else
              (lex fuel fold saved t1).map (fun ts => Token.atom (.charClass ⟨false, rs⟩) :: ts)
          | none =>
            match (parseEscape d).bind (mkLiteral fold) with
            | none => none
            | some re => (lex fuel fold saved t1).map (fun ts => Token.atom re :: ts)
    else if c = '.' then
      if fold then none
      else
        (lex fuel fold saved t).map (fun ts => Token.atom (.charClass ⟨true, [(10, 10)]⟩) :: ts)
    else if c = '^' then
      (lex fuel fold saved t).map (fun ts => Token.atom (.look .beginText) :: ts)
    else if c = '$' then
      (lex fuel fold saved t).map (fun ts => Token.atom (.look .endText) :: ts)
    else
      match mkLiteral fold c.toNat with
      | none => none
      | some re => (lex fuel fold saved t).map (fun ts => Token.atom re :: ts)

/-- A group being parsed: its finished alternatives and the pieces of the
current one, the last first. -/
structure Frame where
  alts : List Re
  cur : List Re

/-- The concatenation of the pieces. -/
def mkConcat : List Re → Re
  | [] => .emptyMatch
  | [r] => r
  | r :: rs => .concat r (mkConcat rs)

/-- The alternation of the alternatives, the first with the highest priority. -/
def mkAlternate : List Re → Re
  | [] => .emptyMatch
  | [r] => r
  | r :: rs => .alternate r (mkAlternate rs)

/-- The expression of a finished group. -/
def Frame.close (f : Frame) : Re :=
  mkAlternate (mkConcat f.cur.reverse :: f.alts).reverse

/-- `repeatIsValid`: nested counted repetitions do not multiply beyond `n`. -/
def repeatIsValid : Re → Nat → Bool
  | .emptyMatch, _ => true
  | .charClass _, _ => true
  | .look _, _ => true
  | .concat r1 r2, n => repeatIsValid r1 n && repeatIsValid r2 n
  | .alternate r1 r2, n => repeatIsValid r1 n && repeatIsValid r2 n
  | .star _ r, n => repeatIsValid r n
  | .plus _ r, n => repeatIsValid r n
  | .quest _ r, n => repeatIsValid r n
  | .rep _ min max r, n =>
    if max = some 0 then true
    else if max.getD min > n then false
    else if max.getD min > 0 then repeatIsValid r (n / max.getD min)
    else repeatIsValid r n

/-- The repetition of `r` by an operator, or `none` for a repeat count Go rejects. -/
def applyRep (op : RepOp) (greedy : Bool) (r : Re) : Option Re :=
  match op with
  | .star => some (.star greedy r)
  | .plus => some (.plus greedy r)
  | .quest => some (.quest greedy r)
  | .count min max =>
    if (min ≥ 2 ∨ max.getD 0 ≥ 2) ∧ repeatIsValid (.rep greedy min max r) 1000 = false then none
    else some (.rep greedy min max r)

/-- The parser's stack machine over the tokens.  `lastRepeat` tells whether
the previous token was a repetition operator; a repetition operator needs an
operand before it and cannot follow another one. -/
def parseTokens : List Token → Bool → Frame → List Frame → Option Re
  | [], _, f, [] => some f.close
  | [], _, _, _ :: _ => none
  | .atom r :: ts, _, f, st => parseTokens ts false { f with cur := r :: f.cur } st
  | .leftParen :: ts, _, f, st => parseTokens ts false ⟨[], []⟩ (f :: st)
  | .rightParen :: _, _, _, [] => none
  | .rightParen :: ts, _, f, parent :: st =>
    parseTokens ts false { parent with cur := f.close :: parent.cur } st
  | .verticalBar :: ts, _, f, st =>
    parseTokens ts false ⟨mkConcat f.cur.reverse :: f.alts, []⟩ st
  | .rep op greedy :: ts, lastRepeat, f, st =>
    if lastRepeat then none
    else
      match f.cur with
      | [] => none
      | r :: rs =>
        match applyRep op greedy r with
        | none => none
        | some r1 => parseTokens ts true { f with cur := r1 :: rs } st

/-- `syntax.Parse` with the flags `syntax.Perl`. -/
def Parse (s : List Char) : Option Re :=
  match lex (s.length + 1) false [] s with
  | none => none
  | some ts => parseTokens ts false ⟨[], []⟩ []

/-- The compiled form of a parsed expression. -/
def Re.toRegexp (re : Re) : Regexp where
  doExecute := re.exec
  inRange := by
    have key : ∀ (rest : List Char) (prev : Option Char) (pos a b : Nat),
        re.searchFrom prev rest pos = some (a, b) →
          pos ≤ a ∧ a ≤ b ∧ b ≤ pos + rest.length := by
      intro rest
      induction rest with
      | nil =>
        intro prev pos a b h
        simp only [Re.searchFrom] at h
        split at h
        · simp only [Option.some.injEq, Prod.mk.injEq] at h
          obtain ⟨rfl, rfl⟩ := h
          simp
        · simp at h
      | cons c cs ih =>
        intro prev pos a b h
        simp only [Re.searchFrom] at h
        split at h
        · simp only [Option.some.injEq, Prod.mk.injEq] at h
          obtain ⟨rfl, rfl⟩ := h
          refine ⟨le_refl _, Nat.le_add_right _ _, ?_⟩
          exact Nat.add_le_add_left (Nat.sub_le _ _) _
        · have := ih (some c) (pos + 1) a b h
          simp only [List.length_cons]
          omega
    intro s pos a b h
    unfold Re.exec at h
    split at h
    · have := key _ _ _ _ _ h
      simp only [List.length_drop] at this
      omega
    · simp at h

/-- `regexp.MustCompile`; `none` is the panic on a source text that does not parse. -/
def MustCompile (str : List Char) : Option Regexp :=
  (Parse str).map Re.toRegexp

end regexp

namespace masker

open regexp

/-- `strings.Join`. -/
def stringsJoin : List (List Char) → List Char → List Char
  | [], _ => []
  | [a], _ => a
  | a :: b :: rest, sep => a ++ sep ++ stringsJoin (b :: rest) sep

/-- `strings.ReplaceAll(s, old, new)` for a one-character `old`. -/
def stringsReplaceAll : List Char → Char → List Char → List Char
  | [], _, _ => []
  | c :: cs, old, new =>
    if c = old then new ++ stringsReplaceAll cs old new
    else c :: stringsReplaceAll cs old new

/-- Go's `len(s)`: the number of bytes of the UTF-8 encoding of `s`. -/
def len (s : List Char) : Nat := (s.map Char.utf8Size).sum

/-- The struct `Pattern` of `options.go`; a nil `MaskFunc` is `none`. -/
structure Pattern where
  Name : List Char
  Regex : List Char
  MaskFunc : Option (List Char → List Char)

/-- The struct `Config` of `options.go`. -/
structure Config where
  Patterns : List Pattern

/-- The type `Option` of `options.go`, a function that updates a `Config`. -/
abbrev ConfigOption := Config → Config

/-- `WithPatterns`. -/
def WithPatterns (patterns : List Pattern) : ConfigOption :=
  fun _ => { Patterns := patterns }

/-- `WithCustomPattern`. -/
def WithCustomPattern (name regex : List Char) (maskFunc : Option (List Char → List Char)) :
    ConfigOption :=
  fun c => { Patterns := c.Patterns ++ [{ Name := name, Regex := regex, MaskFunc := maskFunc }] }

/-- `CleanNumber`. -/
def CleanNumber (s : List Char) : List Char :=
  let s := stringsReplaceAll s ' ' []
  let s := stringsReplaceAll s '-' []
  let s := stringsReplaceAll s '.' []
  let s := stringsReplaceAll s '/' []
  let s := stringsReplaceAll s '(' []
  let s := stringsReplaceAll s ')' []
  s

/-- `IsAllDigits`. -/
def IsAllDigits : List Char → Bool
  | [] => true
  | char :: rest => if char < '0' ∨ char > '9' then false else IsAllDigits rest

/-- The `MaskFunc` of the `credit_card` rule.  Under the guard every
character of `cleanCard` is a one-byte digit, so the byte offsets 4 and 12 of
the slices are code point offsets. -/
def creditCardMaskFunc (card : List Char) : List Char :=
  let cleanCard := CleanNumber card
  if len cleanCard = 16 ∧ IsAllDigits cleanCard = true then
    cleanCard.take 4 ++ "********".toList ++ cleanCard.drop 12
  else card

/-- Go's `s[:n]` with its range check: the text before byte offset `n`.
`none` is the panic of an offset beyond `len s`, and stands for an offset
inside a character too, where the slice is no text of this model. -/
def sliceTo : List Char → Nat → Option (List Char)
  | _, 0 => some []
  | [], _ + 1 => none
  | c :: cs, n + 1 =>
    if c.utf8Size ≤ n + 1 then (sliceTo cs (n + 1 - c.utf8Size)).map (fun r => c :: r)
    else none

/-- Go's `s[n:]` with its range check: the text from byte offset `n` on;
`none` as for `sliceTo`. -/
def sliceFrom : List Char → Nat → Option (List Char)
  | s, 0 => some s
  | [], _ + 1 => none
  | c :: cs, n + 1 => if c.utf8Size ≤ n + 1 then sliceFrom cs (n + 1 - c.utf8Size) else none

/-- The `MaskFunc` of the `credit_card` rule with the range checks of its
two slice expressions. -/
def creditCardMaskFuncChecked (card : List Char) : Option (List Char) :=
  let cleanCard := CleanNumber card
  if len cleanCard = 16 ∧ IsAllDigits cleanCard = true then
    match sliceTo cleanCard 4, sliceFrom cleanCard 12 with
    | some first4, some last4 => some (first4 ++ "********".toList ++ last4)
    | _, _ => none
  else some card

/-- The source text of the `credit_card` expression. -/
def creditCardRegex : List Char := "\\b(?:\\d[ -]*?)\x7b13,16\x7d\\d\\b".toList

/-- `DefaultPatterns`. -/
def DefaultPatterns : List Pattern :=
  [{ Name := "credit_card".toList, Regex := creditCardRegex, MaskFunc := some creditCardMaskFunc }]

/-- `DefaultConfig`. -/
def DefaultConfig : Config := { Patterns := DefaultPatterns }

/-- The struct `DefaultMasker`, without its mutex. -/
structure DefaultMasker where
  patterns : List Pattern
  cache : Option Regexp
  compiled : Bool

/-- The non-empty expressions of the rules, in order (`regexParts`). -/
def regexParts : List Pattern → List (List Char)
  | [] => []
  | pattern :: rest =>
    if pattern.Regex ≠ [] then pattern.Regex :: regexParts rest else regexParts rest

/-- `compilePatterns`; `none` when `regexp.MustCompile` panics. -/
def compilePatterns (MustCompile : List Char → Option Regexp) (dm : DefaultMasker) :
    Option DefaultMasker :=
  if dm.patterns.length > 0 then
    if (regexParts dm.patterns).length > 0 then
      match MustCompile (stringsJoin (regexParts dm.patterns) ['|']) with
      | none => none
      | some re => some { dm with cache := some re, compiled := true }
    else some dm
  else some dm

/-- The function literal passed to `ReplaceAllStringFunc` in `maskString`:
the dispatch of one match over the rules. -/
def dispatch (MustCompile : List Char → Option Regexp) : List Pattern → List Char →
    Option (List Char)
  | [], m => some m
  | pattern :: rest, m =>
    match pattern.MaskFunc with
    | none => dispatch MustCompile rest m
    | some maskFunc =>
      match MustCompile pattern.Regex with
      | none => none
      | some compiledPattern =>
        if compiledPattern.MatchString m then some (maskFunc m)
        else dispatch MustCompile rest m

/-- `maskString`. -/
def maskString (MustCompile : List Char → Option Regexp) (dm : DefaultMasker) (s : List Char) :
    Option (List Char) :=
  if !dm.compiled then some s
  else
    match dm.cache with
    | none => none
    | some cache => cache.ReplaceAllStringFunc s (dispatch MustCompile dm.patterns)

/-- `result[key] = value` on a map. -/
def mapSet {κ ν : Type} [DecidableEq κ] : List (κ × ν) → κ → ν → List (κ × ν)
  | [], key, value => [(key, value)]
  | (k, v) :: rest, key, value =>
    if k = key then (key, value) :: rest else (k, v) :: mapSet rest key value

/-- `m[key]` on a map. -/
def mapGet {κ ν : Type} [DecidableEq κ] : List (κ × ν) → κ → Option ν
  | [], _ => none
  | (k, v) :: rest, key => if k = key then some v else mapGet rest key

/-- A value that `processValue` returns as it is: nil, a boolean, a number,
or a value of any other type, told apart by a tag. -/
inductive Scalar where
  | null
  | bool (b : Bool)
  | int (i : Int)
  | other (tag : Nat)
  deriving DecidableEq

/-- A key of a `map[interface{}]interface{}`: a string or a scalar. -/
inductive Key where
  | str (s : List Char)
  | scalar (x : Scalar)
  deriving DecidableEq

/-- The values of type `interface{}` that `processValue` tells apart, as
finite trees: a map or a slice is the list of what it holds, so a nil one and
an empty one are the same value here, and no value holds itself.  The store
model below (`Ref`, `Obj`, `Store`) tells a nil container from an empty one
and has values that hold themselves. -/
inductive Value where
  | str (s : List Char)
  | strMap (m : List (List Char × Value))
  | slice (xs : List Value)
  | mapSlice (xs : List (List (List Char × Value)))
  | ifaceMap (m : List (Key × Value))
  | scalar (x : Scalar)

instance : Inhabited Value := ⟨.scalar .null⟩

mutual
/-- `processValue`. -/
def processValue (MustCompile : List Char → Option Regexp) (dm : DefaultMasker) :
    Value → Option Value
  | .str v => (maskString MustCompile dm v).map Value.str
  | .strMap v => (processMap MustCompile dm v []).map Value.strMap
  | .slice v => (processSlice MustCompile dm v).map Value.slice
  | .mapSlice v => (processMapSlice MustCompile dm v).map Value.mapSlice
  | .ifaceMap v => (processInterfaceMap MustCompile dm v []).map Value.ifaceMap
  | .scalar v => some (.scalar v)
/-- The loop of `processMap` over the entries of `m`, with `result` so far. -/
def processMap (MustCompile : List Char → Option Regexp) (dm : DefaultMasker) :
    List (List Char × Value) → List (List Char × Value) → Option (List (List Char × Value))
  | [], result => some result
  | (key, value) :: rest, result =>
    match processValue MustCompile dm value with
    | none => none
    | some v => processMap MustCompile dm rest (mapSet result key v)
/-- The loop of `processInterfaceMap`. -/
def processInterfaceMap (MustCompile : List Char → Option Regexp) (dm : DefaultMasker) :
    List (Key × Value) → List (Key × Value) → Option (List (Key × Value))
  | [], result => some result
  | (key, value) :: rest, result =>
    match processValue MustCompile dm value with
    | none => none
    | some v => processInterfaceMap MustCompile dm rest (mapSet result key v)
/-- `processSlice`. -/
def processSlice (MustCompile : List Char → Option Regexp) (dm : DefaultMasker) :
    List Value → Option (List Value)
  | [] => some []
  | item :: rest =>
    match processValue MustCompile dm item with
    | none => none
    | some v => (processSlice MustCompile dm rest).map (fun vs => v :: vs)
/-- `processMapSlice`. -/
def processMapSlice (MustCompile : List Char → Option Regexp) (dm : DefaultMasker) :
    List (List (List Char × Value)) → Option (List (List (List Char × Value)))
  | [] => some []
  | item :: rest =>
    match processMap MustCompile dm item [] with
    | none => none
    | some v => (processMapSlice MustCompile dm rest).map (fun vs => v :: vs)
end

/-- `(*DefaultMasker).Mask`. -/
def Mask (MustCompile : List Char → Option Regexp) (dm : DefaultMasker) (data : Value) :
    Option Value :=
  processValue MustCompile dm data

/-- `NewWithOpts`; `none` when the construction panics. -/
def NewWithOpts (MustCompile : List Char → Option Regexp) (opts : List ConfigOption) :
    Option DefaultMasker :=
  let config : Config := if opts.length = 0 then DefaultConfig else { Patterns := [] }
  let config := opts.foldl (fun c opt => opt c) config
  compilePatterns MustCompile { patterns := config.Patterns, cache := none, compiled := false }

/-- `New`. -/
def New (MustCompile : List Char → Option Regexp) : Option DefaultMasker :=
  compilePatterns MustCompile
    { patterns := DefaultConfig.Patterns, cache := none, compiled := false }

/-- `MaskData`. -/
def MaskData (MustCompile : List Char → Option Regexp) (data : Value)
    (opts : List ConfigOption) : Option Value :=
  match NewWithOpts MustCompile opts with
  | none => none
  | some masker => Mask MustCompile masker data

/-- `MaskString`. -/
def MaskString (MustCompile : List Char → Option Regexp) (data : List Char)
    (opts : List ConfigOption) : Option (List Char) :=
  match NewWithOpts MustCompile opts with
  | none => none
  | some masker =>
    match Mask MustCompile masker (.str data) with
    | none => none
    | some (.str str) => some str
    | some _ => some data

/-- `StructToMap`, over the two functions of `encoding/json` it calls:
`Marshal`, from a value to its JSON text, and `Unmarshal`, from a JSON text
to a map.  The result is the pair Go returns, the map (nil, here empty, with
an error) and the error. -/
def StructToMap {ρ β ε : Type} (Marshal : ρ → Except ε β)
    (Unmarshal : β → Except ε (List (List Char × Value))) (obj : ρ) :
    List (List Char × Value) × Option ε :=
  match Marshal obj with
  | .error err => ([], some err)
  | .ok data =>
    match Unmarshal data with
    | .error err => ([], some err)
    | .ok result => (result, none)

/-- The loop of `processInterface` over the entries of `data`. -/
def processInterfaceEntries (MustCompile : List Char → Option Regexp) (dm : DefaultMasker) :
    List (List Char × Value) → List (List Char × Value) → Option (List (List Char × Value))
  | [], result => some result
  | (key, value) :: rest, result =>
    match processValue MustCompile dm value with
    | none => none
    | some v => processInterfaceEntries MustCompile dm rest (mapSet result key v)

/-- `processInterface`; the error of `StructToMap` is dropped. -/
def processInterface {ρ β ε : Type} (Marshal : ρ → Except ε β)
    (Unmarshal : β → Except ε (List (List Char × Value)))
    (MustCompile : List Char → Option Regexp) (dm : DefaultMasker) (v : ρ) :
    Option (List (List Char × Value)) :=
  processInterfaceEntries MustCompile dm (StructToMap Marshal Unmarshal v).1 []

/-- `(*DefaultMasker).MaskInterface`. -/
def MaskInterface {ρ β ε : Type} (Marshal : ρ → Except ε β)
    (Unmarshal : β → Except ε (List (List Char × Value)))
    (MustCompile : List Char → Option Regexp) (dm : DefaultMasker) (data : ρ) : Option Value :=
  (processInterface Marshal Unmarshal MustCompile dm data).map Value.strMap

/-- `MaskDataInterface`. -/
def MaskDataInterface {ρ β ε : Type} (Marshal : ρ → Except ε β)
    (Unmarshal : β → Except ε (List (List Char × Value)))
    (MustCompile : List Char → Option Regexp) (data : ρ) (opts : List ConfigOption) :
    Option Value :=
  match NewWithOpts MustCompile opts with
  | none => none
  | some masker => MaskInterface Marshal Unmarshal MustCompile masker data

/-- The class `\d`. -/
def digitClass : CharClass := ⟨false, [(48, 57)]⟩

/-- The class `[ -]`. -/
def sepClass : CharClass := ⟨false, [(32, 32), (45, 45)]⟩

/-- The repeated group `\d[ -]*?` of the `credit_card` expression. -/
def cardBody : Re := .concat (.charClass digitClass) (.star false (.charClass sepClass))

/-- The end `\d\b` of the `credit_card` expression. -/
def cardTail : Re := .concat (.charClass digitClass) (.look .wordBoundary)

/-- The parsed `credit_card` expression. -/
def creditCardRe : Re :=
  .concat (.look .wordBoundary) (.concat (.rep true 13 (some 16) cardBody) cardTail)

/-- Groups of separators, each followed by one more character, written out. -/
def groupsText : List (List Char × Char) → List Char
  | [] => []
  | (seps, d) :: rest => seps ++ d :: groupsText rest

/-- Every group is a run of separators followed by a digit. -/
def GoodGroups (gs : List (List Char × Char)) : Prop :=
  ∀ g ∈ gs, (∀ c ∈ g.1, c = ' ' ∨ c = '-') ∧ g.2.isDigit = true

/-- The continuation finds no match on an input that begins with a separator. -/
def FailsOnSep (k : Cont) : Prop :=
  ∀ (p : Option Char) (c : Char) (r : List Char), (c = ' ' ∨ c = '-') → k p (c :: r) = none

/-- An example rule: runs of capital letters. -/
def upperRule : Pattern :=
  { Name := "upper".toList, Regex := "[A-Z]+".toList, MaskFunc := some (fun _ => "U".toList) }

/-- An example rule: runs of digits. -/
def digitsRule : Pattern :=
  { Name := "digits".toList, Regex := "\\d+".toList, MaskFunc := some (fun _ => "#".toList) }

/-- An example rule: one digit. -/
def digitRule : Pattern :=
  { Name := "digit".toList, Regex := "\\d".toList, MaskFunc := some (fun _ => "D".toList) }

/-- An example rule without a replace function: runs of digits. -/
def digitsNoFunc : Pattern :=
  { Name := "digits".toList, Regex := "\\d+".toList, MaskFunc := none }

/-- The rule of `TestEmptyCustomPattern`: an empty expression. -/
def emptyRule : Pattern :=
  { Name := "empty".toList, Regex := [], MaskFunc := some (fun _ => "empty".toList) }

/-- The masker `New()` builds: the default rules, compiled. -/
def defaultMasker : DefaultMasker :=
  { patterns := DefaultPatterns, cache := some creditCardRe.toRegexp, compiled := true }

/-- An example map; one of its keys is itself a card number. -/
def exampleMap : List (List Char × Value) :=
  [("credit_card".toList, .str "4111-1111-1111-1111".toList),
   ("4111111111111111".toList, .str "John Doe".toList),
   ("age".toList, .scalar (.int 30))]

/-- An example map with keys of several types, as in `TestMaskData_InterfaceMap`. -/
def exampleIfaceMap : List (Key × Value) :=
  [(.str "card_number".toList, .str "4111-1111-1111-1111".toList),
   (.scalar (.int 123), .str "should remain unchanged".toList),
   (.scalar (.bool true), .str "boolean key".toList)]

/-- An example value: nested containers without any card number. -/
def exampleValue : Value :=
  .slice [.str "hello world".toList,
    .strMap [("name".toList, .str "this is just regular text".toList),
      ("tags".toList, .mapSlice [[("age".toList, .scalar (.int 30))]])],
    .ifaceMap [(.scalar (.int 123), .str "should remain unchanged".toList),
      (.scalar .null, .scalar (.bool true))]]

/-- An example rule with the flag `i`. -/
def tokenRule : Pattern :=
  { Name := "token".toList, Regex := "(?i)token".toList,
    MaskFunc := some (fun _ => "[token]".toList) }

/-- An example rule: a `B` at the beginning of the text, or a `b`. -/
def tagRule : Pattern :=
  { Name := "tag".toList, Regex := "^B|b".toList, MaskFunc := some (fun _ => "X".toList) }

/-- The options of `TestIntegration_MultipleCustomPatterns`. -/
def customOptions : List ConfigOption :=
  [WithCustomPattern "ip_address".toList
      "\\d\x7b1,3\x7d\\.\\d\x7b1,3\x7d\\.\\d\x7b1,3\x7d\\.\\d\x7b1,3\x7d".toList
      (some (fun _ => "***.***.***.***".toList)),
    WithCustomPattern "session_id".toList "session-[A-Za-z0-9]\x7b20\x7d".toList
      (some (fun _ => "session-********************".toList))]

/-- An example option: a rule whose expression is an unclosed parenthesis. -/
def badOption : ConfigOption :=
  WithCustomPattern "bad".toList "(".toList (some (fun _ => "***".toList))

/-- The struct `BaseRequest` of `masker_test.go`. -/
structure BaseRequest where
  ClientID : List Char
  MessageID : List Char
  BuyerID : List Char

/-- Example inputs of `MaskInterface`: a `BaseRequest`, and a channel, which
has no JSON form. -/
inductive ExampleInput where
  | request (r : BaseRequest)
  | channel

/-- An example of `json.Marshal`, on the example inputs; the JSON text of a
request is kept as the list of its members. -/
def exampleMarshal : ExampleInput → Except (List Char) (List (List Char × List Char))
  | .request r =>
    .ok [("clientId".toList, r.ClientID), ("messageId".toList, r.MessageID),
      ("buyerId".toList, r.BuyerID)]
  | .channel => .error "json: unsupported type: chan int".toList

/-- An example of `json.Unmarshal` into a `map[string]interface{}`, on a JSON
object of string members. -/
def exampleUnmarshal (data : List (List Char × List Char)) :
    Except (List Char) (List (List Char × Value)) :=
  .ok (data.map (fun e => (e.1, Value.str e.2)))

/-- The map of `exampleRequest`. -/
def exampleRequestMap : List (List Char × Value) :=
  [("clientId".toList, .str "B2BWS_4_9_4477".toList),
   ("messageId".toList, .str "b6fedaf6-02cf-4ce4-bbaa-1af85e822e30".toList),
   ("buyerId".toList, .str "4485990014106312".toList)]

/-- The request of `TestMaskData_RealCase`, with the account number as its buyer. -/
def exampleRequest : BaseRequest :=
  { ClientID := "B2BWS_4_9_4477".toList,
    MessageID := "b6fedaf6-02cf-4ce4-bbaa-1af85e822e30".toList,
    BuyerID := "4485990014106312".toList }

end masker

/-! ## What the claims are stated with -/

namespace regexp

/-- The spans are in order, do not overlap and lie between `lo` and `n`. -/
def Spans : Nat → List (Nat × Nat) → Nat → Prop
  | _, [], _ => True
  | lo, (a, b) :: ms, n => lo ≤ a ∧ a ≤ b ∧ b ≤ n ∧ Spans b ms n

/-- The text `s` from offset `last` on, in which every span of the list is
replaced by `repl` of the text it covers and everything between the spans is
kept; `none` when `repl` panics on a span. -/
def splice (s : List Char) (repl : List Char → Option (List Char)) :
    Nat → List (Nat × Nat) → Option (List Char)
  | last, [] => some (s.drop last)
  | last, (a, b) :: ms =>
    match repl (substr s a b) with
    | none => none
    | some r =>
      match splice s repl b ms with
      | none => none
      | some rest => some (substr s last a ++ r ++ rest)

end regexp

namespace masker

mutual
/-- The string leaves of a value, at any depth. -/
def Value.strings : Value → List (List Char)
  | .str s => [s]
  | .strMap m => entriesStrings m
  | .slice xs => valuesStrings xs
  | .mapSlice xs => mapsStrings xs
  | .ifaceMap m => ifaceEntriesStrings m
  | .scalar _ => []
/-- The string leaves of the values of a map. -/
def entriesStrings : List (List Char × Value) → List (List Char)
  | [] => []
  | (_, v) :: rest => v.strings ++ entriesStrings rest
/-- The string leaves of the values of a `map[interface{}]interface{}`. -/
def ifaceEntriesStrings : List (Key × Value) → List (List Char)
  | [] => []
  | (_, v) :: rest => v.strings ++ ifaceEntriesStrings rest
/-- The string leaves of the elements of a slice. -/
def valuesStrings : List Value → List (List Char)
  | [] => []
  | v :: rest => v.strings ++ valuesStrings rest
/-- The string leaves of the maps of a slice of maps. -/
def mapsStrings : List (List (List Char × Value)) → List (List Char)
  | [] => []
  | m :: rest => entriesStrings m ++ mapsStrings rest
end

mutual
/-- The keys of every map in the value, at any depth, are pairwise distinct,
as the keys of a Go map are. -/
def Value.WF : Value → Prop
  | .str _ => True
  | .strMap m => (m.map Prod.fst).Nodup ∧ entriesWF m
  | .slice xs => valuesWF xs
  | .mapSlice xs => mapsWF xs
  | .ifaceMap m => (m.map Prod.fst).Nodup ∧ ifaceEntriesWF m
  | .scalar _ => True
/-- Every value of the map is well formed. -/
def entriesWF : List (List Char × Value) → Prop
  | [] => True
  | (_, v) :: rest => v.WF ∧ entriesWF rest
/-- Every value of the `map[interface{}]interface{}` is well formed. -/
def ifaceEntriesWF : List (Key × Value) → Prop
  | [] => True
  | (_, v) :: rest => v.WF ∧ ifaceEntriesWF rest
/-- Every element of the slice is well formed. -/
def valuesWF : List Value → Prop
  | [] => True
  | v :: rest => v.WF ∧ valuesWF rest
/-- Every map of the slice has distinct keys and well-formed values. -/
def mapsWF : List (List (List Char × Value)) → Prop
  | [] => True
  | m :: rest => ((m.map Prod.fst).Nodup ∧ entriesWF m) ∧ mapsWF rest
end

/-- The loop shared by `processMap` and `processInterfaceMap`, for any
function `f` applied to the values. -/
def foldEntries {κ : Type} [DecidableEq κ] (f : Value → Option Value) :
    List (κ × Value) → List (κ × Value) → Option (List (κ × Value))
  | [], result => some result
  | (key, value) :: rest, result =>
    match f value with
    | none => none
    | some v => foldEntries f rest (mapSet result key v)

end masker

/-! ### Containers by reference

Go maps and slices are references: two values may share one container, and a
write through one is seen through the other.  Here the containers live in a
store and `processValue` is stated over it, with every allocation (`make`)
and every write (`result[key] = ...`, `result[i] = ...`) explicit. -/

namespace masker

open regexp

/-- A value of type `interface{}` with its containers by reference: a map or
a slice is the address of its object in the store, or `none` when it is nil. -/
inductive Ref where
  | str (s : List Char)
  | strMap (addr : Option Nat)
  | slice (addr : Option Nat)
  | mapSlice (addr : Option Nat)
  | ifaceMap (addr : Option Nat)
  | scalar (x : Scalar)
  deriving DecidableEq

/-- An object of the store: the entries of a map, or the elements of a slice. -/
inductive Obj where
  | strMap (entries : List (List Char × Ref))
  | slice (elems : List Ref)
  | mapSlice (elems : List (Option Nat))
  | ifaceMap (entries : List (Key × Ref))
  deriving DecidableEq

/-- The store: the object at address `a` is the `a`-th of the list. -/
abbrev Store : Type := List Obj

/-- The entries of the `map[string]interface{}` at `m`; a nil map has none.
`none` when `m` is not the address of such a map. -/
def Store.strMapAt (h : Store) : Option Nat → Option (List (List Char × Ref))
  | none => some []
  | some a =>
    match h.get? a with
    | some (.strMap entries) => some entries
    | _ => none

/-- The elements of the `[]interface{}` at `s`; a nil slice has none. -/
def Store.sliceAt (h : Store) : Option Nat → Option (List Ref)
  | none => some []
  | some a =>
    match h.get? a with
    | some (.slice elems) => some elems
    | _ => none

/-- The elements of the `[]map[string]interface{}` at `s`. -/
def Store.mapSliceAt (h : Store) : Option Nat → Option (List (Option Nat))
  | none => some []
  | some a =>
    match h.get? a with
    | some (.mapSlice elems) => some elems
    | _ => none

/-- The entries of the `map[interface{}]interface{}` at `m`. -/
def Store.ifaceMapAt (h : Store) : Option Nat → Option (List (Key × Ref))
  | none => some []
  | some a =>
    match h.get? a with
    | some (.ifaceMap entries) => some entries
    | _ => none

/-- `make(...)`: a new object, at the first address not in use. -/
def Store.make (h : Store) (o : Obj) : Store × Nat :=
  (h ++ [o], h.length)

/-- `result[key] = value` on the `map[string]interface{}` at `result`. -/
def Store.setKey (h : Store) (result : Nat) (key : List Char) (value : Ref) : Option Store :=
  match h.get? result with
  | some (.strMap entries) => some (h.set result (.strMap (mapSet entries key value)))
  | _ => none

/-- `result[key] = value` on the `map[interface{}]interface{}` at `result`. -/
def Store.setIfaceKey (h : Store) (result : Nat) (key : Key) (value : Ref) : Option Store :=
  match h.get? result with
  | some (.ifaceMap entries) => some (h.set result (.ifaceMap (mapSet entries key value)))
  | _ => none

/-- `result[i] = value` on the `[]interface{}` at `result`; `none` is the
panic on an index out of range. -/
def Store.setIndex (h : Store) (result : Nat) (i : Nat) (value : Ref) : Option Store :=
  match h.get? result with
  | some (.slice elems) =>
    if i < elems.length then some (h.set result (.slice (elems.set i value))) else none
  | _ => none

/-- `result[i] = value` on the `[]map[string]interface{}` at `result`. -/
def Store.setMapIndex (h : Store) (result : Nat) (i : Nat) (value : Option Nat) :
    Option Store :=
  match h.get? result with
  | some (.mapSlice elems) =>
    if i < elems.length then some (h.set result (.mapSlice (elems.set i value))) else none
  | _ => none

namespace heap

/-- The loop of `processMap`, over the entries the map held when the loop
began; `call` is `dm.processValue`. -/
def processMapLoop (call : Store → Ref → Option (Store × Ref)) (result : Nat) :
    List (List Char × Ref) → Store → Option Store
  | [], h => some h
  | (key, value) :: rest, h =>
    match call h value with
    | none => none
    | some (h1, v) =>
      match h1.setKey result key v with
      | none => none
      | some h2 => processMapLoop call result rest h2

/-- `processMap`: the store after the call and the address of `result`. -/
def processMap (call : Store → Ref → Option (Store × Ref)) (h : Store) (m : Option Nat) :
    Option (Store × Nat) :=
  match h.strMapAt m with
  | none => none
  | some entries =>
    match processMapLoop call (h.make (.strMap [])).2 entries (h.make (.strMap [])).1 with
    | none => none
    | some h1 => some (h1, (h.make (.strMap [])).2)

/-- The loop of `processInterfaceMap`. -/
def processInterfaceMapLoop (call : Store → Ref → Option (Store × Ref)) (result : Nat) :
    List (Key × Ref) → Store → Option Store
  | [], h => some h
  | (key, value) :: rest, h =>
    match call h value with
    | none => none
    | some (h1, v) =>
      match h1.setIfaceKey result key v with
      | none => none
      | some h2 => processInterfaceMapLoop call result rest h2

/-- `processInterfaceMap`. -/
def processInterfaceMap (call : Store → Ref → Option (Store × Ref)) (h : Store)
    (m : Option Nat) : Option (Store × Nat) :=
  match h.ifaceMapAt m with
  | none => none
  | some entries =>
    match processInterfaceMapLoop call (h.make (.ifaceMap [])).2 entries
        (h.make (.ifaceMap [])).1 with
    | none => none
    | some h1 => some (h1, (h.make (.ifaceMap [])).2)

/-- The loop of `processSlice`, from index `i`, over the elements the slice
held when the loop began. -/
def processSliceLoop (call : Store → Ref → Option (Store × Ref)) (result : Nat) :
    List Ref → Nat → Store → Option Store
  | [], _, h => some h
  | item :: rest, i, h =>
    match call h item with
    | none => none
    | some (h1, v) =>
      match h1.setIndex result i v with
      | none => none
      | some h2 => processSliceLoop call result rest (i + 1) h2

/-- `processSlice`; the new slice holds `len(s)` nil values before the loop. -/
def processSlice (call : Store → Ref → Option (Store × Ref)) (h : Store) (s : Option Nat) :
    Option (Store × Nat) :=
  match h.sliceAt s with
  | none => none
  | some elems =>
    match processSliceLoop call
        (h.make (.slice (List.replicate elems.length (.scalar .null)))).2 elems 0
        (h.make (.slice (List.replicate elems.length (.scalar .null)))).1 with
    | none => none
    | some h1 => some (h1, (h.make (.slice (List.replicate elems.length (.scalar .null)))).2)

/-- The loop of `processMapSlice`, from index `i`. -/
def processMapSliceLoop (call : Store → Ref → Option (Store × Ref)) (result : Nat) :
    List (Option Nat) → Nat → Store → Option Store
  | [], _, h => some h
  | item :: rest, i, h =>
    match processMap call h item with
    | none => none
    | some (h1, v) =>
      match h1.setMapIndex result i (some v) with
      | none => none
      | some h2 => processMapSliceLoop call result rest (i + 1) h2

/-- `processMapSlice`; the new slice holds `len(s)` nil maps before the loop. -/
def processMapSlice (call : Store → Ref → Option (Store × Ref)) (h : Store)
    (s : Option Nat) : Option (Store × Nat) :=
  match h.mapSliceAt s with
  | none => none
  | some elems =>
    match processMapSliceLoop call
        (h.make (.mapSlice (List.replicate elems.length none))).2 elems 0
        (h.make (.mapSlice (List.replicate elems.length none))).1 with
    | none => none
    | some h1 => some (h1, (h.make (.mapSlice (List.replicate elems.length none))).2)

/-- `processValue` over the store.  The first argument bounds the depth of
the calls: `none` is a panic, or a nesting deeper than the bound, as that of
a map that contains itself. -/
def processValue (MustCompile : List Char → Option Regexp) (dm : DefaultMasker) :
    Nat → Store → Ref → Option (Store × Ref)
  | 0, _, _ => none
  | _ + 1, h, .str v => (maskString MustCompile dm v).map (fun s => (h, .str s))
  | depth + 1, h, .strMap v =>
    (processMap (processValue MustCompile dm depth) h v).map
      (fun p => (p.1, .strMap (some p.2)))
  | depth + 1, h, .slice v =>
    (processSlice (processValue MustCompile dm depth) h v).map
      (fun p => (p.1, .slice (some p.2)))
  | depth + 1, h, .mapSlice v =>
    (processMapSlice (processValue MustCompile dm depth) h v).map
      (fun p => (p.1, .mapSlice (some p.2)))
  | depth + 1, h, .ifaceMap v =>
    (processInterfaceMap (processValue MustCompile dm depth) h v).map
      (fun p => (p.1, .ifaceMap (some p.2)))
  | _ + 1, h, .scalar v => some (h, .scalar v)

/-- `(*DefaultMasker).Mask` over the store. -/
def Mask (MustCompile : List Char → Option Regexp) (dm : DefaultMasker) (depth : Nat)
    (h : Store) (data : Ref) : Option (Store × Ref) :=
  processValue MustCompile dm depth h data

/-- The entries of a map read with `read` on every value. -/
def readEntries {κ : Type} (read : Ref → Option Value) :
    List (κ × Ref) → Option (List (κ × Value))
  | [] => some []
  | (key, value) :: rest =>
    match read value with
    | none => none
    | some v => (readEntries read rest).map (fun vs => (key, v) :: vs)

/-- The elements of a slice read with `read`. -/
def readElems {α β : Type} (read : α → Option β) : List α → Option (List β)
  | [] => some []
  | item :: rest =>
    match read item with
    | none => none
    | some v => (readElems read rest).map (fun vs => v :: vs)

/-- What a caller that holds `v` reads through it: the keys, elements and
strings of `v` down to the given depth, or `none` when `v` is nested deeper. -/
def read : Nat → Store → Ref → Option Value
  | 0, _, _ => none
  | _ + 1, _, .str s => some (.str s)
  | depth + 1, h, .strMap m =>
    ((h.strMapAt m).bind (readEntries (read depth h))).map Value.strMap
  | depth + 1, h, .slice s =>
    ((h.sliceAt s).bind (readElems (read depth h))).map Value.slice
  | depth + 1, h, .mapSlice s =>
    ((h.mapSliceAt s).bind
      (readElems (fun m => (h.strMapAt m).bind (readEntries (read depth h))))).map
      Value.mapSlice
  | depth + 1, h, .ifaceMap m =>
    ((h.ifaceMapAt m).bind (readEntries (read depth h))).map Value.ifaceMap
  | _ + 1, _, .scalar x => some (.scalar x)

end heap

/-- The value is a map or a slice. -/
def Ref.isContainer : Ref → Bool
  | .str _ => false
  | .scalar _ => false
  | _ => true

/-- The address of the container, when the value is a map or slice that is not nil. -/
def Ref.addr : Ref → Option Nat
  | .strMap a => a
  | .slice a => a
  | .mapSlice a => a
  | .ifaceMap a => a
  | _ => none

/-- Two values are of the same dynamic type. -/
def Ref.sameKind : Ref → Ref → Bool
  | .str _, .str _ => true
  | .strMap _, .strMap _ => true
  | .slice _, .slice _ => true
  | .mapSlice _, .mapSlice _ => true
  | .ifaceMap _, .ifaceMap _ => true
  | .scalar _, .scalar _ => true
  | _, _ => false

/-- An example store: a map that holds a card number, a slice and a number;
the slice holds a card number and a slice of maps, one of them nil. -/
def exampleStore : Store :=
  [.strMap [("credit_card".toList, .str "4111-1111-1111-1111".toList),
      ("items".toList, .slice (some 1)), ("age".toList, .scalar (.int 30))],
    .slice [.str "4111111111111111".toList, .mapSlice (some 2)],
    .mapSlice [some 3, none],
    .strMap [("k".toList, .ifaceMap none)]]

/-- The objects `Mask` adds to the example store for the map at address 0. -/
def exampleStoreNew : Store :=
  [.strMap [("credit_card".toList, .str "4111********1111".toList),
      ("items".toList, .slice (some 5)), ("age".toList, .scalar (.int 30))],
    .slice [.str "4111********1111".toList, .mapSlice (some 6)],
    .mapSlice [some 7, some 9],
    .strMap [("k".toList, .ifaceMap (some 8))],
    .ifaceMap [],
    .strMap []]

end masker

/-! ### More examples and notions the claims are stated with -/

namespace regexp

/-- Does `re` match the whole of `s`, from its first to its last character:
the backtracking search at the beginning of `s`, with a continuation that
accepts only at the end of `s`. -/
def Re.matchesAll (re : Re) (s : List Char) : Bool :=
  (re.run none s (fun _ r => if r = [] then some [] else none)).isSome

end regexp

namespace masker

open regexp

/-- An example rule: lower-case letters followed by digits. -/
def wordRule : Pattern :=
  { Name := "word".toList, Regex := "[a-z]+\\d+".toList, MaskFunc := some (fun _ => "W".toList) }

/-- An example rule whose expression, an `a` and an unclosed parenthesis,
does not compile alone. -/
def openRule : Pattern :=
  { Name := "open".toList, Regex := "a(".toList, MaskFunc := some (fun _ => "***".toList) }

/-- An example rule whose expression, a `b` and a closing parenthesis, does
not compile alone; after `openRule` the combined expression is `a(|b)`. -/
def closeRule : Pattern :=
  { Name := "close".toList, Regex := "b)".toList, MaskFunc := some (fun _ => "***".toList) }

/-- An example store: a map that holds itself under the key `self`. -/
def cyclicStore : Store :=
  [.strMap [("self".toList, .strMap (some 0))]]

end masker

/-! ### Reading a value that holds no nil map or slice -/

namespace masker

open regexp

namespace heap

/-- The entries of the map at `m` read with `read`; `none` on a nil map. -/
def readMapNonNil (h : Store) (read : Ref → Option Value) :
    Option Nat → Option (List (List Char × Value))
  | none => none
  | some a => (h.strMapAt (some a)).bind (readEntries read)

/-- What a caller reads through `v` when no map or slice on the way is nil:
as `read`, but `none` on a nil map or slice.  Two values with the same
reading hold the same keys, elements, strings and scalars at the same places
and are nil nowhere, so they are structurally and value-equal. -/
def readNonNil : Nat → Store → Ref → Option Value
  | 0, _, _ => none
  | _ + 1, _, .str s => some (.str s)
  | _ + 1, _, .strMap none => none
  | depth + 1, h, .strMap (some a) =>
    ((h.strMapAt (some a)).bind (readEntries (readNonNil depth h))).map Value.strMap
  | _ + 1, _, .slice none => none
  | depth + 1, h, .slice (some a) =>
    ((h.sliceAt (some a)).bind (readElems (readNonNil depth h))).map Value.slice
  | _ + 1, _, .mapSlice none => none
  | depth + 1, h, .mapSlice (some a) =>
    ((h.mapSliceAt (some a)).bind
      (readElems (readMapNonNil h (readNonNil depth h)))).map Value.mapSlice
  | _ + 1, _, .ifaceMap none => none
  | depth + 1, h, .ifaceMap (some a) =>
    ((h.ifaceMapAt (some a)).bind (readEntries (readNonNil depth h))).map Value.ifaceMap
  | _ + 1, _, .scalar x => some (.scalar x)

end heap

/-- The value is a nil map or a nil slice. -/
def Ref.isNil : Ref → Bool
  | .strMap none => true
  | .slice none => true
  | .mapSlice none => true
  | .ifaceMap none => true
  | _ => false

/-- An example store without a nil map or slice: a map that holds a text, a
slice and a number; the slice holds a text and a slice of one map, which
holds an empty map with keys of any type. -/
def plainStore : Store :=
  [.strMap [("name".toList, .str "this is just regular text".toList),
      ("items".toList, .slice (some 1)), ("age".toList, .scalar (.int 30))],
    .slice [.str "hello world".toList, .mapSlice (some 2)],
    .mapSlice [some 3],
    .strMap [("k".toList, .ifaceMap (some 4))],
    .ifaceMap []]

/-- What is read through the map at address 0 of `plainStore`. -/
def plainValue : Value :=
  .strMap [("name".toList, .str "this is just regular text".toList),
    ("items".toList, .slice [.str "hello world".toList,
      .mapSlice [[("k".toList, .ifaceMap [])]]]),
    ("age".toList, .scalar (.int 30))]

/-- The parsed expression `[A-Z]+` of `upperRule`. -/
def upperRe : Re := .plus true (.charClass ⟨false, [(65, 90)]⟩)

/-- The parsed expression `\d+` of `digitsRule`. -/
def digitsRe : Re := .plus true (.charClass digitClass)

/-- The masker that construction gives for the rules `upperRule` and `digitsRule`. -/
def upperDigitsMasker : DefaultMasker :=
  { patterns := [upperRule, digitsRule],
    cache := some (Re.alternate upperRe digitsRe).toRegexp, compiled := true }

/-- Example options: two rules without a replace function whose expressions,
an unclosed class and a `1` with a closing bracket, join to the class
`[x|1]`, and a rule that replaces a text that is `1` by `Z`. -/
def joinOptions : List ConfigOption :=
  [WithCustomPattern "a".toList "[x".toList none,
   WithCustomPattern "b".toList "1]".toList none,
   WithCustomPattern "c".toList "^1$".toList (some (fun _ => "Z".toList))]

end masker

/-! ## Go's `regexp`: replacing all matches -/

namespace regexp

theorem substr_self (s : List Char) (i : Nat) : substr s i i = [] := by
  unfold substr
  apply List.drop_eq_nil_of_le
  simp [List.length_take]

theorem Spans.mono {lo lo1 n : Nat} {ms : List (Nat × Nat)} (h : Spans lo1 ms n)
    (hle : lo ≤ lo1) : Spans lo ms n := by
  cases ms with
  | nil => trivial
  | cons m ms =>
    obtain ⟨a, b⟩ := m
    simp only [Spans] at h ⊢
    exact ⟨le_trans hle h.1, h.2⟩

theorem Regexp.allMatchesLoop_spans (re : Regexp) (s : List Char) :
    ∀ (fuel pos : Nat) (prev : Int), Spans pos (re.allMatchesLoop s fuel pos prev) s.length := by
  intro fuel
  induction fuel with
  | zero => intro pos prev; simp [Regexp.allMatchesLoop, Spans]
  | succ fuel ih =>
    intro pos prev
    simp only [Regexp.allMatchesLoop]
    split
    · split
      · trivial
      · rename_i m0 m1 h
        have hr := re.inRange _ _ _ _ h
        split
        · split
          · exact (ih _ _).mono (by split <;> omega)
          · exact ⟨hr.1, hr.2.1, hr.2.2, (ih _ _).mono (by split <;> omega)⟩
        · exact ⟨hr.1, hr.2.1, hr.2.2, ih _ _⟩
    · trivial

theorem Regexp.allMatchesLoop_found (re : Regexp) (s : List Char) :
    ∀ (fuel pos : Nat) (prev : Int), ∀ m ∈ re.allMatchesLoop s fuel pos prev,
      ∃ p, re.doExecute s p = some m := by
  intro fuel
  induction fuel with
  | zero => intro pos prev m hm; simp [Regexp.allMatchesLoop] at hm
  | succ fuel ih =>
    intro pos prev m hm
    simp only [Regexp.allMatchesLoop] at hm
    split at hm
    · split at hm
      · simp at hm
      · rename_i m0 m1 h
        split at hm
        · split at hm
          · exact ih _ _ m hm
          · rcases List.mem_cons.1 hm with rfl | hm
            · exact ⟨pos, h⟩
            · exact ih _ _ m hm
        · rcases List.mem_cons.1 hm with rfl | hm
          · exact ⟨pos, h⟩
          · exact ih _ _ m hm
    · simp at hm

theorem Regexp.replaceAllLoop_eq_splice (re : Regexp) (src : List Char)
    (repl : List Char → Option (List Char)) :
    ∀ (fuel last pos : Nat) (buf : List Char) (prev : Int),
      (prev = -1 ∧ last = 0 ∧ pos = 0) ∨ (prev = (last : Int) ∧ last ≤ pos ∧ 1 ≤ pos) →
      re.replaceAllLoop src repl fuel last pos buf =
        (splice src repl last (re.allMatchesLoop src fuel pos prev)).map (fun r => buf ++ r) := by
  intro fuel
  induction fuel with
  | zero => intro last pos buf prev _; simp [Regexp.replaceAllLoop, Regexp.allMatchesLoop, splice]
  | succ fuel ih =>
    intro last pos buf prev hinv
    simp only [Regexp.replaceAllLoop, Regexp.allMatchesLoop]
    by_cases hpos : pos ≤ src.length
    · simp only [hpos, if_true]
      cases h : re.doExecute src pos with
      | none => simp [splice]
      | some m =>
        obtain ⟨a0, a1⟩ := m
        have hr := re.inRange _ _ _ _ h
        simp only
        by_cases hempty : a1 = pos
        · -- an empty match at the search position
          have ha0 : a0 = pos := by omega
          subst hempty ha0
          have hnext : (if a0 + (if a0 < src.length then 1 else 0) > a0 then
                a0 + (if a0 < src.length then 1 else 0)
              else if a0 + 1 > a0 then a0 + 1 else a0) =
              (if a0 < src.length then a0 + 1 else src.length + 1) := by
            by_cases hl : a0 < src.length
            · simp [hl]
            · have hlen : a0 = src.length := by omega
              simp [hl, hlen]
          rw [hnext]
          simp only [if_true]
          have hinv1 : ((a0 : Int) = -1 ∧ a0 = 0 ∧
              (if a0 < src.length then a0 + 1 else src.length + 1) = 0) ∨
              (((a0 : Nat) : Int) = (a0 : Int) ∧
                a0 ≤ (if a0 < src.length then a0 + 1 else src.length + 1) ∧
                1 ≤ (if a0 < src.length then a0 + 1 else src.length + 1)) := by
            right
            refine ⟨rfl, ?_, ?_⟩ <;> split <;> omega
          by_cases hrej : (a0 : Int) = prev
          · -- ignored right after a previous match
            have hlast : last = a0 ∧ 1 ≤ a0 := by
              rcases hinv with ⟨h1, _, _⟩ | ⟨h1, h2, h3⟩
              · omega
              · omega
            have hcond : ¬ (a0 > last ∨ a0 = 0) := by omega
            subst hrej
            simp only [hcond, if_false, if_true]
            rw [ih _ _ _ _ hinv1, hlast.1, substr_self, List.append_nil]
          · have hcond : a0 > last ∨ a0 = 0 := by
              rcases hinv with ⟨h1, h2, h3⟩ | ⟨h1, h2, h3⟩
              · omega
              · left
                have : last ≠ a0 := by
                  intro hx
                  apply hrej
                  rw [h1, hx]
                omega
            simp only [hcond, if_true, hrej, if_false, splice]
            cases hrepl : repl (substr src a0 a0) with
            | none => simp
            | some r =>
              simp only
              rw [ih _ _ _ _ hinv1]
              cases splice src repl a0 (re.allMatchesLoop src fuel
                (if a0 < src.length then a0 + 1 else src.length + 1) a0) with
              | none => simp
              | some rest => simp [List.append_assoc]
        · have hlt : pos < a1 := by omega
          have hposlt : pos < src.length := by omega
          have hnext : (if pos + (if pos < src.length then 1 else 0) > a1 then
                pos + (if pos < src.length then 1 else 0)
              else if pos + 1 > a1 then pos + 1 else a1) = a1 := by
            simp only [hposlt, if_true]
            rw [if_neg (by omega), if_neg (by omega)]
          rw [hnext]
          have hcond : a1 > last ∨ a0 = 0 := by
            rcases hinv with ⟨h1, h2, h3⟩ | ⟨h1, h2, h3⟩ <;> omega
          have hinv1 : ((a1 : Int) = -1 ∧ a1 = 0 ∧ a1 = 0) ∨
              (((a1 : Nat) : Int) = (a1 : Int) ∧ a1 ≤ a1 ∧ 1 ≤ a1) := by
            right
            exact ⟨rfl, le_refl _, by omega⟩
          simp only [hcond, if_true, hempty, if_false, splice]
          cases hrepl : repl (substr src a0 a1) with
          | none => simp
          | some r =>
            simp only
            rw [ih _ _ _ _ hinv1]
            cases splice src repl a1 (re.allMatchesLoop src fuel a1 a1) with
            | none => simp
            | some rest => simp [List.append_assoc]
    · simp [hpos, splice]

theorem runLoop_fuel (body : Option Char → List Char → Cont → Option (List Char)) (greedy : Bool)
    (k : Cont) :
    ∀ (fuel extra : Nat) (p : Option Char) (s : List Char), s.length < fuel →
      runLoop body greedy k (fuel + extra) p s = runLoop body greedy k fuel p s := by
  intro fuel
  induction fuel with
  | zero => intro extra p s h; omega
  | succ fuel ih =>
    intro extra p s h
    have hsucc : fuel + 1 + extra = (fuel + extra) + 1 := by omega
    rw [hsucc]
    simp only [runLoop]
    have hk : (fun p1 s1 =>
        if s1.length < s.length then runLoop body greedy k (fuel + extra) p1 s1 else none) =
        (fun p1 s1 => if s1.length < s.length then runLoop body greedy k fuel p1 s1 else none) := by
      funext p1 s1
      split
      · exact ih extra p1 s1 (by omega)
      · rfl
    rw [hk]

theorem runPlus_fuel (body : Option Char → List Char → Cont → Option (List Char)) (greedy : Bool)
    (k : Cont) :
    ∀ (fuel extra : Nat) (p : Option Char) (s : List Char), s.length < fuel →
      runPlus body greedy k (fuel + extra) p s = runPlus body greedy k fuel p s := by
  intro fuel
  induction fuel with
  | zero => intro extra p s h; omega
  | succ fuel ih =>
    intro extra p s h
    have hsucc : fuel + 1 + extra = (fuel + extra) + 1 := by omega
    rw [hsucc]
    simp only [runPlus]
    have hk : (fun p1 s1 =>
        if greedy = true then
          firstOf (if s1.length < s.length then runPlus body greedy k (fuel + extra) p1 s1
            else none) (k p1 s1)
        else
          firstOf (k p1 s1) (if s1.length < s.length then
            runPlus body greedy k (fuel + extra) p1 s1 else none)) =
        (fun p1 s1 =>
        if greedy = true then
          firstOf (if s1.length < s.length then runPlus body greedy k fuel p1 s1
            else none) (k p1 s1)
        else
          firstOf (k p1 s1) (if s1.length < s.length then
            runPlus body greedy k fuel p1 s1 else none)) := by
      funext p1 s1
      by_cases hlt : s1.length < s.length
      · simp only [hlt, if_true, ih extra p1 s1 (by omega)]
      · simp only [hlt, if_false]
    rw [hk]

theorem Regexp.allMatchesLoop_fuel (re : Regexp) (s : List Char) :
    ∀ (fuel pos : Nat) (prev : Int) (extra : Nat), s.length + 1 ≤ pos + fuel →
      re.allMatchesLoop s (fuel + extra) pos prev = re.allMatchesLoop s fuel pos prev := by
  intro fuel
  induction fuel with
  | zero =>
    intro pos prev extra h
    cases extra with
    | zero => rfl
    | succ e =>
      have hpos : ¬ pos ≤ s.length := by omega
      simp [Regexp.allMatchesLoop, hpos]
  | succ fuel ih =>
    intro pos prev extra h
    have hsucc : fuel + 1 + extra = (fuel + extra) + 1 := by omega
    rw [hsucc]
    simp only [Regexp.allMatchesLoop]
    split
    · split
      · rfl
      · rename_i m0 m1 hm
        have hr := re.inRange _ _ _ _ hm
        split
        · have hnext : s.length + 1 ≤ (if pos < s.length then pos + 1 else s.length + 1) + fuel := by
            split <;> omega
          rw [ih _ _ extra hnext]
        · rw [ih _ _ extra (by omega)]
    · rfl

theorem Regexp.replaceAllLoop_fuel (re : Regexp) (src : List Char)
    (repl : List Char → Option (List Char)) :
    ∀ (fuel last pos : Nat) (buf : List Char) (extra : Nat), src.length + 1 ≤ pos + fuel →
      re.replaceAllLoop src repl (fuel + extra) last pos buf =
        re.replaceAllLoop src repl fuel last pos buf := by
  intro fuel
  induction fuel with
  | zero =>
    intro last pos buf extra h
    cases extra with
    | zero => rfl
    | succ e =>
      have hpos : ¬ pos ≤ src.length := by omega
      simp [Regexp.replaceAllLoop, hpos]
  | succ fuel ih =>
    intro last pos buf extra h
    have hsucc : fuel + 1 + extra = (fuel + extra) + 1 := by omega
    rw [hsucc]
    simp only [Regexp.replaceAllLoop]
    split
    · split
      · rfl
      · rename_i a0 a1 hm
        have hr := re.inRange _ _ _ _ hm
        have hnext : src.length + 1 ≤
            (if pos + (if pos < src.length then 1 else 0) > a1 then
                pos + (if pos < src.length then 1 else 0)
              else if pos + 1 > a1 then pos + 1 else a1) + fuel := by
          by_cases hl : pos < src.length
          · simp only [hl, if_true]
            split
            · omega
            · omega
          · simp only [hl, if_false]
            split
            · omega
            · split <;> omega
        split
        · split
          · rfl
          · rw [ih _ _ _ extra hnext]
        · rw [ih _ _ _ extra hnext]
    · rfl

theorem Regexp.ReplaceAllStringFunc_eq_splice (re : Regexp) (src : List Char)
    (repl : List Char → Option (List Char)) :
    re.ReplaceAllStringFunc src repl = splice src repl 0 (re.FindAllStringIndex src) := by
  unfold Regexp.ReplaceAllStringFunc Regexp.FindAllStringIndex
  rw [Regexp.replaceAllLoop_eq_splice re src repl _ 0 0 [] (-1) (Or.inl ⟨rfl, rfl, rfl⟩)]
  cases splice src repl 0 (re.allMatchesLoop src (src.length + 1) 0 (-1)) <;> simp

theorem Regexp.ReplaceAllStringFunc_no_match (re : Regexp) (src : List Char)
    (repl : List Char → Option (List Char)) (h : re.MatchString src = false) :
    re.ReplaceAllStringFunc src repl = some src := by
  have h0 : re.doExecute src 0 = none := by
    unfold Regexp.MatchString at h
    cases hx : re.doExecute src 0 with
    | none => rfl
    | some m => rw [hx] at h; cases h
  simp [Regexp.ReplaceAllStringFunc, Regexp.replaceAllLoop, h0]

theorem Regexp.ReplaceAllStringFunc_whole (re : Regexp) (src : List Char)
    (repl : List Char → Option (List Char)) (hpos : 0 < src.length)
    (h0 : re.doExecute src 0 = some (0, src.length))
    (hend : re.doExecute src src.length = none) :
    re.ReplaceAllStringFunc src repl = repl src := by
  obtain ⟨n, hn⟩ : ∃ n, src.length = n + 1 := ⟨src.length - 1, by omega⟩
  have hsub : substr src 0 src.length = src := by simp [substr]
  have hnext : (if 0 + (if 0 < src.length then 1 else 0) > src.length then
        0 + (if 0 < src.length then 1 else 0)
      else if 0 + 1 > src.length then 0 + 1 else src.length) = src.length := by
    simp only [hpos, if_true]
    rw [if_neg (by omega), if_neg (by omega)]
  unfold Regexp.ReplaceAllStringFunc
  simp only [Regexp.replaceAllLoop, Nat.zero_le, if_true, h0, hnext, hsub, substr_self]
  rw [if_pos (Or.inr trivial)]
  cases hr : repl src with
  | none => rfl
  | some r =>
    have hloop : ∀ buf, re.replaceAllLoop src repl src.length src.length src.length buf =
        some (buf ++ List.drop src.length src) := by
      intro buf
      rw [show re.replaceAllLoop src repl src.length src.length src.length buf =
        re.replaceAllLoop src repl (n + 1) src.length src.length buf from by rw [hn]]
      simp only [Regexp.replaceAllLoop, le_refl, if_true, hend]
    simp only [hloop, List.drop_length, List.append_nil, List.nil_append]

theorem parse_creditCardRegex : Parse masker.creditCardRegex = some masker.creditCardRe := by
  rfl

end regexp

/-! ## The repository's tests on the model -/

namespace masker

/-- The cases of `TestMaskData_SimpleString`. -/
theorem TestMaskData_SimpleString :
    MaskString regexp.MustCompile "4111-1111-1111-1111".toList [] =
        some "4111********1111".toList ∧
      MaskString regexp.MustCompile "4111 1111 1111 1111".toList [] =
        some "4111********1111".toList ∧
      MaskString regexp.MustCompile "4111111111111111".toList [] =
        some "4111********1111".toList ∧
      MaskString regexp.MustCompile "hello world".toList [] = some "hello world".toList :=
  ⟨by decide, by decide, by decide, by decide⟩

/-- The case of `TestMaskerWithCustomOptions`, with the masker built by
`NewWithOpts` from the option the test passes. -/
theorem TestMaskerWithCustomOptions :
    MaskString regexp.MustCompile "12345-678".toList
        [WithCustomPattern "zip_code".toList "\\d\x7b5\x7d-\\d\x7b3\x7d".toList
          (some (fun _ => "*****-***".toList))] = some "*****-***".toList := by
  decide

end masker

/-! ## The claims -/

namespace masker

open regexp

theorem regexParts_ne_nil (patterns : List Pattern) (h : ∃ p ∈ patterns, p.Regex ≠ []) :
    regexParts patterns ≠ [] := by
  induction patterns with
  | nil => simp at h
  | cons q rest ih =>
    by_cases hq : q.Regex = []
    · simp only [regexParts, hq, ne_eq, not_true_eq_false, if_false]
      apply ih
      obtain ⟨p, hp, hne⟩ := h
      rcases List.mem_cons.1 hp with rfl | hp
      · exact absurd hq hne
      · exact ⟨p, hp, hne⟩
    · simp [regexParts, hq]

/-- C1: for a rule list with at least one non-empty expression whose combined
expression compiles, construction gives an active masker, and `maskString s`
is `s` in which each of the successive non-overlapping matches of the
combined expression (`FindAllStringIndex`, in order and within `s`, each one
a match the expression finds) is replaced by its dispatch result and the
text between the matches is kept. -/
theorem maskString_replaces_matches (MustCompile : List Char → Option Regexp)
    (patterns : List Pattern) (cache : Regexp) (s : List Char)
    (hactive : ∃ p ∈ patterns, p.Regex ≠ [])
    (hcompile : MustCompile (stringsJoin (regexParts patterns) ['|']) = some cache) :
    compilePatterns MustCompile { patterns := patterns, cache := none, compiled := false } =
        some { patterns := patterns, cache := some cache, compiled := true } ∧
      Spans 0 (cache.FindAllStringIndex s) s.length ∧
      (∀ m ∈ cache.FindAllStringIndex s, ∃ pos, cache.doExecute s pos = some m) ∧
      maskString MustCompile { patterns := patterns, cache := some cache, compiled := true } s =
        splice s (dispatch MustCompile patterns) 0 (cache.FindAllStringIndex s) := by
  have hparts := regexParts_ne_nil patterns hactive
  have hlen : patterns.length > 0 := by
    obtain ⟨p, hp, _⟩ := hactive
    exact List.length_pos_of_mem hp
  have hplen : (regexParts patterns).length > 0 := List.length_pos.2 hparts
  refine ⟨?_, ?_, ?_, ?_⟩
  · simp [compilePatterns, hlen, hplen, hcompile]
  · exact Regexp.allMatchesLoop_spans cache s _ _ _
  · exact Regexp.allMatchesLoop_found cache s _ _ _
  · simp only [maskString, Bool.not_true, Bool.false_eq_true, if_false]
    exact Regexp.ReplaceAllStringFunc_eq_splice cache s _

theorem maskString_replaces_matches_witness :
    (∃ p ∈ DefaultPatterns, p.Regex ≠ []) ∧
      regexp.MustCompile (stringsJoin (regexParts DefaultPatterns) ['|']) =
        some creditCardRe.toRegexp ∧
      (compilePatterns regexp.MustCompile
          { patterns := DefaultPatterns, cache := none, compiled := false } =
        some { patterns := DefaultPatterns, cache := some creditCardRe.toRegexp,
               compiled := true } ∧
      Spans 0 (creditCardRe.toRegexp.FindAllStringIndex "pay 4111111111111111".toList)
        "pay 4111111111111111".toList.length ∧
      (∀ m ∈ creditCardRe.toRegexp.FindAllStringIndex "pay 4111111111111111".toList,
        ∃ pos, creditCardRe.toRegexp.doExecute "pay 4111111111111111".toList pos = some m) ∧
      maskString regexp.MustCompile
          { patterns := DefaultPatterns, cache := some creditCardRe.toRegexp, compiled := true }
          "pay 4111111111111111".toList =
        splice "pay 4111111111111111".toList (dispatch regexp.MustCompile DefaultPatterns) 0
          (creditCardRe.toRegexp.FindAllStringIndex "pay 4111111111111111".toList)) :=
  ⟨⟨_, List.mem_singleton.2 rfl, by decide⟩, rfl,
    maskString_replaces_matches regexp.MustCompile DefaultPatterns creditCardRe.toRegexp
      "pay 4111111111111111".toList ⟨_, List.mem_singleton.2 rfl, by decide⟩ rfl⟩

theorem dispatch_skip (MustCompile : List Char → Option Regexp) (pre rest : List Pattern)
    (m : List Char)
    (hpre : ∀ p ∈ pre, ∀ f, p.MaskFunc = some f →
      ∃ re, MustCompile p.Regex = some re ∧ re.MatchString m = false) :
    dispatch MustCompile (pre ++ rest) m = dispatch MustCompile rest m := by
  induction pre with
  | nil => rfl
  | cons q pre ih =>
    have ih1 := ih (fun p hp => hpre p (List.mem_cons_of_mem _ hp))
    simp only [List.cons_append, dispatch]
    cases hq : q.MaskFunc with
    | none => simpa using ih1
    | some f =>
      obtain ⟨re, hre, hno⟩ := hpre q (List.mem_cons_self _ _) f hq
      simp only [hre, hno, Bool.false_eq_true, if_false]
      exact ih1

/-- C2: rule precedence.  When every rule before `r` that has a replace
function has an expression that compiles and does not match `m`, and `r` has
a replace function `f` and an expression that matches `m`, the dispatch of
`m` is `f m`, whatever rules follow `r`; and when no rule of the list has
both a replace function and an expression matching `m`, the dispatch leaves
`m` unchanged.  By C1 the dispatch result is the text put in place of `m`. -/
theorem dispatch_first_matching_rule (MustCompile : List Char → Option Regexp)
    (pre post : List Pattern) (m : List Char)
    (hpre : ∀ p ∈ pre, ∀ f, p.MaskFunc = some f →
      ∃ re, MustCompile p.Regex = some re ∧ re.MatchString m = false) :
    (∀ (r : Pattern) (f : List Char → List Char) (re : Regexp),
        r.MaskFunc = some f → MustCompile r.Regex = some re → re.MatchString m = true →
        dispatch MustCompile (pre ++ r :: post) m = some (f m)) ∧
      dispatch MustCompile pre m = some m := by
  constructor
  · intro r f re hf hre hm
    rw [dispatch_skip MustCompile pre (r :: post) m hpre]
    simp [dispatch, hf, hre, hm]
  · have h := dispatch_skip MustCompile pre [] m hpre
    simpa [dispatch] using h

theorem dispatch_first_matching_rule_witness :
    (∀ p ∈ [upperRule], ∀ f, p.MaskFunc = some f →
      ∃ re, regexp.MustCompile p.Regex = some re ∧ re.MatchString "42".toList = false) ∧
    ((∀ (r : Pattern) (f : List Char → List Char) (re : Regexp),
        r.MaskFunc = some f → regexp.MustCompile r.Regex = some re →
        re.MatchString "42".toList = true →
        dispatch regexp.MustCompile ([upperRule] ++ r :: [digitRule]) "42".toList =
          some (f "42".toList)) ∧
      dispatch regexp.MustCompile [upperRule] "42".toList = some "42".toList) :=
  have h : ∀ p ∈ [upperRule], ∀ f, p.MaskFunc = some f →
      ∃ re, regexp.MustCompile p.Regex = some re ∧ re.MatchString "42".toList = false := by
    intro p hp f _
    rw [List.mem_singleton.1 hp]
    exact ⟨_, rfl, by decide⟩
  ⟨h, dispatch_first_matching_rule regexp.MustCompile [upperRule] [digitRule] "42".toList h⟩

/-- C3, as the claim states it, fails: in the list `[digitsNoFunc, digitRule]`
the first rule whose expression matches `"42"` is `digitsNoFunc`, which has no
replace function, yet `"42"` is replaced, by the later rule `digitRule`. -/
theorem absent_replace_counterexample :
    (∃ re, regexp.MustCompile digitsNoFunc.Regex = some re ∧
        re.MatchString "42".toList = true) ∧
      digitsNoFunc.MaskFunc = none ∧
      MaskString regexp.MustCompile "42".toList [WithPatterns [digitsNoFunc, digitRule]] =
        some "D".toList ∧
      "D".toList ≠ "42".toList :=
  ⟨⟨_, rfl, by decide⟩, rfl, by decide, by decide⟩

/-- C3, amended: the dispatch skips a rule `r` without a replace function,
so `m` is dispatched as if `r` were not in the list; and when the rules
before `r` that have a replace function do not match `m`, `m` is left
unchanged provided the same holds of the rules after `r`. -/
theorem dispatch_rule_without_replace (MustCompile : List Char → Option Regexp)
    (pre post : List Pattern) (r : Pattern) (m : List Char)
    (hr : r.MaskFunc = none)
    (hpre : ∀ p ∈ pre, ∀ f, p.MaskFunc = some f →
      ∃ re, MustCompile p.Regex = some re ∧ re.MatchString m = false) :
    dispatch MustCompile (pre ++ r :: post) m = dispatch MustCompile post m ∧
      ((∀ p ∈ post, ∀ f, p.MaskFunc = some f →
          ∃ re, MustCompile p.Regex = some re ∧ re.MatchString m = false) →
        dispatch MustCompile (pre ++ r :: post) m = some m) := by
  have h1 : dispatch MustCompile (pre ++ r :: post) m = dispatch MustCompile post m := by
    rw [dispatch_skip MustCompile pre (r :: post) m hpre]
    simp [dispatch, hr]
  refine ⟨h1, fun hpost => ?_⟩
  rw [h1]
  have h := dispatch_skip MustCompile post [] m hpost
  simpa [dispatch] using h

theorem dispatch_rule_without_replace_witness :
    digitsNoFunc.MaskFunc = none ∧
    (∀ p ∈ [upperRule], ∀ f, p.MaskFunc = some f →
      ∃ re, regexp.MustCompile p.Regex = some re ∧ re.MatchString "42".toList = false) ∧
    (dispatch regexp.MustCompile ([upperRule] ++ digitsNoFunc :: [upperRule]) "42".toList =
        dispatch regexp.MustCompile [upperRule] "42".toList ∧
      ((∀ p ∈ [upperRule], ∀ f, p.MaskFunc = some f →
          ∃ re, regexp.MustCompile p.Regex = some re ∧ re.MatchString "42".toList = false) →
        dispatch regexp.MustCompile ([upperRule] ++ digitsNoFunc :: [upperRule]) "42".toList =
          some "42".toList)) :=
  have h : ∀ p ∈ [upperRule], ∀ f, p.MaskFunc = some f →
      ∃ re, regexp.MustCompile p.Regex = some re ∧ re.MatchString "42".toList = false := by
    intro p hp f _
    rw [List.mem_singleton.1 hp]
    exact ⟨_, rfl, by decide⟩
  ⟨rfl, h,
    dispatch_rule_without_replace regexp.MustCompile [upperRule] [upperRule] digitsNoFunc
      "42".toList rfl h⟩

/-- C4, the code at the failing input: with the empty-expression rule of
`TestEmptyCustomPattern` put before the default rule the card number is
replaced by `"empty"`, and without it by `"4111********1111"`; the combined
expression is the same in both cases. -/
theorem empty_pattern_rule_captures_match :
    MaskString regexp.MustCompile "4111-1111-1111-1111".toList
        [WithPatterns (emptyRule :: DefaultPatterns)] = some "empty".toList ∧
      MaskString regexp.MustCompile "4111-1111-1111-1111".toList
        [WithPatterns DefaultPatterns] = some "4111********1111".toList ∧
      regexParts (emptyRule :: DefaultPatterns) = regexParts DefaultPatterns :=
  ⟨by decide, by decide, rfl⟩

/-! ### Maps and slices -/

theorem processMap_eq_foldEntries (MustCompile : List Char → Option Regexp) (dm : DefaultMasker) :
    ∀ (m result : List (List Char × Value)),
      processMap MustCompile dm m result = foldEntries (processValue MustCompile dm) m result := by
  intro m
  induction m with
  | nil => intro result; simp [processMap, foldEntries]
  | cons e rest ih =>
    intro result
    obtain ⟨k, v⟩ := e
    simp only [processMap, foldEntries]
    cases processValue MustCompile dm v with
    | none => rfl
    | some w => exact ih _

theorem processInterfaceMap_eq_foldEntries (MustCompile : List Char → Option Regexp)
    (dm : DefaultMasker) :
    ∀ (m result : List (Key × Value)),
      processInterfaceMap MustCompile dm m result =
        foldEntries (processValue MustCompile dm) m result := by
  intro m
  induction m with
  | nil => intro result; simp [processInterfaceMap, foldEntries]
  | cons e rest ih =>
    intro result
    obtain ⟨k, v⟩ := e
    simp only [processInterfaceMap, foldEntries]
    cases processValue MustCompile dm v with
    | none => rfl
    | some w => exact ih _

theorem mapSet_of_not_mem {κ ν : Type} [DecidableEq κ] :
    ∀ (m : List (κ × ν)) (k : κ) (v : ν), k ∉ m.map Prod.fst → mapSet m k v = m ++ [(k, v)] := by
  intro m
  induction m with
  | nil => intro k v _; rfl
  | cons e rest ih =>
    intro k v hk
    obtain ⟨k1, v1⟩ := e
    simp only [List.map_cons, List.mem_cons, not_or] at hk
    have hne : ¬ k1 = k := fun h => hk.1 h.symm
    simp [mapSet, hne, ih k v hk.2]

theorem foldEntries_iff {κ : Type} [DecidableEq κ] (f : Value → Option Value) :
    ∀ (m result : List (κ × Value)), (m.map Prod.fst).Nodup →
      (∀ k ∈ m.map Prod.fst, k ∉ result.map Prod.fst) →
      ∀ out, foldEntries f m result = some out ↔
        ∃ r, out = result ++ r ∧
          List.Forall₂ (fun e e1 => e1.1 = e.1 ∧ f e.2 = some e1.2) m r := by
  intro m
  induction m with
  | nil =>
    intro result _ _ out
    simp only [foldEntries, Option.some.injEq]
    constructor
    · intro h
      exact ⟨[], by simp [h], List.Forall₂.nil⟩
    · rintro ⟨r, hr, hf⟩
      cases hf
      simp [hr]
  | cons e rest ih =>
    intro result hnd hdis out
    obtain ⟨k, v⟩ := e
    simp only [List.map_cons, List.nodup_cons] at hnd
    have hk : k ∉ result.map Prod.fst := hdis k (by simp)
    simp only [foldEntries]
    cases hv : f v with
    | none =>
      constructor
      · intro h; cases h
      · rintro ⟨r, _, hf⟩
        cases hf with
        | cons h1 _ => rw [hv] at h1; cases h1.2
    | some w =>
      simp only
      rw [mapSet_of_not_mem result k w hk]
      have hdis1 : ∀ k1 ∈ rest.map Prod.fst, k1 ∉ (result ++ [(k, w)]).map Prod.fst := by
        intro k1 hk1
        simp only [List.map_append, List.map_cons, List.map_nil, List.mem_append,
          List.mem_singleton, not_or]
        refine ⟨hdis k1 (by simp only [List.map_cons, List.mem_cons]; exact Or.inr hk1), ?_⟩
        intro h
        exact hnd.1 (h ▸ hk1)
      rw [ih (result ++ [(k, w)]) hnd.2 hdis1 out]
      constructor
      · rintro ⟨r, hr, hf⟩
        refine ⟨(k, w) :: r, by simp [hr], List.Forall₂.cons ⟨rfl, hv⟩ hf⟩
      · rintro ⟨r, hr, hf⟩
        cases hf with
        | cons h1 h2 =>
          rename_i e1 r1
          obtain ⟨k1, w1⟩ := e1
          simp only at h1
          rw [hv] at h1
          obtain ⟨hk1, hw1⟩ := h1
          simp only [Option.some.injEq] at hw1
          subst hk1 hw1
          exact ⟨r1, by simp [hr], h2⟩

theorem forall₂_keys {κ : Type} (f : Value → Option Value) :
    ∀ (m r : List (κ × Value)),
      List.Forall₂ (fun e e1 => e1.1 = e.1 ∧ f e.2 = some e1.2) m r →
      r.map Prod.fst = m.map Prod.fst := by
  intro m r h
  induction h with
  | nil => rfl
  | cons h1 _ ih => simp [h1.1, ih]

theorem forall₂_mapGet {κ : Type} [DecidableEq κ] (f : Value → Option Value) :
    ∀ (m r : List (κ × Value)),
      List.Forall₂ (fun e e1 => e1.1 = e.1 ∧ f e.2 = some e1.2) m r →
      ∀ k, mapGet r k = (mapGet m k).bind f := by
  intro m
  induction m with
  | nil =>
    intro r h k
    cases h
    rfl
  | cons e m1 ih =>
    intro r h k
    cases h with
    | cons h1 h2 =>
      rename_i e1 r1
      obtain ⟨k0, v0⟩ := e
      obtain ⟨k1, v1⟩ := e1
      simp only at h1
      obtain ⟨hk, hv⟩ := h1
      subst hk
      by_cases hkk : k1 = k
      · simp [mapGet, hkk, hv]
      · simp [mapGet, hkk, ih r1 h2 k]

theorem processSlice_iff (MustCompile : List Char → Option Regexp) (dm : DefaultMasker) :
    ∀ (xs out : List Value), processSlice MustCompile dm xs = some out ↔
      List.Forall₂ (fun x y => processValue MustCompile dm x = some y) xs out := by
  intro xs
  induction xs with
  | nil =>
    intro out
    simp only [processSlice, Option.some.injEq]
    constructor
    · intro h; subst h; exact List.Forall₂.nil
    · intro h; cases h; rfl
  | cons x rest ih =>
    intro out
    simp only [processSlice]
    cases hx : processValue MustCompile dm x with
    | none =>
      constructor
      · intro h; cases h
      · intro h
        cases h with
        | cons h1 _ => rw [hx] at h1; cases h1
    | some w =>
      simp only [Option.map_eq_some']
      constructor
      · rintro ⟨vs, hvs, rfl⟩
        exact List.Forall₂.cons hx ((ih vs).1 hvs)
      · intro h
        cases h with
        | cons h1 h2 =>
          rename_i y ys
          rw [hx] at h1
          simp only [Option.some.injEq] at h1
          subst h1
          exact ⟨ys, (ih ys).2 h2, rfl⟩

theorem processMapSlice_iff (MustCompile : List Char → Option Regexp) (dm : DefaultMasker) :
    ∀ (xs out : List (List (List Char × Value))),
      processMapSlice MustCompile dm xs = some out ↔
        List.Forall₂ (fun x y => processMap MustCompile dm x [] = some y) xs out := by
  intro xs
  induction xs with
  | nil =>
    intro out
    simp only [processMapSlice, Option.some.injEq]
    constructor
    · intro h; subst h; exact List.Forall₂.nil
    · intro h; cases h; rfl
  | cons x rest ih =>
    intro out
    simp only [processMapSlice]
    cases hx : processMap MustCompile dm x [] with
    | none =>
      constructor
      · intro h; cases h
      · intro h
        cases h with
        | cons h1 _ => rw [hx] at h1; cases h1
    | some w =>
      simp only [Option.map_eq_some']
      constructor
      · rintro ⟨vs, hvs, rfl⟩
        exact List.Forall₂.cons hx ((ih vs).1 hvs)
      · intro h
        cases h with
        | cons h1 h2 =>
          rename_i y ys
          rw [hx] at h1
          simp only [Option.some.injEq] at h1
          subst h1
          exact ⟨ys, (ih ys).2 h2, rfl⟩

/-- C5: for a map `m` and a `map[interface{}]interface{}` `mi`, with
distinct keys as in every Go map, `Mask` returns exactly when it returns on
every value, and then the result is a map of the same kind whose entries are
those of the input in turn, each with the same key and the masked value: the
key list is the same, and the result at every key `k` is `Mask` of the input
at `k` (nothing where the input has no `k`). -/
theorem Mask_map_keys_values (MustCompile : List Char → Option Regexp) (dm : DefaultMasker)
    (m : List (List Char × Value)) (mi : List (Key × Value))
    (hm : (m.map Prod.fst).Nodup) (hmi : (mi.map Prod.fst).Nodup) :
    (∀ out, Mask MustCompile dm (.strMap m) = some out ↔
        ∃ r, out = .strMap r ∧
          List.Forall₂ (fun e e1 => e1.1 = e.1 ∧ Mask MustCompile dm e.2 = some e1.2) m r) ∧
      (∀ r, Mask MustCompile dm (.strMap m) = some (.strMap r) →
        r.map Prod.fst = m.map Prod.fst ∧
          ∀ k, mapGet r k = (mapGet m k).bind (Mask MustCompile dm)) ∧
      (∀ out, Mask MustCompile dm (.ifaceMap mi) = some out ↔
        ∃ r, out = .ifaceMap r ∧
          List.Forall₂ (fun e e1 => e1.1 = e.1 ∧ Mask MustCompile dm e.2 = some e1.2) mi r) ∧
      (∀ r, Mask MustCompile dm (.ifaceMap mi) = some (.ifaceMap r) →
        r.map Prod.fst = mi.map Prod.fst ∧
          ∀ k, mapGet r k = (mapGet mi k).bind (Mask MustCompile dm)) := by
  have h1 : ∀ out, Mask MustCompile dm (.strMap m) = some out ↔
      ∃ r, out = .strMap r ∧
        List.Forall₂ (fun e e1 => e1.1 = e.1 ∧ Mask MustCompile dm e.2 = some e1.2) m r := by
    intro out
    simp only [Mask, processValue, processMap_eq_foldEntries, Option.map_eq_some']
    constructor
    · rintro ⟨r, hr, rfl⟩
      obtain ⟨r1, hr1, hf⟩ :=
        (foldEntries_iff (processValue MustCompile dm) m [] hm (fun _ _ h => List.not_mem_nil _ h) r).1 hr
      exact ⟨r, rfl, by simpa [hr1] using hf⟩
    · rintro ⟨r, rfl, hf⟩
      exact ⟨r, (foldEntries_iff (processValue MustCompile dm) m [] hm (fun _ _ h => List.not_mem_nil _ h) r).2
        ⟨r, by simp, hf⟩, rfl⟩
  have h2 : ∀ out, Mask MustCompile dm (.ifaceMap mi) = some out ↔
      ∃ r, out = .ifaceMap r ∧
        List.Forall₂ (fun e e1 => e1.1 = e.1 ∧ Mask MustCompile dm e.2 = some e1.2) mi r := by
    intro out
    simp only [Mask, processValue, processInterfaceMap_eq_foldEntries, Option.map_eq_some']
    constructor
    · rintro ⟨r, hr, rfl⟩
      obtain ⟨r1, hr1, hf⟩ :=
        (foldEntries_iff (processValue MustCompile dm) mi [] hmi (fun _ _ h => List.not_mem_nil _ h) r).1 hr
      exact ⟨r, rfl, by simpa [hr1] using hf⟩
    · rintro ⟨r, rfl, hf⟩
      exact ⟨r, (foldEntries_iff (processValue MustCompile dm) mi [] hmi (fun _ _ h => List.not_mem_nil _ h) r).2
        ⟨r, by simp, hf⟩, rfl⟩
  refine ⟨h1, ?_, h2, ?_⟩
  · intro r hr
    obtain ⟨r1, hr1, hf⟩ := (h1 _).1 hr
    cases hr1
    exact ⟨forall₂_keys _ _ _ hf, forall₂_mapGet _ _ _ hf⟩
  · intro r hr
    obtain ⟨r1, hr1, hf⟩ := (h2 _).1 hr
    cases hr1
    exact ⟨forall₂_keys _ _ _ hf, forall₂_mapGet _ _ _ hf⟩

theorem Mask_map_keys_values_witness :
    (exampleMap.map Prod.fst).Nodup ∧ (exampleIfaceMap.map Prod.fst).Nodup ∧
    ((∀ out, Mask regexp.MustCompile defaultMasker (.strMap exampleMap) = some out ↔
        ∃ r, out = .strMap r ∧
          List.Forall₂
            (fun e e1 => e1.1 = e.1 ∧ Mask regexp.MustCompile defaultMasker e.2 = some e1.2)
            exampleMap r) ∧
      (∀ r, Mask regexp.MustCompile defaultMasker (.strMap exampleMap) = some (.strMap r) →
        r.map Prod.fst = exampleMap.map Prod.fst ∧
          ∀ k, mapGet r k = (mapGet exampleMap k).bind (Mask regexp.MustCompile defaultMasker)) ∧
      (∀ out, Mask regexp.MustCompile defaultMasker (.ifaceMap exampleIfaceMap) = some out ↔
        ∃ r, out = .ifaceMap r ∧
          List.Forall₂
            (fun e e1 => e1.1 = e.1 ∧ Mask regexp.MustCompile defaultMasker e.2 = some e1.2)
            exampleIfaceMap r) ∧
      (∀ r, Mask regexp.MustCompile defaultMasker (.ifaceMap exampleIfaceMap) =
          some (.ifaceMap r) →
        r.map Prod.fst = exampleIfaceMap.map Prod.fst ∧
          ∀ k, mapGet r k =
            (mapGet exampleIfaceMap k).bind (Mask regexp.MustCompile defaultMasker))) :=
  ⟨by decide, by decide,
    Mask_map_keys_values regexp.MustCompile defaultMasker exampleMap exampleIfaceMap
      (by decide) (by decide)⟩

/-- C6: `Mask` of a slice of values, and of a slice of maps, returns exactly
when it returns on every element, and then the result is a slice of the same
kind and the same length whose element at every index `i` is `Mask` of the
element of the input at `i`. -/
theorem Mask_slice_elements (MustCompile : List Char → Option Regexp) (dm : DefaultMasker)
    (xs : List Value) (ys : List (List (List Char × Value))) :
    (∀ out, Mask MustCompile dm (.slice xs) = some out ↔
        ∃ r, out = .slice r ∧ xs.length = r.length ∧
          ∀ i h1 h2, Mask MustCompile dm (xs.get ⟨i, h1⟩) = some (r.get ⟨i, h2⟩)) ∧
      (∀ out, Mask MustCompile dm (.mapSlice ys) = some out ↔
        ∃ r, out = .mapSlice r ∧ ys.length = r.length ∧
          ∀ i h1 h2,
            Mask MustCompile dm (.strMap (ys.get ⟨i, h1⟩)) = some (.strMap (r.get ⟨i, h2⟩))) := by
  constructor
  · intro out
    simp only [Mask, processValue, Option.map_eq_some']
    constructor
    · rintro ⟨r, hr, rfl⟩
      exact ⟨r, rfl, List.forall₂_iff_get.1 ((processSlice_iff MustCompile dm xs r).1 hr)⟩
    · rintro ⟨r, rfl, hlen, hget⟩
      exact ⟨r, (processSlice_iff MustCompile dm xs r).2 (List.forall₂_iff_get.2 ⟨hlen, hget⟩),
        rfl⟩
  · have hstr : ∀ x y, Mask MustCompile dm (.strMap x) = some (.strMap y) ↔
        processMap MustCompile dm x [] = some y := by
      intro x y
      simp only [Mask, processValue, Option.map_eq_some']
      constructor
      · rintro ⟨a, ha, hb⟩
        injection hb with hb
        rw [← hb]
        exact ha
      · intro h
        exact ⟨y, h, rfl⟩
    intro out
    constructor
    · intro h
      simp only [Mask, processValue, Option.map_eq_some'] at h
      obtain ⟨r, hr, rfl⟩ := h
      have hf := List.forall₂_iff_get.1 ((processMapSlice_iff MustCompile dm ys r).1 hr)
      exact ⟨r, rfl, hf.1, fun i h1 h2 => (hstr _ _).2 (hf.2 i h1 h2)⟩
    · rintro ⟨r, rfl, hlen, hget⟩
      simp only [Mask, processValue, Option.map_eq_some']
      exact ⟨r, (processMapSlice_iff MustCompile dm ys r).2
        (List.forall₂_iff_get.2 ⟨hlen, fun i h1 h2 => (hstr _ _).1 (hget i h1 h2)⟩), rfl⟩

/-- C7: `Mask` returns a value that is none of a string, a map, a slice of
values, a slice of maps and a `map[interface{}]interface{}` (that is nil, a
boolean, a number or a value of any other type) as it is, without a panic,
for every masker. -/
theorem Mask_other_value_unchanged (MustCompile : List Char → Option Regexp) (dm : DefaultMasker)
    (v : Value) (hstr : ∀ s, v ≠ .str s) (hmap : ∀ m, v ≠ .strMap m)
    (hslice : ∀ xs, v ≠ .slice xs) (hmaps : ∀ xs, v ≠ .mapSlice xs)
    (hiface : ∀ m, v ≠ .ifaceMap m) :
    Mask MustCompile dm v = some v := by
  cases v with
  | str s => exact absurd rfl (hstr s)
  | strMap m => exact absurd rfl (hmap m)
  | slice xs => exact absurd rfl (hslice xs)
  | mapSlice xs => exact absurd rfl (hmaps xs)
  | ifaceMap m => exact absurd rfl (hiface m)
  | scalar x => simp [Mask, processValue]

theorem Mask_other_value_unchanged_witness :
    (∀ s, Value.scalar (.int 42) ≠ .str s) ∧ (∀ m, Value.scalar (.int 42) ≠ .strMap m) ∧
      (∀ xs, Value.scalar (.int 42) ≠ .slice xs) ∧
      (∀ xs, Value.scalar (.int 42) ≠ .mapSlice xs) ∧
      (∀ m, Value.scalar (.int 42) ≠ .ifaceMap m) ∧
      Mask regexp.MustCompile defaultMasker (.scalar (.int 42)) = some (.scalar (.int 42)) :=
  ⟨fun _ h => Value.noConfusion h, fun _ h => Value.noConfusion h,
    fun _ h => Value.noConfusion h, fun _ h => Value.noConfusion h,
    fun _ h => Value.noConfusion h,
    Mask_other_value_unchanged regexp.MustCompile defaultMasker (.scalar (.int 42))
      (fun _ h => Value.noConfusion h) (fun _ h => Value.noConfusion h)
      (fun _ h => Value.noConfusion h) (fun _ h => Value.noConfusion h)
      (fun _ h => Value.noConfusion h)⟩

/-! ### Masking that changes no string -/

mutual
theorem processValue_id (MustCompile : List Char → Option Regexp) (dm : DefaultMasker)
    (P : List Char → Prop) (hmask : ∀ s, P s → maskString MustCompile dm s = some s) :
    ∀ (v : Value), v.WF → (∀ s ∈ v.strings, P s) → processValue MustCompile dm v = some v
  | .str s, _, hs => by
    have h := hmask s (hs s (by simp [Value.strings]))
    simp [processValue, h]
  | .strMap m, hwf, hs => by
    simp only [Value.WF] at hwf
    simp only [Value.strings] at hs
    have h := processMap_id MustCompile dm P hmask m [] hwf.2 hs hwf.1
      (fun _ _ h => List.not_mem_nil _ h)
    simp [processValue, h]
  | .slice xs, hwf, hs => by
    simp only [Value.WF] at hwf
    simp only [Value.strings] at hs
    have h := processSlice_id MustCompile dm P hmask xs hwf hs
    simp [processValue, h]
  | .mapSlice xs, hwf, hs => by
    simp only [Value.WF] at hwf
    simp only [Value.strings] at hs
    have h := processMapSlice_id MustCompile dm P hmask xs hwf hs
    simp [processValue, h]
  | .ifaceMap m, hwf, hs => by
    simp only [Value.WF] at hwf
    simp only [Value.strings] at hs
    have h := processInterfaceMap_id MustCompile dm P hmask m [] hwf.2 hs hwf.1
      (fun _ _ h => List.not_mem_nil _ h)
    simp [processValue, h]
  | .scalar x, _, _ => by simp [processValue]
theorem processMap_id (MustCompile : List Char → Option Regexp) (dm : DefaultMasker)
    (P : List Char → Prop) (hmask : ∀ s, P s → maskString MustCompile dm s = some s) :
    ∀ (m result : List (List Char × Value)), entriesWF m → (∀ s ∈ entriesStrings m, P s) →
      (m.map Prod.fst).Nodup → (∀ k ∈ m.map Prod.fst, k ∉ result.map Prod.fst) →
      processMap MustCompile dm m result = some (result ++ m)
  | [], result, _, _, _, _ => by simp [processMap]
  | (k, v) :: rest, result, hwf, hs, hnd, hdis => by
    simp only [entriesWF] at hwf
    simp only [entriesStrings, List.mem_append] at hs
    simp only [List.map_cons, List.nodup_cons] at hnd
    have hv := processValue_id MustCompile dm P hmask v hwf.1 (fun s h => hs s (Or.inl h))
    have hk : k ∉ result.map Prod.fst := hdis k (List.mem_cons_self _ _)
    have hdis1 : ∀ k1 ∈ rest.map Prod.fst, k1 ∉ (result ++ [(k, v)]).map Prod.fst := by
      intro k1 hk1
      simp only [List.map_append, List.map_cons, List.map_nil, List.mem_append,
        List.mem_singleton, not_or]
      refine ⟨hdis k1 (by simp only [List.map_cons, List.mem_cons]; exact Or.inr hk1), ?_⟩
      intro h
      exact hnd.1 (h ▸ hk1)
    have hrest := processMap_id MustCompile dm P hmask rest (result ++ [(k, v)]) hwf.2
      (fun s h => hs s (Or.inr h)) hnd.2 hdis1
    simp only [processMap, hv]
    rw [mapSet_of_not_mem result k v hk, hrest]
    simp
theorem processInterfaceMap_id (MustCompile : List Char → Option Regexp) (dm : DefaultMasker)
    (P : List Char → Prop) (hmask : ∀ s, P s → maskString MustCompile dm s = some s) :
    ∀ (m result : List (Key × Value)), ifaceEntriesWF m → (∀ s ∈ ifaceEntriesStrings m, P s) →
      (m.map Prod.fst).Nodup → (∀ k ∈ m.map Prod.fst, k ∉ result.map Prod.fst) →
      processInterfaceMap MustCompile dm m result = some (result ++ m)
  | [], result, _, _, _, _ => by simp [processInterfaceMap]
  | (k, v) :: rest, result, hwf, hs, hnd, hdis => by
    simp only [ifaceEntriesWF] at hwf
    simp only [ifaceEntriesStrings, List.mem_append] at hs
    simp only [List.map_cons, List.nodup_cons] at hnd
    have hv := processValue_id MustCompile dm P hmask v hwf.1 (fun s h => hs s (Or.inl h))
    have hk : k ∉ result.map Prod.fst := hdis k (List.mem_cons_self _ _)
    have hdis1 : ∀ k1 ∈ rest.map Prod.fst, k1 ∉ (result ++ [(k, v)]).map Prod.fst := by
      intro k1 hk1
      simp only [List.map_append, List.map_cons, List.map_nil, List.mem_append,
        List.mem_singleton, not_or]
      refine ⟨hdis k1 (by simp only [List.map_cons, List.mem_cons]; exact Or.inr hk1), ?_⟩
      intro h
      exact hnd.1 (h ▸ hk1)
    have hrest := processInterfaceMap_id MustCompile dm P hmask rest (result ++ [(k, v)]) hwf.2
      (fun s h => hs s (Or.inr h)) hnd.2 hdis1
    simp only [processInterfaceMap, hv]
    rw [mapSet_of_not_mem result k v hk, hrest]
    simp
theorem processSlice_id (MustCompile : List Char → Option Regexp) (dm : DefaultMasker)
    (P : List Char → Prop) (hmask : ∀ s, P s → maskString MustCompile dm s = some s) :
    ∀ (xs : List Value), valuesWF xs → (∀ s ∈ valuesStrings xs, P s) →
      processSlice MustCompile dm xs = some xs
  | [], _, _ => by simp [processSlice]
  | v :: rest, hwf, hs => by
    simp only [valuesWF] at hwf
    simp only [valuesStrings, List.mem_append] at hs
    have hv := processValue_id MustCompile dm P hmask v hwf.1 (fun s h => hs s (Or.inl h))
    have hrest := processSlice_id MustCompile dm P hmask rest hwf.2 (fun s h => hs s (Or.inr h))
    simp [processSlice, hv, hrest]
theorem processMapSlice_id (MustCompile : List Char → Option Regexp) (dm : DefaultMasker)
    (P : List Char → Prop) (hmask : ∀ s, P s → maskString MustCompile dm s = some s) :
    ∀ (xs : List (List (List Char × Value))), mapsWF xs → (∀ s ∈ mapsStrings xs, P s) →
      processMapSlice MustCompile dm xs = some xs
  | [], _, _ => by simp [processMapSlice]
  | m :: rest, hwf, hs => by
    simp only [mapsWF] at hwf
    simp only [mapsStrings, List.mem_append] at hs
    have hm := processMap_id MustCompile dm P hmask m [] hwf.1.2 (fun s h => hs s (Or.inl h))
      hwf.1.1 (fun _ _ h => List.not_mem_nil _ h)
    have hrest := processMapSlice_id MustCompile dm P hmask rest hwf.2
      (fun s h => hs s (Or.inr h))
    simp only [List.nil_append] at hm
    simp [processMapSlice, hm, hrest]
end

theorem regexParts_eq_nil (patterns : List Pattern) (h : ∀ p ∈ patterns, p.Regex = []) :
    regexParts patterns = [] := by
  induction patterns with
  | nil => rfl
  | cons q rest ih =>
    have hq : q.Regex = [] := h q (List.mem_cons_self _ _)
    simp only [regexParts, hq, ne_eq, not_true_eq_false, if_false]
    exact ih (fun p hp => h p (List.mem_cons_of_mem _ hp))

/-! ### The default rule on a card number -/

theorem isDigit_iff (c : Char) : c.isDigit = true ↔ 48 ≤ c.toNat ∧ c.toNat ≤ 57 := by
  simp only [Char.isDigit, Bool.and_eq_true, decide_eq_true_eq, Char.toNat]
  constructor
  · rintro ⟨h1, h2⟩
    exact ⟨h1, h2⟩
  · rintro ⟨h1, h2⟩
    exact ⟨h1, h2⟩

theorem digitClass_contains_digit (c : Char) (h : c.isDigit = true) :
    digitClass.contains c = true := by
  have h1 := (isDigit_iff c).1 h
  simp [digitClass, CharClass.contains, inRanges, h1.1, h1.2]

theorem sepClass_contains_digit (c : Char) (h : c.isDigit = true) :
    sepClass.contains c = false := by
  have h1 := (isDigit_iff c).1 h
  have h2 : ¬ c.toNat ≤ 32 := by omega
  have h3 : ¬ c.toNat ≤ 45 := by omega
  simp [sepClass, CharClass.contains, inRanges, h2, h3]

theorem IsWordChar_digit (c : Char) (h : c.isDigit = true) : IsWordChar c = true := by
  have h1 := (isDigit_iff c).1 h
  simp [IsWordChar, inRanges, h1.1, h1.2]

theorem digitClass_contains_sep (c : Char) (h : c = ' ' ∨ c = '-') :
    digitClass.contains c = false := by
  rcases h with rfl | rfl <;> decide

theorem sepClass_contains_sep (c : Char) (h : c = ' ' ∨ c = '-') :
    sepClass.contains c = true := by
  rcases h with rfl | rfl <;> decide

theorem isDigit_sep (c : Char) (h : c = ' ' ∨ c = '-') : c.isDigit = false := by
  rcases h with rfl | rfl <;> decide

theorem firstOf_none_right (a : Option (List Char)) : firstOf a none = a := by
  cases a <;> rfl

theorem lazy_seps (k : Cont) (rest : List Char) (hk : FailsOnSep k)
    (hrest : ∀ c r, rest = c :: r → sepClass.contains c = false) :
    ∀ (seps : List Char) (fuel : Nat) (p : Option Char), seps.length < fuel →
      (∀ c ∈ seps, c = ' ' ∨ c = '-') →
      ∃ p1, runLoop (Re.charClass sepClass).run false k fuel p (seps ++ rest) = k p1 rest := by
  intro seps
  induction seps with
  | nil =>
    intro fuel p hfuel _
    obtain ⟨f, rfl⟩ : ∃ f, fuel = f + 1 := ⟨fuel - 1, by simp at hfuel; omega⟩
    refine ⟨p, ?_⟩
    simp only [List.nil_append, runLoop, Bool.false_eq_true, if_false]
    have hagain : (Re.charClass sepClass).run p rest (fun p1 s1 =>
        if s1.length < rest.length then
          runLoop (Re.charClass sepClass).run false k f p1 s1 else none) = none := by
      cases hr : rest with
      | nil => simp [Re.run]
      | cons c r => simp [Re.run, hrest c r hr]
    rw [hagain, firstOf_none_right]
  | cons c seps ih =>
    intro fuel p hfuel hseps
    obtain ⟨f, rfl⟩ : ∃ f, fuel = f + 1 := ⟨fuel - 1, by simp at hfuel; omega⟩
    have hc : c = ' ' ∨ c = '-' := hseps c (List.mem_cons_self _ _)
    obtain ⟨p1, hp1⟩ := ih f (some c) (by simp at hfuel; omega)
      (fun x hx => hseps x (List.mem_cons_of_mem _ hx))
    refine ⟨p1, ?_⟩
    simp only [List.cons_append, runLoop, Bool.false_eq_true, if_false, hk p c _ hc, firstOf,
      Re.run, sepClass_contains_sep c hc, if_true, List.length_cons, Nat.lt_succ_self]
    exact hp1

theorem cardBody_step (k : Cont) (rest : List Char) (hk : FailsOnSep k)
    (hrest : ∀ c r, rest = c :: r → sepClass.contains c = false)
    (p : Option Char) (d : Char) (seps : List Char) (hd : d.isDigit = true)
    (hseps : ∀ c ∈ seps, c = ' ' ∨ c = '-') :
    ∃ p1, cardBody.run p (d :: (seps ++ rest)) k = k p1 rest := by
  obtain ⟨p1, hp1⟩ := lazy_seps k rest hk hrest seps ((seps ++ rest).length + 1) (some d)
    (by simp; omega) hseps
  refine ⟨p1, ?_⟩
  simp only [cardBody, Re.run, digitClass_contains_digit d hd, if_true, runStar, Re.nullable,
    Bool.false_eq_true, if_false]
  exact hp1

theorem failsOnSep_cardBody (k : Cont) : FailsOnSep (fun p s => cardBody.run p s k) := by
  intro p c r hc
  simp [cardBody, Re.run, digitClass_contains_sep c hc]

theorem failsOnSep_cardTail (k : Cont) : FailsOnSep (fun p s => cardTail.run p s k) := by
  intro p c r hc
  simp [cardTail, Re.run, digitClass_contains_sep c hc]

theorem failsOnSep_runCopies (k : Cont) (hk : FailsOnSep k) :
    ∀ n, FailsOnSep (runCopies cardBody.run n k) := by
  intro n
  cases n with
  | zero => exact hk
  | succ n =>
    intro p c r hc
    simp only [runCopies]
    exact failsOnSep_cardBody _ p c r hc

theorem failsOnSep_runNested (k : Cont) (hk : FailsOnSep k) :
    ∀ m, FailsOnSep (runNested cardBody.run true m k) := by
  intro m
  cases m with
  | zero => exact hk
  | succ m =>
    intro p c r hc
    simp only [runNested, runQuest, if_true]
    have h1 : cardBody.run p (c :: r) (runNested cardBody.run true m k) = none :=
      failsOnSep_cardBody _ p c r hc
    rw [h1, hk p c r hc]
    rfl

theorem groupsText_head (gs : List (List Char × Char)) (d : Char) (hd : d.isDigit = true) :
    ∀ c r, d :: groupsText gs = c :: r → sepClass.contains c = false := by
  intro c r h
  injection h with h1 _
  subst h1
  exact sepClass_contains_digit d hd

theorem runCopies_cardBody (k : Cont) (hk : FailsOnSep k) :
    ∀ (n : Nat) (gs : List (List Char × Char)) (d : Char) (p : Option Char),
      n ≤ gs.length → GoodGroups gs → d.isDigit = true →
      ∃ p1 d1, d1.isDigit = true ∧
        runCopies cardBody.run n k p (d :: groupsText gs) = k p1 (d1 :: groupsText (gs.drop n)) := by
  intro n
  induction n with
  | zero =>
    intro gs d p _ _ hd
    exact ⟨p, d, hd, rfl⟩
  | succ n ih =>
    intro gs d p hn hg hd
    cases gs with
    | nil => simp at hn
    | cons g gs1 =>
      obtain ⟨seps, d1⟩ := g
      have hg1 := hg (seps, d1) (List.mem_cons_self _ _)
      have hgs1 : GoodGroups gs1 := fun x hx => hg x (List.mem_cons_of_mem _ hx)
      obtain ⟨p1, hp1⟩ := cardBody_step (runCopies cardBody.run n k) (d1 :: groupsText gs1)
        (failsOnSep_runCopies k hk n) (groupsText_head gs1 d1 hg1.2) p d seps hd hg1.1
      obtain ⟨p2, d2, hd2, hp2⟩ := ih gs1 d1 p1 (by simp at hn; omega) hgs1 hg1.2
      refine ⟨p2, d2, hd2, ?_⟩
      simp only [runCopies, groupsText, List.drop_succ_cons]
      rw [hp1, hp2]

theorem cardTail_last (p : Option Char) (d : Char) (hd : d.isDigit = true) :
    cardTail.run p [d] (fun _ r => some r) = some [] := by
  simp [cardTail, Re.run, digitClass_contains_digit d hd, Look.holds, isWord,
    IsWordChar_digit d hd]

theorem runNested_nil (k : Cont) (hk : ∀ p, k p [] = none) :
    ∀ (m : Nat) (p : Option Char), runNested cardBody.run true m k p [] = none := by
  intro m
  induction m with
  | zero => intro p; exact hk p
  | succ m _ =>
    intro p
    simp [runNested, runQuest, cardBody, Re.run, hk p, firstOf]

theorem runNested_cardBody :
    ∀ (m : Nat) (gs : List (List Char × Char)) (d : Char) (p : Option Char),
      gs.length ≤ m → GoodGroups gs → d.isDigit = true →
      runNested cardBody.run true m (fun p1 s1 => cardTail.run p1 s1 (fun _ r => some r)) p
        (d :: groupsText gs) = some [] := by
  intro m
  induction m with
  | zero =>
    intro gs d p hlen _ hd
    have hgs : gs = [] := List.length_eq_zero.1 (Nat.le_zero.1 hlen)
    subst hgs
    exact cardTail_last p d hd
  | succ m ih =>
    intro gs d p hlen hg hd
    simp only [runNested, runQuest, if_true]
    cases gs with
    | nil =>
      obtain ⟨p1, hp1⟩ := cardBody_step
        (runNested cardBody.run true m (fun p1 s1 => cardTail.run p1 s1 (fun _ r => some r))) []
        (failsOnSep_runNested _ (failsOnSep_cardTail _) m) (fun _ _ h => by cases h) p d [] hd
        (fun _ h => by cases h)
      simp only [List.append_nil] at hp1
      simp only [groupsText]
      rw [hp1, runNested_nil _ (fun p => by simp [cardTail, Re.run]) m p1]
      exact cardTail_last p d hd
    | cons g gs1 =>
      obtain ⟨seps, d1⟩ := g
      have hg1 := hg (seps, d1) (List.mem_cons_self _ _)
      have hgs1 : GoodGroups gs1 := fun x hx => hg x (List.mem_cons_of_mem _ hx)
      obtain ⟨p1, hp1⟩ := cardBody_step
        (runNested cardBody.run true m (fun p1 s1 => cardTail.run p1 s1 (fun _ r => some r)))
        (d1 :: groupsText gs1) (failsOnSep_runNested _ (failsOnSep_cardTail _) m)
        (groupsText_head gs1 d1 hg1.2) p d seps hd hg1.1
      simp only [groupsText]
      rw [hp1, ih gs1 d1 p1 (by simp at hlen; omega) hgs1 hg1.2]
      rfl

theorem creditCardRe_run (gs : List (List Char × Char)) (d : Char)
    (hlo : 13 ≤ gs.length) (hhi : gs.length ≤ 16) (hg : GoodGroups gs) (hd : d.isDigit = true) :
    creditCardRe.run none (d :: groupsText gs) (fun _ r => some r) = some [] := by
  obtain ⟨p1, d1, hd1, hp1⟩ := runCopies_cardBody
    (runNested cardBody.run true 3 (fun p1 s1 => cardTail.run p1 s1 (fun _ r => some r)))
    (failsOnSep_runNested _ (failsOnSep_cardTail _) 3) 13 gs d none hlo hg hd
  have hnest := runNested_cardBody 3 (gs.drop 13) d1 p1 (by simp; omega)
    (fun x hx => hg x (List.mem_of_mem_drop hx)) hd1
  have hunfold : creditCardRe.run none (d :: groupsText gs) (fun _ r => some r) =
      if Look.holds .wordBoundary none (some d) then
        runCopies cardBody.run 13
          (runNested cardBody.run true 3 (fun p1 s1 => cardTail.run p1 s1 (fun _ r => some r)))
          none (d :: groupsText gs)
      else none := rfl
  have hlook : Look.holds .wordBoundary none (some d) = true := by
    simp [Look.holds, isWord, IsWordChar_digit d hd]
  rw [hunfold, hlook, if_pos rfl, hp1, hnest]

theorem creditCardRe_run_nil (p : Option Char) :
    creditCardRe.run p [] (fun _ r => some r) = none := by
  simp [creditCardRe, Re.run, runCopies, cardBody]

theorem creditCardRe_exec (gs : List (List Char × Char)) (d : Char)
    (hlo : 13 ≤ gs.length) (hhi : gs.length ≤ 16) (hg : GoodGroups gs) (hd : d.isDigit = true) :
    creditCardRe.toRegexp.doExecute (d :: groupsText gs) 0 =
        some (0, (d :: groupsText gs).length) ∧
      creditCardRe.toRegexp.doExecute (d :: groupsText gs) (d :: groupsText gs).length = none := by
  constructor
  · show creditCardRe.exec (d :: groupsText gs) 0 = _
    simp only [Re.exec, Nat.zero_le, if_true, prevAt, List.drop_zero, Re.searchFrom,
      creditCardRe_run gs d hlo hhi hg hd]
    simp
  · show creditCardRe.exec (d :: groupsText gs) (d :: groupsText gs).length = _
    simp only [Re.exec, le_refl, if_true, List.drop_length, Re.searchFrom, creditCardRe_run_nil]

theorem stringsReplaceAll_nil_cons (c old : Char) (cs : List Char) :
    stringsReplaceAll (c :: cs) old [] =
      if c = old then stringsReplaceAll cs old [] else c :: stringsReplaceAll cs old [] := by
  simp [stringsReplaceAll]

theorem CleanNumber_nil : CleanNumber [] = [] := rfl

theorem CleanNumber_cons_sep (c : Char) (cs : List Char) (hc : c = ' ' ∨ c = '-') :
    CleanNumber (c :: cs) = CleanNumber cs := by
  rcases hc with rfl | rfl
  · simp [CleanNumber, stringsReplaceAll_nil_cons]
  · simp [CleanNumber, stringsReplaceAll_nil_cons]

theorem CleanNumber_cons_digit (c : Char) (cs : List Char) (hc : c.isDigit = true) :
    CleanNumber (c :: cs) = c :: CleanNumber cs := by
  have h1 : c ≠ ' ' := by rintro rfl; exact absurd hc (by decide)
  have h2 : c ≠ '-' := by rintro rfl; exact absurd hc (by decide)
  have h3 : c ≠ '.' := by rintro rfl; exact absurd hc (by decide)
  have h4 : c ≠ '/' := by rintro rfl; exact absurd hc (by decide)
  have h5 : c ≠ '(' := by rintro rfl; exact absurd hc (by decide)
  have h6 : c ≠ ')' := by rintro rfl; exact absurd hc (by decide)
  simp [CleanNumber, stringsReplaceAll_nil_cons, h1, h2, h3, h4, h5, h6]

theorem CleanNumber_digits_seps :
    ∀ (s : List Char), (∀ c ∈ s, c.isDigit = true ∨ c = ' ' ∨ c = '-') →
      CleanNumber s = s.filter Char.isDigit := by
  intro s
  induction s with
  | nil => intro _; rfl
  | cons c cs ih =>
    intro h
    have ih1 := ih (fun x hx => h x (List.mem_cons_of_mem _ hx))
    rcases h c (List.mem_cons_self _ _) with hc | hc
    · rw [CleanNumber_cons_digit c cs hc, ih1, List.filter_cons_of_pos hc]
    · rw [CleanNumber_cons_sep c cs hc, ih1, List.filter_cons_of_neg (by simp [isDigit_sep c hc])]

theorem len_digits : ∀ (s : List Char), (∀ c ∈ s, c.isDigit = true) → len s = s.length := by
  intro s
  induction s with
  | nil => intro _; rfl
  | cons c cs ih =>
    intro h
    have hc := (isDigit_iff c).1 (h c (List.mem_cons_self _ _))
    have h1 : c.val ≤ 127 := by
      show c.val.toNat ≤ 127
      simp only [Char.toNat] at hc
      omega
    have hsize : c.utf8Size = 1 := by
      unfold Char.utf8Size
      simp [h1]
    have ih1 := ih (fun x hx => h x (List.mem_cons_of_mem _ hx))
    simp only [len] at ih1 ⊢
    simp only [List.map_cons, List.sum_cons, hsize, ih1, List.length_cons]
    omega

theorem IsAllDigits_digits :
    ∀ (s : List Char), (∀ c ∈ s, c.isDigit = true) → IsAllDigits s = true := by
  intro s
  induction s with
  | nil => intro _; rfl
  | cons c cs ih =>
    intro h
    have hc := (isDigit_iff c).1 (h c (List.mem_cons_self _ _))
    have hno : ¬ (c < '0' ∨ c > '9') := by
      simp only [Char.lt_def, Char.toNat] at *
      intro h1
      rcases h1 with h1 | h1
      · have h2 : c.val.toNat < ('0' : Char).val.toNat := h1
        have e : ('0' : Char).val.toNat = 48 := rfl
        omega
      · have h2 : ('9' : Char).val.toNat < c.val.toNat := h1
        have e : ('9' : Char).val.toNat = 57 := rfl
        omega
    simp only [IsAllDigits, hno, if_false]
    exact ih (fun x hx => h x (List.mem_cons_of_mem _ hx))

theorem creditCardMaskFunc_sixteen (s : List Char)
    (hchars : ∀ c ∈ s, c.isDigit = true ∨ c = ' ' ∨ c = '-')
    (hcount : (s.filter Char.isDigit).length = 16) :
    creditCardMaskFunc s =
      (s.filter Char.isDigit).take 4 ++ "********".toList ++ (s.filter Char.isDigit).drop 12 := by
  have hall : ∀ c ∈ s.filter Char.isDigit, c.isDigit = true := fun c hc => (List.mem_filter.1 hc).2
  simp only [creditCardMaskFunc, CleanNumber_digits_seps s hchars, len_digits _ hall, hcount,
    IsAllDigits_digits _ hall, and_self, if_true]

theorem groups_of_tail :
    ∀ (t : List Char), (∀ c ∈ t, c.isDigit = true ∨ c = ' ' ∨ c = '-') →
      (t = [] ∨ t.getLast?.map Char.isDigit = some true) →
      ∃ gs, t = groupsText gs ∧ GoodGroups gs := by
  intro t
  induction t with
  | nil => intro _ _; exact ⟨[], rfl, fun _ h => by cases h⟩
  | cons c t1 ih =>
    intro hchars hlast
    have hlast1 : t1 = [] ∨ t1.getLast?.map Char.isDigit = some true := by
      cases t1 with
      | nil => exact Or.inl rfl
      | cons x xs =>
        rcases hlast with h | h
        · cases h
        · rw [List.getLast?_cons_cons] at h
          exact Or.inr h
    obtain ⟨gs1, hgs1, hgood⟩ := ih (fun x hx => hchars x (List.mem_cons_of_mem _ hx)) hlast1
    rcases hchars c (List.mem_cons_self _ _) with hc | hc
    · refine ⟨([], c) :: gs1, by simp [groupsText, hgs1], ?_⟩
      intro g hg
      rcases List.mem_cons.1 hg with rfl | hg
      · exact ⟨fun _ h => List.not_mem_nil _ h |>.elim, hc⟩
      · exact hgood g hg
    · cases gs1 with
      | nil =>
        simp only [groupsText] at hgs1
        subst hgs1
        rcases hlast with h | h
        · cases h
        · simp only [List.getLast?_singleton, Option.map_some', Option.some.injEq] at h
          rw [isDigit_sep c hc] at h
          cases h
      | cons g gs2 =>
        obtain ⟨seps, d⟩ := g
        have hg0 := hgood (seps, d) (List.mem_cons_self _ _)
        refine ⟨(c :: seps, d) :: gs2, by simp [groupsText, hgs1], ?_⟩
        intro g hg
        rcases List.mem_cons.1 hg with rfl | hg
        · refine ⟨?_, hg0.2⟩
          intro x hx
          rcases List.mem_cons.1 hx with rfl | hx
          · exact hc
          · exact hg0.1 x hx
        · exact hgood g (List.mem_cons_of_mem _ hg)

theorem filter_groupsText :
    ∀ (gs : List (List Char × Char)), GoodGroups gs →
      ((groupsText gs).filter Char.isDigit).length = gs.length := by
  intro gs
  induction gs with
  | nil => intro _; rfl
  | cons g gs1 ih =>
    intro hg
    obtain ⟨seps, d⟩ := g
    have hg0 := hg (seps, d) (List.mem_cons_self _ _)
    have hseps : seps.filter Char.isDigit = [] := by
      apply List.filter_eq_nil_iff.2
      intro c hc
      simp [isDigit_sep c (hg0.1 c hc)]
    have ih1 := ih (fun x hx => hg x (List.mem_cons_of_mem _ hx))
    simp only [groupsText, List.filter_append, hseps, List.nil_append,
      List.filter_cons_of_pos hg0.2, List.length_cons, ih1]

theorem NewWithOpts_default : NewWithOpts regexp.MustCompile [] = some defaultMasker := rfl

/-- C10: with the default rules, for every string that consists of sixteen
ASCII digits with any number of spaces or dashes between consecutive digits
and nothing else, `MaskString` returns the first four digits, eight
asterisks and the last four digits, without the separators. -/
theorem MaskString_sixteen_digit_card (s : List Char)
    (hchars : ∀ c ∈ s, c.isDigit = true ∨ c = ' ' ∨ c = '-')
    (hfirst : s.head?.map Char.isDigit = some true)
    (hlast : s.getLast?.map Char.isDigit = some true)
    (hcount : (s.filter Char.isDigit).length = 16) :
    MaskString regexp.MustCompile s [] =
      some ((s.filter Char.isDigit).take 4 ++ "********".toList ++
        (s.filter Char.isDigit).drop 12) := by
  cases s with
  | nil => simp at hfirst
  | cons d t =>
    have hd : d.isDigit = true := by simpa using hfirst
    have hlast1 : t = [] ∨ t.getLast?.map Char.isDigit = some true := by
      cases t with
      | nil => exact Or.inl rfl
      | cons x xs =>
        rw [List.getLast?_cons_cons] at hlast
        exact Or.inr hlast
    obtain ⟨gs, hgs, hgood⟩ :=
      groups_of_tail t (fun x hx => hchars x (List.mem_cons_of_mem _ hx)) hlast1
    have hlen : gs.length = 15 := by
      have h1 := filter_groupsText gs hgood
      rw [List.filter_cons_of_pos hd, List.length_cons, hgs, h1] at hcount
      omega
    have hexec := creditCardRe_exec gs d (by omega) (by omega) hgood hd
    rw [← hgs] at hexec
    have hmatch : creditCardRe.toRegexp.MatchString (d :: t) = true := by
      simp [Regexp.MatchString, hexec.1]
    have hdispatch : dispatch regexp.MustCompile DefaultPatterns (d :: t) =
        some (creditCardMaskFunc (d :: t)) := by
      have hc : regexp.MustCompile creditCardRegex = some creditCardRe.toRegexp := rfl
      simp only [DefaultPatterns, dispatch, hc, hmatch, if_true]
    have hmask : maskString regexp.MustCompile defaultMasker (d :: t) =
        some (creditCardMaskFunc (d :: t)) := by
      simp only [maskString, defaultMasker, Bool.not_true, Bool.false_eq_true, if_false]
      rw [Regexp.ReplaceAllStringFunc_whole _ _ _ (by simp) hexec.1 hexec.2]
      exact hdispatch
    simp only [MaskString, NewWithOpts_default, Mask, processValue, hmask, Option.map_some']
    rw [creditCardMaskFunc_sixteen (d :: t) hchars hcount]

theorem MaskString_sixteen_digit_card_witness :
    (∀ c ∈ "4111-1111-1111-1111".toList, c.isDigit = true ∨ c = ' ' ∨ c = '-') ∧
      "4111-1111-1111-1111".toList.head?.map Char.isDigit = some true ∧
      "4111-1111-1111-1111".toList.getLast?.map Char.isDigit = some true ∧
      ("4111-1111-1111-1111".toList.filter Char.isDigit).length = 16 ∧
      MaskString regexp.MustCompile "4111-1111-1111-1111".toList [] =
        some (("4111-1111-1111-1111".toList.filter Char.isDigit).take 4 ++ "********".toList ++
          ("4111-1111-1111-1111".toList.filter Char.isDigit).drop 12) :=
  ⟨by decide, by decide, by decide, by decide,
    MaskString_sixteen_digit_card "4111-1111-1111-1111".toList (by decide) (by decide)
      (by decide) (by decide)⟩

/-! ### The helpers of `patterns.go` -/

theorem stringsReplaceAll_nil_eq_filter (old : Char) :
    ∀ (s : List Char), stringsReplaceAll s old [] = s.filter (fun c => decide (c ≠ old)) := by
  intro s
  induction s with
  | nil => rfl
  | cons c cs ih =>
    by_cases h : c = old
    · simp [stringsReplaceAll, h, ih]
    · simp [stringsReplaceAll, h, ih]

/-- C18: `CleanNumber s` is `s` without its spaces, dashes, dots, slashes
and parentheses, every other character kept in its place; a leading `+`
stays. -/
theorem CleanNumber_removes_punctuation :
    (∀ (s : List Char), CleanNumber s =
        s.filter (fun c =>
          decide (c ≠ ' ' ∧ c ≠ '-' ∧ c ≠ '.' ∧ c ≠ '/' ∧ c ≠ '(' ∧ c ≠ ')'))) ∧
      CleanNumber "+55 (11) 99999-9999".toList = "+5511999999999".toList := by
  constructor
  · intro s
    simp only [CleanNumber, stringsReplaceAll_nil_eq_filter, List.filter_filter]
    congr 1
    funext c
    simp only [Bool.and_eq_true, decide_eq_true_eq, Bool.decide_and, Bool.decide_eq_true]
    by_cases h1 : c = ' ' <;> by_cases h2 : c = '-' <;> by_cases h3 : c = '.' <;>
      by_cases h4 : c = '/' <;> by_cases h5 : c = '(' <;> by_cases h6 : c = ')' <;>
      simp [h1, h2, h3, h4, h5, h6]
  · decide

theorem Char_le_iff (a b : Char) : a ≤ b ↔ a.toNat ≤ b.toNat := Iff.rfl

theorem IsAllDigits_iff_isDigit :
    ∀ (s : List Char), IsAllDigits s = true ↔ ∀ c ∈ s, c.isDigit = true := by
  intro s
  induction s with
  | nil => simp [IsAllDigits]
  | cons c cs ih =>
    have hlt : (c < '0' ∨ c > '9') ↔ ¬ (48 ≤ c.toNat ∧ c.toNat ≤ 57) := by
      have e0 : ('0' : Char).val.toNat = 48 := rfl
      have e9 : ('9' : Char).val.toNat = 57 := rfl
      constructor
      · rintro (h | h)
        · have h2 : c.val.toNat < ('0' : Char).val.toNat := h
          simp only [Char.toNat]
          omega
        · have h2 : ('9' : Char).val.toNat < c.val.toNat := h
          simp only [Char.toNat]
          omega
      · intro h
        simp only [Char.toNat] at h
        by_cases h1 : c.val.toNat < 48
        · exact Or.inl (show c.val.toNat < ('0' : Char).val.toNat by omega)
        · exact Or.inr (show ('9' : Char).val.toNat < c.val.toNat by omega)
    simp only [IsAllDigits, List.mem_cons, forall_eq_or_imp]
    by_cases hd : c.isDigit = true
    · have hno : ¬ (c < '0' ∨ c > '9') := fun h => (hlt.1 h) ((isDigit_iff c).1 hd)
      simp only [hno, if_false, hd, true_and]
      exact ih
    · have hyes : c < '0' ∨ c > '9' := hlt.2 (fun h => hd ((isDigit_iff c).2 h))
      simp [hyes, hd]

/-- C19: `IsAllDigits s` is true exactly when every character of `s` is one
of `'0'` to `'9'`; it is true of the empty string. -/
theorem IsAllDigits_iff_all_digits :
    (∀ (s : List Char), IsAllDigits s = true ↔ ∀ c ∈ s, '0' ≤ c ∧ c ≤ '9') ∧
      IsAllDigits [] = true := by
  refine ⟨fun s => ?_, rfl⟩
  rw [IsAllDigits_iff_isDigit]
  constructor
  · intro h c hc
    have h1 := (isDigit_iff c).1 (h c hc)
    exact ⟨(Char_le_iff _ _).2 h1.1, (Char_le_iff _ _).2 h1.2⟩
  · intro h c hc
    have h1 := h c hc
    exact (isDigit_iff c).2 ⟨(Char_le_iff _ _).1 h1.1, (Char_le_iff _ _).1 h1.2⟩

theorem utf8Size_digit (c : Char) (h : c.isDigit = true) : c.utf8Size = 1 := by
  have hc := (isDigit_iff c).1 h
  have h1 : c.val ≤ 127 := by
    show c.val.toNat ≤ 127
    simp only [Char.toNat] at hc
    omega
  unfold Char.utf8Size
  simp [h1]

theorem sliceTo_digits :
    ∀ (s : List Char) (n : Nat), (∀ c ∈ s, c.isDigit = true) → n ≤ s.length →
      sliceTo s n = some (s.take n) := by
  intro s
  induction s with
  | nil =>
    intro n _ hn
    have h0 : n = 0 := by simpa using hn
    subst h0
    rfl
  | cons c cs ih =>
    intro n h hn
    cases n with
    | zero => rfl
    | succ n =>
      have hsize := utf8Size_digit c (h c (List.mem_cons_self _ _))
      have ih1 := ih n (fun x hx => h x (List.mem_cons_of_mem _ hx))
        (by simp only [List.length_cons] at hn; omega)
      simp only [sliceTo, hsize, Nat.le_add_left, if_true, Nat.add_sub_cancel, ih1,
        Option.map_some', List.take_succ_cons]

theorem sliceFrom_digits :
    ∀ (s : List Char) (n : Nat), (∀ c ∈ s, c.isDigit = true) → n ≤ s.length →
      sliceFrom s n = some (s.drop n) := by
  intro s
  induction s with
  | nil =>
    intro n _ hn
    have h0 : n = 0 := by simpa using hn
    subst h0
    rfl
  | cons c cs ih =>
    intro n h hn
    cases n with
    | zero => rfl
    | succ n =>
      have hsize := utf8Size_digit c (h c (List.mem_cons_self _ _))
      have ih1 := ih n (fun x hx => h x (List.mem_cons_of_mem _ hx))
        (by simp only [List.length_cons] at hn; omega)
      simp only [sliceFrom, hsize, Nat.le_add_left, if_true, Nat.add_sub_cancel, ih1,
        List.drop_succ_cons]

theorem creditCard_guard_iff (s : List Char) :
    (len s = 16 ∧ IsAllDigits s = true) ↔ (s.length = 16 ∧ ∀ x ∈ s, x.isDigit = true) := by
  rw [IsAllDigits_iff_isDigit]
  constructor
  · rintro ⟨h1, h2⟩
    exact ⟨by rw [← len_digits s h2]; exact h1, h2⟩
  · rintro ⟨h1, h2⟩
    exact ⟨by rw [len_digits s h2]; exact h1, h2⟩

/-- C11: for every string `c` the replace function of the `credit_card` rule
returns, neither of its slices being out of range; when `CleanNumber c` has
sixteen characters, all of them digits, the result is its first four
characters, eight asterisks and its last four characters, sixteen characters
in all; in every other case the result is `c`. -/
theorem creditCardMaskFunc_cases (c : List Char) :
    creditCardMaskFuncChecked c = some (creditCardMaskFunc c) ∧
      (((CleanNumber c).length = 16 ∧ ∀ x ∈ CleanNumber c, x.isDigit = true) →
        creditCardMaskFunc c =
            (CleanNumber c).take 4 ++ "********".toList ++ (CleanNumber c).drop 12 ∧
          (creditCardMaskFunc c).length = 16) ∧
      (¬ ((CleanNumber c).length = 16 ∧ ∀ x ∈ CleanNumber c, x.isDigit = true) →
        creditCardMaskFunc c = c) := by
  by_cases hg : (CleanNumber c).length = 16 ∧ ∀ x ∈ CleanNumber c, x.isDigit = true
  · have hguard := (creditCard_guard_iff (CleanNumber c)).2 hg
    have hto := sliceTo_digits (CleanNumber c) 4 hg.2 (by omega)
    have hfrom := sliceFrom_digits (CleanNumber c) 12 hg.2 (by omega)
    have hval : creditCardMaskFunc c =
        (CleanNumber c).take 4 ++ "********".toList ++ (CleanNumber c).drop 12 := by
      simp only [creditCardMaskFunc, hguard, and_self, if_true]
    refine ⟨?_, fun _ => ⟨hval, ?_⟩, fun h => absurd hg h⟩
    · simp only [creditCardMaskFuncChecked, hguard, and_self, if_true, hto, hfrom, hval]
    · rw [hval]
      simp only [List.length_append, List.length_take, List.length_drop, hg.1]
      rfl
  · have hguard : ¬ (len (CleanNumber c) = 16 ∧ IsAllDigits (CleanNumber c) = true) :=
      fun h => hg ((creditCard_guard_iff (CleanNumber c)).1 h)
    have hval : creditCardMaskFunc c = c := by
      simp only [creditCardMaskFunc, hguard, if_false]
    refine ⟨?_, fun h => absurd h hg, fun _ => hval⟩
    simp only [creditCardMaskFuncChecked, hguard, if_false, hval]

/-! ### Options and construction -/

/-- C13: `WithCustomPattern name regex f` turns the rule list of any config
into that list followed by the one rule `(name, regex, f)`: the length grows
by one, the rules that were there stay at their indices, and the last rule
is the new one, for every `regex` (the empty one too) and every `f` (nil
too). -/
theorem WithCustomPattern_appends (name regex : List Char)
    (f : Option (List Char → List Char)) (c : Config) :
    (WithCustomPattern name regex f c).Patterns =
        c.Patterns ++ [{ Name := name, Regex := regex, MaskFunc := f }] ∧
      (WithCustomPattern name regex f c).Patterns.length = c.Patterns.length + 1 ∧
      (∀ i, i < c.Patterns.length →
        (WithCustomPattern name regex f c).Patterns[i]? = c.Patterns[i]?) ∧
      (WithCustomPattern name regex f c).Patterns.getLast? =
        some { Name := name, Regex := regex, MaskFunc := f } := by
  refine ⟨rfl, ?_, ?_, ?_⟩
  · simp [WithCustomPattern]
  · intro i hi
    simp only [WithCustomPattern]
    exact List.getElem?_append_left hi
  · simp [WithCustomPattern]

/-- C14: `WithPatterns ps` makes the rule list of any config `ps`; applied
after any other options, it discards what they and the defaults put there. -/
theorem WithPatterns_replaces (ps : List Pattern) (c : Config) :
    (WithPatterns ps c).Patterns = ps ∧
      ∀ (opts : List ConfigOption),
        ((opts ++ [WithPatterns ps]).foldl (fun c opt => opt c) c).Patterns = ps := by
  refine ⟨rfl, fun opts => ?_⟩
  rw [List.foldl_append]
  rfl

theorem foldl_WithCustomPattern :
    ∀ (customs : List (List Char × List Char × Option (List Char → List Char))) (c : Config),
      ((customs.map (fun x => WithCustomPattern x.1 x.2.1 x.2.2)).foldl
          (fun c opt => opt c) c).Patterns =
        c.Patterns ++
          customs.map (fun x => ({ Name := x.1, Regex := x.2.1, MaskFunc := x.2.2 } : Pattern)) := by
  intro customs
  induction customs with
  | nil => intro c; simp
  | cons x rest ih =>
    intro c
    simp only [List.map_cons, List.foldl_cons]
    rw [ih]
    simp [WithCustomPattern]

theorem compilePatterns_cases (MustCompile : List Char → Option Regexp)
    (dm0 dm : DefaultMasker) (h : compilePatterns MustCompile dm0 = some dm) :
    dm = dm0 ∨ ∃ cache, dm = { dm0 with cache := some cache, compiled := true } := by
  simp only [compilePatterns] at h
  split at h
  · split at h
    · split at h
      · cases h
      · rename_i re _
        simp only [Option.some.injEq] at h
        exact Or.inr ⟨re, h.symm⟩
    · simp only [Option.some.injEq] at h
      exact Or.inl h.symm
  · simp only [Option.some.injEq] at h
    exact Or.inl h.symm

theorem maskString_no_match (MustCompile : List Char → Option Regexp) (dm : DefaultMasker)
    (s : List Char) (hdm : dm.compiled = false ∨ ∃ cache, dm.cache = some cache)
    (hno : ∀ cache, dm.cache = some cache → cache.MatchString s = false) :
    maskString MustCompile dm s = some s := by
  rcases hdm with hc | ⟨cache, hc⟩
  · simp [maskString, hc]
  · simp only [maskString, hc]
    split
    · rfl
    · exact Regexp.ReplaceAllStringFunc_no_match cache s _ (hno cache hc)

/-- The options of the integration test build a non-empty rule list with
non-empty expressions. -/
theorem customOptions_patterns :
    (customOptions.foldl (fun (c : Config) (opt : ConfigOption) => opt c)
        { Patterns := [] }).Patterns ≠ [] ∧
      regexParts (customOptions.foldl (fun (c : Config) (opt : ConfigOption) => opt c)
        { Patterns := [] }).Patterns ≠ [] :=
  ⟨by simp [customOptions, WithCustomPattern], by simp [customOptions, WithCustomPattern, regexParts]⟩

/-- The combined expression of the integration test's rules parses and has
no match in the card number with hyphens. -/
theorem customOptions_no_match :
    (regexp.Parse (stringsJoin (regexParts (customOptions.foldl
        (fun (c : Config) (opt : ConfigOption) => opt c) { Patterns := [] }).Patterns) ['|'])).map
      (fun re => re.exec "4111-1111-1111-1111".toList 0) = some none := by
  decide

/-- With the integration test's options the card number with hyphens is
returned as it is. -/
theorem MaskString_customOptions_card :
    MaskString regexp.MustCompile "4111-1111-1111-1111".toList customOptions =
      some "4111-1111-1111-1111".toList := by
  have h := customOptions_no_match
  have hp := customOptions_patterns
  have hnew : NewWithOpts regexp.MustCompile customOptions =
      compilePatterns regexp.MustCompile
        { patterns := (customOptions.foldl (fun (c : Config) (opt : ConfigOption) => opt c)
            { Patterns := [] }).Patterns, cache := none, compiled := false } := by
    have hlen : ¬ customOptions.length = 0 := by simp [customOptions]
    simp only [NewWithOpts, hlen, if_false]
  generalize (customOptions.foldl (fun (c : Config) (opt : ConfigOption) => opt c)
            { Patterns := [] }).Patterns = ps at h hp hnew
  have hl1 : ps.length > 0 := List.length_pos.2 hp.1
  have hl2 : (regexParts ps).length > 0 := List.length_pos.2 hp.2
  simp only [MaskString, hnew, compilePatterns, hl1, hl2, if_true, regexp.MustCompile]
  cases hparse : regexp.Parse (stringsJoin (regexParts ps) ['|']) with
  | none => rw [hparse] at h; cases h
  | some re =>
    rw [hparse] at h
    simp only [Option.map_some', Option.some.injEq] at h
    have hm : maskString regexp.MustCompile
        { patterns := ps, cache := some re.toRegexp, compiled := true }
        "4111-1111-1111-1111".toList = some "4111-1111-1111-1111".toList := by
      apply maskString_no_match
      · exact Or.inr ⟨_, rfl⟩
      · intro cache hc
        simp only [Option.some.injEq] at hc
        subst hc
        simp only [regexp.Regexp.MatchString, regexp.Re.toRegexp, h]
        rfl
    simp only [Option.map_some', Mask, processValue, hm]

/-- The rule list of `NewWithOpts`: without options it compiles the default
rule list, and with options the list the options build, applied in order to
an empty list; compiling keeps the list.  So the rule list of a masker built
from `WithCustomPattern` options alone is the list of those rules in order,
without the `credit_card` rule.  Such a masker returns a string in which its
combined expression has no match as it is: with the two options of
`TestIntegration_MultipleCustomPatterns`, `"4111-1111-1111-1111"`. -/
theorem NewWithOpts_rule_list (MustCompile : List Char → Option Regexp) :
    NewWithOpts MustCompile [] =
        compilePatterns MustCompile
          { patterns := DefaultPatterns, cache := none, compiled := false } ∧
      (∀ opts : List ConfigOption, opts ≠ [] →
        NewWithOpts MustCompile opts =
          compilePatterns MustCompile
            { patterns := (opts.foldl (fun (c : Config) (opt : ConfigOption) => opt c) { Patterns := [] }).Patterns,
              cache := none, compiled := false }) ∧
      (∀ dm0 dm, compilePatterns MustCompile dm0 = some dm → dm.patterns = dm0.patterns) ∧
      (∀ (customs : List (List Char × List Char × Option (List Char → List Char)))
          (dm : DefaultMasker), customs ≠ [] →
        NewWithOpts MustCompile (customs.map (fun x => WithCustomPattern x.1 x.2.1 x.2.2)) =
          some dm →
        dm.patterns =
            customs.map (fun x => ({ Name := x.1, Regex := x.2.1, MaskFunc := x.2.2 } : Pattern)) ∧
          ∀ s, (∀ cache, dm.cache = some cache → cache.MatchString s = false) →
            maskString MustCompile dm s = some s) ∧
      MaskString regexp.MustCompile "4111-1111-1111-1111".toList customOptions =
        some "4111-1111-1111-1111".toList := by
  have hopts : ∀ opts : List ConfigOption, opts ≠ [] →
      NewWithOpts MustCompile opts =
        compilePatterns MustCompile
          { patterns := (opts.foldl (fun (c : Config) (opt : ConfigOption) => opt c) { Patterns := [] }).Patterns,
            cache := none, compiled := false } := by
    intro opts hne
    have hlen : ¬ opts.length = 0 := fun h => hne (List.length_eq_zero.1 h)
    simp only [NewWithOpts, hlen, if_false]
  have hkeep : ∀ dm0 dm, compilePatterns MustCompile dm0 = some dm →
      dm.patterns = dm0.patterns := by
    intro dm0 dm h
    rcases compilePatterns_cases MustCompile dm0 dm h with rfl | ⟨cache, rfl⟩ <;> rfl
  refine ⟨rfl, hopts, hkeep, ?_, MaskString_customOptions_card⟩
  intro customs dm hne hnew
  have hne1 : customs.map (fun x => WithCustomPattern x.1 x.2.1 x.2.2) ≠ [] := by
    intro h
    exact hne (List.map_eq_nil_iff.1 h)
  rw [hopts _ hne1] at hnew
  have hpat := hkeep _ _ hnew
  simp only [foldl_WithCustomPattern, List.nil_append] at hpat
  refine ⟨hpat, fun s hno => ?_⟩
  apply maskString_no_match MustCompile dm s _ hno
  rcases compilePatterns_cases MustCompile _ dm hnew with rfl | ⟨cache, rfl⟩
  · exact Or.inl rfl
  · exact Or.inr ⟨cache, rfl⟩

/-- C17, as the claim states it, fails: the combined expression of the rule
list that `badOption` builds is `(`, which does not compile, and
`NewWithOpts` ends in the panic of `regexp.MustCompile`; it has no error
result to report it with. -/
theorem invalid_pattern_counterexample :
    regexp.MustCompile (stringsJoin (regexParts (badOption { Patterns := [] }).Patterns) ['|']) =
        none ∧
      NewWithOpts regexp.MustCompile [badOption] = none :=
  ⟨rfl, rfl⟩

/-- C17, amended: for every rule list whose combined expression does not
compile, construction by `NewWithOpts` panics; no masker and no error is
returned. -/
theorem NewWithOpts_invalid_pattern_panics (MustCompile : List Char → Option Regexp)
    (opts : List ConfigOption)
    (hparts : regexParts
      (opts.foldl (fun c opt => opt c)
        (if opts.length = 0 then DefaultConfig else { Patterns := [] })).Patterns ≠ [])
    (hbad : MustCompile (stringsJoin (regexParts
      (opts.foldl (fun c opt => opt c)
        (if opts.length = 0 then DefaultConfig else { Patterns := [] })).Patterns) ['|']) = none) :
    NewWithOpts MustCompile opts = none := by
  have hplen : (regexParts (opts.foldl (fun c opt => opt c)
      (if opts.length = 0 then DefaultConfig else { Patterns := [] })).Patterns).length > 0 :=
    List.length_pos.2 hparts
  have hlen : (opts.foldl (fun c opt => opt c)
      (if opts.length = 0 then DefaultConfig else { Patterns := [] })).Patterns.length > 0 := by
    cases hp : (opts.foldl (fun c opt => opt c)
      (if opts.length = 0 then DefaultConfig else { Patterns := [] })).Patterns with
    | nil => rw [hp] at hparts; exact absurd rfl hparts
    | cons q rest => simp
  simp only [NewWithOpts, compilePatterns, hlen, hplen, if_true, hbad]

theorem NewWithOpts_invalid_pattern_panics_witness :
    regexParts
        ([badOption].foldl (fun c opt => opt c)
          (if [badOption].length = 0 then DefaultConfig else { Patterns := [] })).Patterns ≠ [] ∧
      regexp.MustCompile (stringsJoin (regexParts
        ([badOption].foldl (fun c opt => opt c)
          (if [badOption].length = 0 then DefaultConfig else { Patterns := [] })).Patterns)
          ['|']) = none ∧
      NewWithOpts regexp.MustCompile [badOption] = none :=
  ⟨by decide, rfl, NewWithOpts_invalid_pattern_panics regexp.MustCompile [badOption]
    (by decide) rfl⟩

/-! ### Masking a typed record -/

theorem processInterfaceEntries_eq_processMap (MustCompile : List Char → Option Regexp)
    (dm : DefaultMasker) :
    ∀ (m result : List (List Char × Value)),
      processInterfaceEntries MustCompile dm m result = processMap MustCompile dm m result := by
  intro m
  induction m with
  | nil => intro result; simp [processInterfaceEntries, processMap]
  | cons e rest ih =>
    intro result
    obtain ⟨k, v⟩ := e
    simp only [processInterfaceEntries, processMap]
    cases processValue MustCompile dm v with
    | none => rfl
    | some w => exact ih _

/-- C15: for every input `r` that `StructToMap` converts without an error to
the map `m`, `MaskInterface r` is `Mask` of the map `m`. -/
theorem MaskInterface_eq_Mask {ρ β ε : Type} (Marshal : ρ → Except ε β)
    (Unmarshal : β → Except ε (List (List Char × Value)))
    (MustCompile : List Char → Option Regexp) (dm : DefaultMasker) (r : ρ)
    (m : List (List Char × Value))
    (hconv : StructToMap Marshal Unmarshal r = (m, none)) :
    MaskInterface Marshal Unmarshal MustCompile dm r = Mask MustCompile dm (.strMap m) := by
  simp only [MaskInterface, processInterface, hconv, Mask, processValue,
    processInterfaceEntries_eq_processMap]

theorem MaskInterface_eq_Mask_witness :
    StructToMap exampleMarshal exampleUnmarshal (.request exampleRequest) =
        (exampleRequestMap, none) ∧
      MaskInterface exampleMarshal exampleUnmarshal regexp.MustCompile defaultMasker
          (.request exampleRequest) =
        Mask regexp.MustCompile defaultMasker (.strMap exampleRequestMap) :=
  ⟨rfl, MaskInterface_eq_Mask exampleMarshal exampleUnmarshal regexp.MustCompile defaultMasker
    (.request exampleRequest) exampleRequestMap rfl⟩

/-- C16: for every input on which `StructToMap` returns an error,
`MaskInterface` returns the empty map, without a panic and for every masker. -/
theorem MaskInterface_conversion_error {ρ β ε : Type} (Marshal : ρ → Except ε β)
    (Unmarshal : β → Except ε (List (List Char × Value)))
    (MustCompile : List Char → Option Regexp) (dm : DefaultMasker) (r : ρ) (err : ε)
    (hconv : (StructToMap Marshal Unmarshal r).2 = some err) :
    MaskInterface Marshal Unmarshal MustCompile dm r = some (.strMap []) := by
  have hmap : (StructToMap Marshal Unmarshal r).1 = [] := by
    unfold StructToMap at hconv ⊢
    cases hm : Marshal r with
    | error e => rfl
    | ok data =>
      rw [hm] at hconv
      simp only at hconv ⊢
      cases hu : Unmarshal data with
      | error e => rfl
      | ok result =>
        rw [hu] at hconv
        cases hconv
  simp only [MaskInterface, processInterface, hmap, processInterfaceEntries, Option.map_some']

theorem MaskInterface_conversion_error_witness :
    (StructToMap exampleMarshal exampleUnmarshal ExampleInput.channel).2 =
        some "json: unsupported type: chan int".toList ∧
      MaskInterface exampleMarshal exampleUnmarshal regexp.MustCompile defaultMasker
        ExampleInput.channel = some (.strMap []) :=
  ⟨rfl, MaskInterface_conversion_error exampleMarshal exampleUnmarshal regexp.MustCompile
    defaultMasker ExampleInput.channel "json: unsupported type: chan int".toList rfl⟩

end masker

/-! ### Containers by reference: `Mask` writes to new objects only -/

namespace masker

open regexp

/-- A write at an address beyond an initial part of the store keeps that part. -/
theorem Store.set_extends (h0 h : Store) (a : Nat) (o : Obj) (hp : h0 <+: h)
    (ha : h0.length ≤ a) : h0 <+: h.set a o := by
  obtain ⟨ext, rfl⟩ := hp
  rw [List.set_append_right _ _ ha]
  exact ⟨_, rfl⟩

/-- The object at an address of an initial part of the store is the object of that part. -/
theorem Store.get?_extends (h0 h : Store) (a : Nat) (hp : h0 <+: h) (ha : a < h0.length) :
    h.get? a = h0.get? a := by
  obtain ⟨ext, rfl⟩ := hp
  simp only [List.get?_eq_getElem?]
  exact List.getElem?_append_left ha

/-- `result[key] = value` keeps every initial part of the store that ends before `result`. -/
theorem Store.setKey_frame (h0 h h2 : Store) (result : Nat) (key : List Char) (value : Ref)
    (hset : h.setKey result key value = some h2) (hp : h0 <+: h) (ha : h0.length ≤ result) :
    h0 <+: h2 ∧ h2.length = h.length := by
  unfold Store.setKey at hset
  split at hset
  · simp only [Option.some.injEq] at hset
    subst hset
    exact ⟨Store.set_extends h0 h result _ hp ha, List.length_set _ _ _⟩
  · cases hset

/-- The same for a `map[interface{}]interface{}`. -/
theorem Store.setIfaceKey_frame (h0 h h2 : Store) (result : Nat) (key : Key) (value : Ref)
    (hset : h.setIfaceKey result key value = some h2) (hp : h0 <+: h)
    (ha : h0.length ≤ result) : h0 <+: h2 ∧ h2.length = h.length := by
  unfold Store.setIfaceKey at hset
  split at hset
  · simp only [Option.some.injEq] at hset
    subst hset
    exact ⟨Store.set_extends h0 h result _ hp ha, List.length_set _ _ _⟩
  · cases hset

/-- `result[i] = value` keeps every initial part of the store that ends before `result`. -/
theorem Store.setIndex_frame (h0 h h2 : Store) (result i : Nat) (value : Ref)
    (hset : h.setIndex result i value = some h2) (hp : h0 <+: h) (ha : h0.length ≤ result) :
    h0 <+: h2 ∧ h2.length = h.length := by
  unfold Store.setIndex at hset
  split at hset
  · split at hset
    · simp only [Option.some.injEq] at hset
      subst hset
      exact ⟨Store.set_extends h0 h result _ hp ha, List.length_set _ _ _⟩
    · cases hset
  · cases hset

/-- The same for a slice of maps. -/
theorem Store.setMapIndex_frame (h0 h h2 : Store) (result i : Nat) (value : Option Nat)
    (hset : h.setMapIndex result i value = some h2) (hp : h0 <+: h) (ha : h0.length ≤ result) :
    h0 <+: h2 ∧ h2.length = h.length := by
  unfold Store.setMapIndex at hset
  split at hset
  · split at hset
    · simp only [Option.some.injEq] at hset
      subst hset
      exact ⟨Store.set_extends h0 h result _ hp ha, List.length_set _ _ _⟩
    · cases hset
  · cases hset

/-- The loop of `processMap` keeps every initial part of the store that ends before
`result`, when the calls it makes keep the store they are given. -/
theorem heap.processMapLoop_frame (call : Store → Ref → Option (Store × Ref))
    (hcall : ∀ h v h1 r, call h v = some (h1, r) → h <+: h1) (h0 : Store) (result : Nat)
    (ha : h0.length ≤ result) :
    ∀ (entries : List (List Char × Ref)) (h h1 : Store),
      heap.processMapLoop call result entries h = some h1 → h0 <+: h →
        h0 <+: h1 ∧ h.length ≤ h1.length := by
  intro entries
  induction entries with
  | nil =>
    intro h h1 hrun hp
    simp only [heap.processMapLoop, Option.some.injEq] at hrun
    subst hrun
    exact ⟨hp, le_refl _⟩
  | cons e rest ih =>
    obtain ⟨key, value⟩ := e
    intro h h1 hrun hp
    simp only [heap.processMapLoop] at hrun
    split at hrun
    · cases hrun
    · rename_i ha1 v hc
      split at hrun
      · cases hrun
      · rename_i hb hs
        have h1p := hcall _ _ _ _ hc
        have h2p := Store.setKey_frame h0 ha1 hb result key v hs (hp.trans h1p) ha
        have h3p := ih hb h1 hrun h2p.1
        refine ⟨h3p.1, ?_⟩
        have := h1p.length_le
        omega

/-- The loop of `processInterfaceMap` keeps every initial part of the store that
ends before `result`. -/
theorem heap.processInterfaceMapLoop_frame (call : Store → Ref → Option (Store × Ref))
    (hcall : ∀ h v h1 r, call h v = some (h1, r) → h <+: h1) (h0 : Store) (result : Nat)
    (ha : h0.length ≤ result) :
    ∀ (entries : List (Key × Ref)) (h h1 : Store),
      heap.processInterfaceMapLoop call result entries h = some h1 → h0 <+: h →
        h0 <+: h1 ∧ h.length ≤ h1.length := by
  intro entries
  induction entries with
  | nil =>
    intro h h1 hrun hp
    simp only [heap.processInterfaceMapLoop, Option.some.injEq] at hrun
    subst hrun
    exact ⟨hp, le_refl _⟩
  | cons e rest ih =>
    obtain ⟨key, value⟩ := e
    intro h h1 hrun hp
    simp only [heap.processInterfaceMapLoop] at hrun
    split at hrun
    · cases hrun
    · rename_i ha1 v hc
      split at hrun
      · cases hrun
      · rename_i hb hs
        have h1p := hcall _ _ _ _ hc
        have h2p := Store.setIfaceKey_frame h0 ha1 hb result key v hs (hp.trans h1p) ha
        have h3p := ih hb h1 hrun h2p.1
        refine ⟨h3p.1, ?_⟩
        have := h1p.length_le
        omega

/-- The loop of `processSlice` keeps every initial part of the store that ends
before `result`. -/
theorem heap.processSliceLoop_frame (call : Store → Ref → Option (Store × Ref))
    (hcall : ∀ h v h1 r, call h v = some (h1, r) → h <+: h1) (h0 : Store) (result : Nat)
    (ha : h0.length ≤ result) :
    ∀ (elems : List Ref) (i : Nat) (h h1 : Store),
      heap.processSliceLoop call result elems i h = some h1 → h0 <+: h →
        h0 <+: h1 ∧ h.length ≤ h1.length := by
  intro elems
  induction elems with
  | nil =>
    intro i h h1 hrun hp
    simp only [heap.processSliceLoop, Option.some.injEq] at hrun
    subst hrun
    exact ⟨hp, le_refl _⟩
  | cons item rest ih =>
    intro i h h1 hrun hp
    simp only [heap.processSliceLoop] at hrun
    split at hrun
    · cases hrun
    · rename_i ha1 v hc
      split at hrun
      · cases hrun
      · rename_i hb hs
        have h1p := hcall _ _ _ _ hc
        have h2p := Store.setIndex_frame h0 ha1 hb result i v hs (hp.trans h1p) ha
        have h3p := ih (i + 1) hb h1 hrun h2p.1
        refine ⟨h3p.1, ?_⟩
        have := h1p.length_le
        omega

/-- `processMap` keeps the store it is given and returns the address of a new map. -/
theorem heap.processMap_frame (call : Store → Ref → Option (Store × Ref))
    (hcall : ∀ h v h1 r, call h v = some (h1, r) → h <+: h1) (h h1 : Store)
    (m : Option Nat) (a : Nat) (hrun : heap.processMap call h m = some (h1, a)) :
    h <+: h1 ∧ a = h.length ∧ h.length < h1.length := by
  simp only [heap.processMap, Store.make] at hrun
  split at hrun
  · cases hrun
  · split at hrun
    · cases hrun
    · rename_i hb hl
      simp only [Option.some.injEq, Prod.mk.injEq] at hrun
      obtain ⟨rfl, rfl⟩ := hrun
      have := heap.processMapLoop_frame call hcall h h.length (le_refl _) _ _ _ hl
        (⟨_, rfl⟩)
      refine ⟨this.1, rfl, ?_⟩
      have h2 := this.2
      simp only [List.length_append, List.length_singleton] at h2
      omega

/-- `processInterfaceMap` keeps the store it is given and returns the address
of a new map. -/
theorem heap.processInterfaceMap_frame (call : Store → Ref → Option (Store × Ref))
    (hcall : ∀ h v h1 r, call h v = some (h1, r) → h <+: h1) (h h1 : Store)
    (m : Option Nat) (a : Nat) (hrun : heap.processInterfaceMap call h m = some (h1, a)) :
    h <+: h1 ∧ a = h.length ∧ h.length < h1.length := by
  simp only [heap.processInterfaceMap, Store.make] at hrun
  split at hrun
  · cases hrun
  · split at hrun
    · cases hrun
    · rename_i hb hl
      simp only [Option.some.injEq, Prod.mk.injEq] at hrun
      obtain ⟨rfl, rfl⟩ := hrun
      have := heap.processInterfaceMapLoop_frame call hcall h h.length (le_refl _) _ _ _ hl
        (⟨_, rfl⟩)
      refine ⟨this.1, rfl, ?_⟩
      have h2 := this.2
      simp only [List.length_append, List.length_singleton] at h2
      omega

/-- `processSlice` keeps the store it is given and returns the address of a
new slice. -/
theorem heap.processSlice_frame (call : Store → Ref → Option (Store × Ref))
    (hcall : ∀ h v h1 r, call h v = some (h1, r) → h <+: h1) (h h1 : Store)
    (s : Option Nat) (a : Nat) (hrun : heap.processSlice call h s = some (h1, a)) :
    h <+: h1 ∧ a = h.length ∧ h.length < h1.length := by
  simp only [heap.processSlice, Store.make] at hrun
  split at hrun
  · cases hrun
  · split at hrun
    · cases hrun
    · rename_i hb hl
      simp only [Option.some.injEq, Prod.mk.injEq] at hrun
      obtain ⟨rfl, rfl⟩ := hrun
      have := heap.processSliceLoop_frame call hcall h h.length (le_refl _) _ _ _ _ hl
        (⟨_, rfl⟩)
      refine ⟨this.1, rfl, ?_⟩
      have h2 := this.2
      simp only [List.length_append, List.length_singleton] at h2
      omega

/-- The loop of `processMapSlice` keeps every initial part of the store that ends
before `result`. -/
theorem heap.processMapSliceLoop_frame (call : Store → Ref → Option (Store × Ref))
    (hcall : ∀ h v h1 r, call h v = some (h1, r) → h <+: h1) (h0 : Store) (result : Nat)
    (ha : h0.length ≤ result) :
    ∀ (elems : List (Option Nat)) (i : Nat) (h h1 : Store),
      heap.processMapSliceLoop call result elems i h = some h1 → h0 <+: h →
        h0 <+: h1 ∧ h.length ≤ h1.length := by
  intro elems
  induction elems with
  | nil =>
    intro i h h1 hrun hp
    simp only [heap.processMapSliceLoop, Option.some.injEq] at hrun
    subst hrun
    exact ⟨hp, le_refl _⟩
  | cons item rest ih =>
    intro i h h1 hrun hp
    simp only [heap.processMapSliceLoop] at hrun
    split at hrun
    · cases hrun
    · rename_i ha1 v hc
      split at hrun
      · cases hrun
      · rename_i hb hs
        have h1p := (heap.processMap_frame call hcall _ _ _ _ hc).1
        have h2p := Store.setMapIndex_frame h0 ha1 hb result i (some v) hs (hp.trans h1p) ha
        have h3p := ih (i + 1) hb h1 hrun h2p.1
        refine ⟨h3p.1, ?_⟩
        have := h1p.length_le
        omega

/-- `processMapSlice` keeps the store it is given and returns the address of
a new slice. -/
theorem heap.processMapSlice_frame (call : Store → Ref → Option (Store × Ref))
    (hcall : ∀ h v h1 r, call h v = some (h1, r) → h <+: h1) (h h1 : Store)
    (s : Option Nat) (a : Nat) (hrun : heap.processMapSlice call h s = some (h1, a)) :
    h <+: h1 ∧ a = h.length ∧ h.length < h1.length := by
  simp only [heap.processMapSlice, Store.make] at hrun
  split at hrun
  · cases hrun
  · split at hrun
    · cases hrun
    · rename_i hb hl
      simp only [Option.some.injEq, Prod.mk.injEq] at hrun
      obtain ⟨rfl, rfl⟩ := hrun
      have := heap.processMapSliceLoop_frame call hcall h h.length (le_refl _) _ _ _ _ hl
        (⟨_, rfl⟩)
      refine ⟨this.1, rfl, ?_⟩
      have h2 := this.2
      simp only [List.length_append, List.length_singleton] at h2
      omega

/-- `processValue` keeps the store it is given, and for a map or a slice it
returns a new container of the same type. -/
theorem heap.processValue_frame (MustCompile : List Char → Option Regexp) (dm : DefaultMasker) :
    ∀ (depth : Nat) (h h1 : Store) (v r : Ref),
      heap.processValue MustCompile dm depth h v = some (h1, r) →
        h <+: h1 ∧
          (v.isContainer = true →
            r.sameKind v = true ∧ r.addr = some h.length ∧ h.length < h1.length) := by
  intro depth
  induction depth with
  | zero =>
    intro h h1 v r hrun
    simp [heap.processValue] at hrun
  | succ depth ih =>
    have hcall : ∀ h v h1 r, heap.processValue MustCompile dm depth h v = some (h1, r) →
        h <+: h1 := fun h v h1 r hr => (ih h h1 v r hr).1
    intro h h1 v r hrun
    cases v with
    | str s =>
      simp only [heap.processValue, Option.map_eq_some'] at hrun
      obtain ⟨s1, _, heq⟩ := hrun
      simp only [Prod.mk.injEq] at heq
      obtain ⟨rfl, rfl⟩ := heq
      exact ⟨⟨[], List.append_nil _⟩, fun hc => by simp [Ref.isContainer] at hc⟩
    | scalar x =>
      simp only [heap.processValue, Option.some.injEq, Prod.mk.injEq] at hrun
      obtain ⟨rfl, rfl⟩ := hrun
      exact ⟨⟨[], List.append_nil _⟩, fun hc => by simp [Ref.isContainer] at hc⟩
    | strMap m =>
      simp only [heap.processValue, Option.map_eq_some'] at hrun
      obtain ⟨⟨hb, a⟩, hp, heq⟩ := hrun
      simp only [Prod.mk.injEq] at heq
      obtain ⟨rfl, rfl⟩ := heq
      obtain ⟨h1p, rfl, hlt⟩ := heap.processMap_frame _ hcall _ _ _ _ hp
      exact ⟨h1p, fun _ => ⟨rfl, rfl, hlt⟩⟩
    | slice m =>
      simp only [heap.processValue, Option.map_eq_some'] at hrun
      obtain ⟨⟨hb, a⟩, hp, heq⟩ := hrun
      simp only [Prod.mk.injEq] at heq
      obtain ⟨rfl, rfl⟩ := heq
      obtain ⟨h1p, rfl, hlt⟩ := heap.processSlice_frame _ hcall _ _ _ _ hp
      exact ⟨h1p, fun _ => ⟨rfl, rfl, hlt⟩⟩
    | mapSlice m =>
      simp only [heap.processValue, Option.map_eq_some'] at hrun
      obtain ⟨⟨hb, a⟩, hp, heq⟩ := hrun
      simp only [Prod.mk.injEq] at heq
      obtain ⟨rfl, rfl⟩ := heq
      obtain ⟨h1p, rfl, hlt⟩ := heap.processMapSlice_frame _ hcall _ _ _ _ hp
      exact ⟨h1p, fun _ => ⟨rfl, rfl, hlt⟩⟩
    | ifaceMap m =>
      simp only [heap.processValue, Option.map_eq_some'] at hrun
      obtain ⟨⟨hb, a⟩, hp, heq⟩ := hrun
      simp only [Prod.mk.injEq] at heq
      obtain ⟨rfl, rfl⟩ := heq
      obtain ⟨h1p, rfl, hlt⟩ := heap.processInterfaceMap_frame _ hcall _ _ _ _ hp
      exact ⟨h1p, fun _ => ⟨rfl, rfl, hlt⟩⟩

/-- An object read in an initial part of the store is read in the store. -/
theorem Store.get?_some_extends (h h1 : Store) (hp : h <+: h1) (a : Nat) (o : Obj)
    (ho : h.get? a = some o) : h1.get? a = some o := by
  have ha : a < h.length := by
    by_contra hge
    rw [List.get?_eq_none.2 (Nat.le_of_not_lt hge)] at ho
    cases ho
  rw [Store.get?_extends h h1 a hp ha, ho]

/-- The entries of a map of an initial part of the store are its entries in the store. -/
theorem Store.strMapAt_extends (h h1 : Store) (hp : h <+: h1) (m : Option Nat)
    (entries : List (List Char × Ref)) (hm : h.strMapAt m = some entries) :
    h1.strMapAt m = some entries := by
  cases m with
  | none => exact hm
  | some a =>
    simp only [Store.strMapAt] at hm ⊢
    split at hm
    · rename_i es ho
      rw [Store.get?_some_extends h h1 hp a _ ho]
      exact hm
    · cases hm

/-- The same for a `[]interface{}`. -/
theorem Store.sliceAt_extends (h h1 : Store) (hp : h <+: h1) (s : Option Nat)
    (elems : List Ref) (hm : h.sliceAt s = some elems) : h1.sliceAt s = some elems := by
  cases s with
  | none => exact hm
  | some a =>
    simp only [Store.sliceAt] at hm ⊢
    split at hm
    · rename_i es ho
      rw [Store.get?_some_extends h h1 hp a _ ho]
      exact hm
    · cases hm

/-- The same for a `[]map[string]interface{}`. -/
theorem Store.mapSliceAt_extends (h h1 : Store) (hp : h <+: h1) (s : Option Nat)
    (elems : List (Option Nat)) (hm : h.mapSliceAt s = some elems) :
    h1.mapSliceAt s = some elems := by
  cases s with
  | none => exact hm
  | some a =>
    simp only [Store.mapSliceAt] at hm ⊢
    split at hm
    · rename_i es ho
      rw [Store.get?_some_extends h h1 hp a _ ho]
      exact hm
    · cases hm

/-- The same for a `map[interface{}]interface{}`. -/
theorem Store.ifaceMapAt_extends (h h1 : Store) (hp : h <+: h1) (m : Option Nat)
    (entries : List (Key × Ref)) (hm : h.ifaceMapAt m = some entries) :
    h1.ifaceMapAt m = some entries := by
  cases m with
  | none => exact hm
  | some a =>
    simp only [Store.ifaceMapAt] at hm ⊢
    split at hm
    · rename_i es ho
      rw [Store.get?_some_extends h h1 hp a _ ho]
      exact hm
    · cases hm

/-- Reading the elements of a slice: a reader that returns whatever another
returns reads the same elements. -/
theorem heap.readElems_mono {α β : Type} (read1 read2 : α → Option β)
    (hm : ∀ r val, read1 r = some val → read2 r = some val) :
    ∀ (elems : List α) (out : List β),
      heap.readElems read1 elems = some out → heap.readElems read2 elems = some out := by
  intro elems
  induction elems with
  | nil => intro out h; exact h
  | cons item rest ih =>
    intro out h
    simp only [heap.readElems] at h ⊢
    split at h
    · cases h
    · rename_i v hv
      rw [hm _ _ hv]
      simp only [Option.map_eq_some'] at h ⊢
      obtain ⟨vs, hvs, rfl⟩ := h
      exact ⟨vs, ih _ hvs, rfl⟩

/-- The same for the entries of a map. -/
theorem heap.readEntries_mono {κ : Type} (read1 read2 : Ref → Option Value)
    (hm : ∀ r val, read1 r = some val → read2 r = some val) :
    ∀ (entries : List (κ × Ref)) (out : List (κ × Value)),
      heap.readEntries read1 entries = some out →
        heap.readEntries read2 entries = some out := by
  intro entries
  induction entries with
  | nil => intro out h; exact h
  | cons e rest ih =>
    obtain ⟨key, value⟩ := e
    intro out h
    simp only [heap.readEntries] at h ⊢
    split at h
    · cases h
    · rename_i v hv
      rw [hm _ _ hv]
      simp only [Option.map_eq_some'] at h ⊢
      obtain ⟨vs, hvs, rfl⟩ := h
      exact ⟨vs, ih _ hvs, rfl⟩

/-- What is read through a value in an initial part of the store is read through it
in the store. -/
theorem heap.read_extends (h h1 : Store) (hp : h <+: h1) :
    ∀ (depth : Nat) (w : Ref) (val : Value),
      heap.read depth h w = some val → heap.read depth h1 w = some val := by
  intro depth
  induction depth with
  | zero =>
    intro w val hr
    simp [heap.read] at hr
  | succ depth ih =>
    intro w val hr
    cases w with
    | str s => exact hr
    | scalar x => exact hr
    | strMap m =>
      simp only [heap.read, Option.map_eq_some', Option.bind_eq_some] at hr ⊢
      obtain ⟨out, ⟨es, hes, hout⟩, rfl⟩ := hr
      exact ⟨out, ⟨es, Store.strMapAt_extends h h1 hp m es hes,
        heap.readEntries_mono _ _ ih es out hout⟩, rfl⟩
    | slice s =>
      simp only [heap.read, Option.map_eq_some', Option.bind_eq_some] at hr ⊢
      obtain ⟨out, ⟨es, hes, hout⟩, rfl⟩ := hr
      exact ⟨out, ⟨es, Store.sliceAt_extends h h1 hp s es hes,
        heap.readElems_mono _ _ ih es out hout⟩, rfl⟩
    | ifaceMap m =>
      simp only [heap.read, Option.map_eq_some', Option.bind_eq_some] at hr ⊢
      obtain ⟨out, ⟨es, hes, hout⟩, rfl⟩ := hr
      exact ⟨out, ⟨es, Store.ifaceMapAt_extends h h1 hp m es hes,
        heap.readEntries_mono _ _ ih es out hout⟩, rfl⟩
    | mapSlice s =>
      simp only [heap.read, Option.map_eq_some', Option.bind_eq_some] at hr ⊢
      obtain ⟨out, ⟨es, hes, hout⟩, rfl⟩ := hr
      refine ⟨out, ⟨es, Store.mapSliceAt_extends h h1 hp s es hes, ?_⟩, rfl⟩
      refine heap.readElems_mono _ _ ?_ es out hout
      intro m val hm
      simp only [Option.bind_eq_some] at hm ⊢
      obtain ⟨ms, hms, hval⟩ := hm
      exact ⟨ms, Store.strMapAt_extends h h1 hp m ms hms,
        heap.readEntries_mono _ _ ih ms val hval⟩

end masker

/-! ### Containers by reference: the result reads as the result of `Mask` -/

namespace masker

open regexp

/-- Reading the entries of a map after `result[key] = x`. -/
theorem heap.readEntries_mapSet {κ : Type} [DecidableEq κ] (rd : Ref → Option Value) :
    ∀ (refs : List (κ × Ref)) (acc : List (κ × Value)) (key : κ) (x : Ref) (v : Value),
      heap.readEntries rd refs = some acc → rd x = some v →
        heap.readEntries rd (mapSet refs key x) = some (mapSet acc key v) := by
  intro refs
  induction refs with
  | nil =>
    intro acc key x v h hx
    simp only [heap.readEntries, Option.some.injEq] at h
    subst h
    simp [mapSet, heap.readEntries, hx]
  | cons e rest ih =>
    obtain ⟨k, r⟩ := e
    intro acc key x v h hx
    simp only [heap.readEntries] at h
    split at h
    · cases h
    · rename_i v0 hv0
      simp only [Option.map_eq_some'] at h
      obtain ⟨vs, hvs, rfl⟩ := h
      by_cases hk : k = key
      · simp [mapSet, hk, heap.readEntries, hx, hvs]
      · simp [mapSet, hk, heap.readEntries, hv0, ih vs key x v hvs hx]

/-- Reading the elements of a slice with one more element at its end. -/
theorem heap.readElems_concat {α β : Type} (rd : α → Option β) :
    ∀ (xs : List α) (vs : List β) (x : α) (v : β),
      heap.readElems rd xs = some vs → rd x = some v →
        heap.readElems rd (xs ++ [x]) = some (vs ++ [v]) := by
  intro xs
  induction xs with
  | nil =>
    intro vs x v h hx
    simp only [heap.readElems, Option.some.injEq] at h
    subst h
    simp [heap.readElems, hx]
  | cons y rest ih =>
    intro vs x v h hx
    simp only [heap.readElems] at h
    split at h
    · cases h
    · rename_i v0 hv0
      simp only [Option.map_eq_some'] at h
      obtain ⟨ws, hws, rfl⟩ := h
      simp [heap.readElems, hv0, ih ws x v hws hx]

/-- The loop of `processMap` on the store does what the loop of `processMap`
on values does: when the latter returns `out`, the former returns with the
entries of `out` in the map at `result`. -/
theorem heap.processMapLoop_refines (call : Store → Ref → Option (Store × Ref))
    (rd : Store → Ref → Option Value) (f : Value → Option Value) (h0 : Store) (res : Nat)
    (hres : h0.length ≤ res)
    (hframe : ∀ h v h1 r, call h v = some (h1, r) → h <+: h1)
    (hmono : ∀ h h1 w val, h <+: h1 → rd h w = some val → rd h1 w = some val)
    (hcall : ∀ h v val out, rd h v = some val → f val = some out →
      ∃ h1 r, call h v = some (h1, r) ∧
        ∀ h2 : Store, (∀ a, h.length ≤ a → a < h1.length → h2.get? a = h1.get? a) →
          rd h2 r = some out) :
    ∀ (entries : List (List Char × Ref)) (vals : List (List Char × Value)) (h : Store)
      (accRefs : List (List Char × Ref)) (acc out : List (List Char × Value)),
      h0 <+: h → res < h.length →
      heap.readEntries (rd h0) entries = some vals →
      foldEntries f vals acc = some out →
      h.get? res = some (.strMap accRefs) →
      (∀ h2 : Store, (∀ a, res < a → a < h.length → h2.get? a = h.get? a) →
        heap.readEntries (rd h2) accRefs = some acc) →
      ∃ h1 finalRefs, heap.processMapLoop call res entries h = some h1 ∧
        h.length ≤ h1.length ∧ h1.get? res = some (.strMap finalRefs) ∧
        ∀ h2 : Store, (∀ a, res < a → a < h1.length → h2.get? a = h1.get? a) →
          heap.readEntries (rd h2) finalRefs = some out := by
  intro entries
  induction entries with
  | nil =>
    intro vals h accRefs acc out hp hlt hread hfold hget hacc
    simp only [heap.readEntries, Option.some.injEq] at hread
    subst hread
    simp only [foldEntries, Option.some.injEq] at hfold
    subst hfold
    exact ⟨h, accRefs, rfl, le_refl _, hget, hacc⟩
  | cons e rest ih =>
    obtain ⟨key, value⟩ := e
    intro vals h accRefs acc out hp hlt hread hfold hget hacc
    simp only [heap.readEntries] at hread
    split at hread
    · cases hread
    · rename_i val0 hval0
      simp only [Option.map_eq_some'] at hread
      obtain ⟨vals1, hvals1, rfl⟩ := hread
      simp only [foldEntries] at hfold
      split at hfold
      · cases hfold
      · rename_i out0 hout0
        obtain ⟨h1, x, hc, hx⟩ := hcall h value val0 out0 (hmono _ _ _ _ hp hval0) hout0
        have hp1 : h <+: h1 := hframe _ _ _ _ hc
        have hlen1 := hp1.length_le
        have hget1 : h1.get? res = some (.strMap accRefs) := by
          rw [Store.get?_extends h h1 res hp1 hlt]
          exact hget
        have hset : h1.setKey res key x = some (h1.set res (.strMap (mapSet accRefs key x))) := by
          simp only [Store.setKey, hget1]
        have hp2 : h0 <+: h1.set res (.strMap (mapSet accRefs key x)) :=
          Store.set_extends h0 h1 res _ (hp.trans hp1) hres
        have hlen2 : (h1.set res (Obj.strMap (mapSet accRefs key x))).length = h1.length :=
          List.length_set _ _ _
        have hget2 : (h1.set res (Obj.strMap (mapSet accRefs key x))).get? res =
            some (.strMap (mapSet accRefs key x)) := by
          simp only [List.get?_eq_getElem?]
          exact List.getElem?_set_self (by omega)
        have hother : ∀ a, a ≠ res →
            (h1.set res (Obj.strMap (mapSet accRefs key x))).get? a = h1.get? a := by
          intro a ha
          simp only [List.get?_eq_getElem?]
          exact List.getElem?_set_ne (Ne.symm ha)
        obtain ⟨hf, finalRefs, hrun, hlenf, hgetf, hreadf⟩ :=
          ih vals1 (h1.set res (.strMap (mapSet accRefs key x))) (mapSet accRefs key x)
            (mapSet acc key out0) out hp2 (by omega) hvals1 hfold hget2
            (by
              intro h2 hagree
              apply heap.readEntries_mapSet
              · apply hacc
                intro a ha1 ha2
                rw [hagree a ha1 (by omega), hother a (by omega)]
                exact Store.get?_extends h h1 a hp1 ha2
              · apply hx
                intro a ha1 ha2
                rw [hagree a (by omega) (by omega), hother a (by omega)])
        refine ⟨hf, finalRefs, ?_, by omega, hgetf, hreadf⟩
        simp only [heap.processMapLoop, hc, hset]
        exact hrun

/-- The same for the loop of `processInterfaceMap`. -/
theorem heap.processInterfaceMapLoop_refines (call : Store → Ref → Option (Store × Ref))
    (rd : Store → Ref → Option Value) (f : Value → Option Value) (h0 : Store) (res : Nat)
    (hres : h0.length ≤ res)
    (hframe : ∀ h v h1 r, call h v = some (h1, r) → h <+: h1)
    (hmono : ∀ h h1 w val, h <+: h1 → rd h w = some val → rd h1 w = some val)
    (hcall : ∀ h v val out, rd h v = some val → f val = some out →
      ∃ h1 r, call h v = some (h1, r) ∧
        ∀ h2 : Store, (∀ a, h.length ≤ a → a < h1.length → h2.get? a = h1.get? a) →
          rd h2 r = some out) :
    ∀ (entries : List (Key × Ref)) (vals : List (Key × Value)) (h : Store)
      (accRefs : List (Key × Ref)) (acc out : List (Key × Value)),
      h0 <+: h → res < h.length →
      heap.readEntries (rd h0) entries = some vals →
      foldEntries f vals acc = some out →
      h.get? res = some (.ifaceMap accRefs) →
      (∀ h2 : Store, (∀ a, res < a → a < h.length → h2.get? a = h.get? a) →
        heap.readEntries (rd h2) accRefs = some acc) →
      ∃ h1 finalRefs, heap.processInterfaceMapLoop call res entries h = some h1 ∧
        h.length ≤ h1.length ∧ h1.get? res = some (.ifaceMap finalRefs) ∧
        ∀ h2 : Store, (∀ a, res < a → a < h1.length → h2.get? a = h1.get? a) →
          heap.readEntries (rd h2) finalRefs = some out := by
  intro entries
  induction entries with
  | nil =>
    intro vals h accRefs acc out hp hlt hread hfold hget hacc
    simp only [heap.readEntries, Option.some.injEq] at hread
    subst hread
    simp only [foldEntries, Option.some.injEq] at hfold
    subst hfold
    exact ⟨h, accRefs, rfl, le_refl _, hget, hacc⟩
  | cons e rest ih =>
    obtain ⟨key, value⟩ := e
    intro vals h accRefs acc out hp hlt hread hfold hget hacc
    simp only [heap.readEntries] at hread
    split at hread
    · cases hread
    · rename_i val0 hval0
      simp only [Option.map_eq_some'] at hread
      obtain ⟨vals1, hvals1, rfl⟩ := hread
      simp only [foldEntries] at hfold
      split at hfold
      · cases hfold
      · rename_i out0 hout0
        obtain ⟨h1, x, hc, hx⟩ := hcall h value val0 out0 (hmono _ _ _ _ hp hval0) hout0
        have hp1 : h <+: h1 := hframe _ _ _ _ hc
        have hlen1 := hp1.length_le
        have hget1 : h1.get? res = some (.ifaceMap accRefs) := by
          rw [Store.get?_extends h h1 res hp1 hlt]
          exact hget
        have hset : h1.setIfaceKey res key x = some (h1.set res (.ifaceMap (mapSet accRefs key x))) := by
          simp only [Store.setIfaceKey, hget1]
        have hp2 : h0 <+: h1.set res (.ifaceMap (mapSet accRefs key x)) :=
          Store.set_extends h0 h1 res _ (hp.trans hp1) hres
        have hlen2 : (h1.set res (Obj.ifaceMap (mapSet accRefs key x))).length = h1.length :=
          List.length_set _ _ _
        have hget2 : (h1.set res (Obj.ifaceMap (mapSet accRefs key x))).get? res =
            some (.ifaceMap (mapSet accRefs key x)) := by
          simp only [List.get?_eq_getElem?]
          exact List.getElem?_set_self (by omega)
        have hother : ∀ a, a ≠ res →
            (h1.set res (Obj.ifaceMap (mapSet accRefs key x))).get? a = h1.get? a := by
          intro a ha
          simp only [List.get?_eq_getElem?]
          exact List.getElem?_set_ne (Ne.symm ha)
        obtain ⟨hf, finalRefs, hrun, hlenf, hgetf, hreadf⟩ :=
          ih vals1 (h1.set res (.ifaceMap (mapSet accRefs key x))) (mapSet accRefs key x)
            (mapSet acc key out0) out hp2 (by omega) hvals1 hfold hget2
            (by
              intro h2 hagree
              apply heap.readEntries_mapSet
              · apply hacc
                intro a ha1 ha2
                rw [hagree a ha1 (by omega), hother a (by omega)]
                exact Store.get?_extends h h1 a hp1 ha2
              · apply hx
                intro a ha1 ha2
                rw [hagree a (by omega) (by omega), hother a (by omega)])
        refine ⟨hf, finalRefs, ?_, by omega, hgetf, hreadf⟩
        simp only [heap.processInterfaceMapLoop, hc, hset]
        exact hrun

/-- `processMap` on the store does what `processMap` on values does: when
the latter returns `out` on what is read through `m`, the former returns a
map through which `out` is read. -/
theorem heap.processMap_refines (call : Store → Ref → Option (Store × Ref))
    (rd : Store → Ref → Option Value) (f : Value → Option Value)
    (hframe : ∀ h v h1 r, call h v = some (h1, r) → h <+: h1)
    (hmono : ∀ h h1 w val, h <+: h1 → rd h w = some val → rd h1 w = some val)
    (hcall : ∀ h v val out, rd h v = some val → f val = some out →
      ∃ h1 r, call h v = some (h1, r) ∧
        ∀ h2 : Store, (∀ a, h.length ≤ a → a < h1.length → h2.get? a = h1.get? a) →
          rd h2 r = some out)
    (h : Store) (m : Option Nat) (vals out : List (List Char × Value))
    (hread : (h.strMapAt m).bind (heap.readEntries (rd h)) = some vals)
    (hfold : foldEntries f vals [] = some out) :
    ∃ h1 a, heap.processMap call h m = some (h1, a) ∧
      ∀ h2 : Store, (∀ b, h.length ≤ b → b < h1.length → h2.get? b = h1.get? b) →
        (h2.strMapAt (some a)).bind (heap.readEntries (rd h2)) = some out := by
  simp only [Option.bind_eq_some] at hread
  obtain ⟨entries, hentries, hvals⟩ := hread
  have hget : (h ++ [Obj.strMap []]).get? h.length = some (.strMap []) := by
    simp [List.get?_eq_getElem?]
  obtain ⟨h1, finalRefs, hrun, hlen, hgetf, hreadf⟩ :=
    heap.processMapLoop_refines call rd f h h.length (le_refl _) hframe hmono hcall entries
      vals (h ++ [.strMap []]) [] [] out (⟨_, rfl⟩) (by simp) hvals hfold hget
      (fun _ _ => rfl)
  refine ⟨h1, h.length, ?_, ?_⟩
  · simp only [heap.processMap, hentries, Store.make, hrun]
  · intro h2 hagree
    have hlen1 : h.length < h1.length := by
      simp only [List.length_append, List.length_singleton] at hlen
      omega
    simp only [Store.strMapAt, hagree h.length (le_refl _) hlen1, hgetf, Option.some_bind]
    exact hreadf h2 (fun b hb1 hb2 => hagree b (by omega) hb2)

/-- The same for `processInterfaceMap`. -/
theorem heap.processInterfaceMap_refines (call : Store → Ref → Option (Store × Ref))
    (rd : Store → Ref → Option Value) (f : Value → Option Value)
    (hframe : ∀ h v h1 r, call h v = some (h1, r) → h <+: h1)
    (hmono : ∀ h h1 w val, h <+: h1 → rd h w = some val → rd h1 w = some val)
    (hcall : ∀ h v val out, rd h v = some val → f val = some out →
      ∃ h1 r, call h v = some (h1, r) ∧
        ∀ h2 : Store, (∀ a, h.length ≤ a → a < h1.length → h2.get? a = h1.get? a) →
          rd h2 r = some out)
    (h : Store) (m : Option Nat) (vals out : List (Key × Value))
    (hread : (h.ifaceMapAt m).bind (heap.readEntries (rd h)) = some vals)
    (hfold : foldEntries f vals [] = some out) :
    ∃ h1 a, heap.processInterfaceMap call h m = some (h1, a) ∧
      ∀ h2 : Store, (∀ b, h.length ≤ b → b < h1.length → h2.get? b = h1.get? b) →
        (h2.ifaceMapAt (some a)).bind (heap.readEntries (rd h2)) = some out := by
  simp only [Option.bind_eq_some] at hread
  obtain ⟨entries, hentries, hvals⟩ := hread
  have hget : (h ++ [Obj.ifaceMap []]).get? h.length = some (.ifaceMap []) := by
    simp [List.get?_eq_getElem?]
  obtain ⟨h1, finalRefs, hrun, hlen, hgetf, hreadf⟩ :=
    heap.processInterfaceMapLoop_refines call rd f h h.length (le_refl _) hframe hmono hcall
      entries vals (h ++ [.ifaceMap []]) [] [] out (⟨_, rfl⟩) (by simp) hvals
      hfold hget (fun _ _ => rfl)
  refine ⟨h1, h.length, ?_, ?_⟩
  · simp only [heap.processInterfaceMap, hentries, Store.make, hrun]
  · intro h2 hagree
    have hlen1 : h.length < h1.length := by
      simp only [List.length_append, List.length_singleton] at hlen
      omega
    simp only [Store.ifaceMapAt, hagree h.length (le_refl _) hlen1, hgetf, Option.some_bind]
    exact hreadf h2 (fun b hb1 hb2 => hagree b (by omega) hb2)

/-- The loop of `processSlice` on the store does what `processSlice` on
values does: when the latter returns `outs` on the elements that remain, the
former returns with them written after the elements it had written. -/
theorem heap.processSliceLoop_refines (call : Store → Ref → Option (Store × Ref))
    (rd : Store → Ref → Option Value) (f : Value → Option Value) (h0 : Store) (res : Nat)
    (hres : h0.length ≤ res)
    (hframe : ∀ h v h1 r, call h v = some (h1, r) → h <+: h1)
    (hmono : ∀ h h1 w val, h <+: h1 → rd h w = some val → rd h1 w = some val)
    (hcall : ∀ h v val out, rd h v = some val → f val = some out →
      ∃ h1 r, call h v = some (h1, r) ∧
        ∀ h2 : Store, (∀ a, h.length ≤ a → a < h1.length → h2.get? a = h1.get? a) →
          rd h2 r = some out) :
    ∀ (elems : List Ref) (vals outs : List Value) (h : Store) (doneRefs : List Ref)
      (done : List Value),
      h0 <+: h → res < h.length →
      heap.readElems (rd h0) elems = some vals →
      List.Forall₂ (fun x y => f x = some y) vals outs →
      h.get? res =
        some (.slice (doneRefs ++ List.replicate elems.length (.scalar .null))) →
      (∀ h2 : Store, (∀ a, res < a → a < h.length → h2.get? a = h.get? a) →
        heap.readElems (rd h2) doneRefs = some done) →
      ∃ h1 finalRefs, heap.processSliceLoop call res elems doneRefs.length h = some h1 ∧
        h.length ≤ h1.length ∧ h1.get? res = some (.slice finalRefs) ∧
        ∀ h2 : Store, (∀ a, res < a → a < h1.length → h2.get? a = h1.get? a) →
          heap.readElems (rd h2) finalRefs = some (done ++ outs) := by
  intro elems
  induction elems with
  | nil =>
    intro vals outs h doneRefs done hp hlt hread hall hget hacc
    simp only [heap.readElems, Option.some.injEq] at hread
    subst hread
    cases hall
    simp only [List.length_nil, List.replicate_zero, List.append_nil] at hget
    exact ⟨h, doneRefs, rfl, le_refl _, hget, by simpa using hacc⟩
  | cons item rest ih =>
    intro vals outs h doneRefs done hp hlt hread hall hget hacc
    simp only [heap.readElems] at hread
    split at hread
    · cases hread
    · rename_i val0 hval0
      simp only [Option.map_eq_some'] at hread
      obtain ⟨vals1, hvals1, rfl⟩ := hread
      cases hall with
      | cons hout0 hall1 =>
        rename_i out0 outs1
        obtain ⟨h1, x, hc, hx⟩ := hcall h item val0 out0 (hmono _ _ _ _ hp hval0) hout0
        have hp1 : h <+: h1 := hframe _ _ _ _ hc
        have hlen1 := hp1.length_le
        have hget1 : h1.get? res =
            some (.slice (doneRefs ++ List.replicate (item :: rest).length (.scalar .null))) := by
          rw [Store.get?_extends h h1 res hp1 hlt]
          exact hget
        have hsetl : (doneRefs ++ List.replicate (item :: rest).length (Ref.scalar .null)).set
            doneRefs.length x = (doneRefs ++ [x]) ++ List.replicate rest.length (.scalar .null) := by
          rw [List.set_append_right _ _ (le_refl _)]
          simp [List.replicate_succ]
        have hset : h1.setIndex res doneRefs.length x =
            some (h1.set res (.slice ((doneRefs ++ [x]) ++
              List.replicate rest.length (.scalar .null)))) := by
          simp only [Store.setIndex, hget1]
          rw [if_pos (by simp), hsetl]
        have hp2 : h0 <+: h1.set res (.slice ((doneRefs ++ [x]) ++
            List.replicate rest.length (.scalar .null))) :=
          Store.set_extends h0 h1 res _ (hp.trans hp1) hres
        have hlen2 : (h1.set res (Obj.slice ((doneRefs ++ [x]) ++
            List.replicate rest.length (.scalar .null)))).length = h1.length :=
          List.length_set _ _ _
        have hget2 : (h1.set res (Obj.slice ((doneRefs ++ [x]) ++
            List.replicate rest.length (.scalar .null)))).get? res =
            some (.slice ((doneRefs ++ [x]) ++ List.replicate rest.length (.scalar .null))) := by
          simp only [List.get?_eq_getElem?]
          exact List.getElem?_set_self (by omega)
        have hother : ∀ a, a ≠ res →
            (h1.set res (Obj.slice ((doneRefs ++ [x]) ++
              List.replicate rest.length (.scalar .null)))).get? a = h1.get? a := by
          intro a ha
          simp only [List.get?_eq_getElem?]
          exact List.getElem?_set_ne (Ne.symm ha)
        obtain ⟨hf, finalRefs, hrun, hlenf, hgetf, hreadf⟩ :=
          ih vals1 outs1 (h1.set res (.slice ((doneRefs ++ [x]) ++
              List.replicate rest.length (.scalar .null)))) (doneRefs ++ [x])
            (done ++ [out0]) hp2 (by omega) hvals1 hall1 hget2
            (by
              intro h2 hagree
              apply heap.readElems_concat
              · apply hacc
                intro a ha1 ha2
                rw [hagree a ha1 (by omega), hother a (by omega)]
                exact Store.get?_extends h h1 a hp1 ha2
              · apply hx
                intro a ha1 ha2
                rw [hagree a (by omega) (by omega), hother a (by omega)])
        refine ⟨hf, finalRefs, ?_, by omega, hgetf, ?_⟩
        · simp only [heap.processSliceLoop, hc, hset]
          simpa using hrun
        · intro h2 hagree
          simpa using hreadf h2 hagree

/-- `processSlice` on the store does what `processSlice` on values does. -/
theorem heap.processSlice_refines (call : Store → Ref → Option (Store × Ref))
    (rd : Store → Ref → Option Value) (f : Value → Option Value)
    (hframe : ∀ h v h1 r, call h v = some (h1, r) → h <+: h1)
    (hmono : ∀ h h1 w val, h <+: h1 → rd h w = some val → rd h1 w = some val)
    (hcall : ∀ h v val out, rd h v = some val → f val = some out →
      ∃ h1 r, call h v = some (h1, r) ∧
        ∀ h2 : Store, (∀ a, h.length ≤ a → a < h1.length → h2.get? a = h1.get? a) →
          rd h2 r = some out)
    (h : Store) (s : Option Nat) (vals outs : List Value)
    (hread : (h.sliceAt s).bind (heap.readElems (rd h)) = some vals)
    (hall : List.Forall₂ (fun x y => f x = some y) vals outs) :
    ∃ h1 a, heap.processSlice call h s = some (h1, a) ∧
      ∀ h2 : Store, (∀ b, h.length ≤ b → b < h1.length → h2.get? b = h1.get? b) →
        (h2.sliceAt (some a)).bind (heap.readElems (rd h2)) = some outs := by
  simp only [Option.bind_eq_some] at hread
  obtain ⟨elems, helems, hvals⟩ := hread
  have hget : (h ++ [Obj.slice (List.replicate elems.length (.scalar .null))]).get? h.length =
      some (.slice ([] ++ List.replicate elems.length (.scalar .null))) := by
    simp [List.get?_eq_getElem?]
  obtain ⟨h1, finalRefs, hrun, hlen, hgetf, hreadf⟩ :=
    heap.processSliceLoop_refines call rd f h h.length (le_refl _) hframe hmono hcall elems
      vals outs (h ++ [.slice (List.replicate elems.length (.scalar .null))]) [] []
      (⟨_, rfl⟩) (by simp) hvals hall hget (fun _ _ => rfl)
  refine ⟨h1, h.length, ?_, ?_⟩
  · simp only [heap.processSlice, helems, Store.make]
    simp only [List.length_nil] at hrun
    rw [hrun]
  · intro h2 hagree
    have hlen1 : h.length < h1.length := by
      simp only [List.length_append, List.length_singleton] at hlen
      omega
    simp only [Store.sliceAt, hagree h.length (le_refl _) hlen1, hgetf, Option.some_bind]
    simpa using hreadf h2 (fun b hb1 hb2 => hagree b (by omega) hb2)

/-- The loop of `processMapSlice` on the store does what `processMapSlice`
on values does. -/
theorem heap.processMapSliceLoop_refines (call : Store → Ref → Option (Store × Ref))
    (rd : Store → Ref → Option Value) (f : Value → Option Value) (h0 : Store) (res : Nat)
    (hres : h0.length ≤ res)
    (hframe : ∀ h v h1 r, call h v = some (h1, r) → h <+: h1)
    (hmono : ∀ h h1 w val, h <+: h1 → rd h w = some val → rd h1 w = some val)
    (hcall : ∀ h v val out, rd h v = some val → f val = some out →
      ∃ h1 r, call h v = some (h1, r) ∧
        ∀ h2 : Store, (∀ a, h.length ≤ a → a < h1.length → h2.get? a = h1.get? a) →
          rd h2 r = some out) :
    ∀ (elems : List (Option Nat)) (vals outs : List (List (List Char × Value))) (h : Store)
      (doneRefs : List (Option Nat)) (done : List (List (List Char × Value))),
      h0 <+: h → res < h.length →
      heap.readElems (fun m => (h0.strMapAt m).bind (heap.readEntries (rd h0))) elems =
        some vals →
      List.Forall₂ (fun x y => foldEntries f x [] = some y) vals outs →
      h.get? res = some (.mapSlice (doneRefs ++ List.replicate elems.length none)) →
      (∀ h2 : Store, (∀ a, res < a → a < h.length → h2.get? a = h.get? a) →
        heap.readElems (fun m => (h2.strMapAt m).bind (heap.readEntries (rd h2))) doneRefs =
          some done) →
      ∃ h1 finalRefs, heap.processMapSliceLoop call res elems doneRefs.length h = some h1 ∧
        h.length ≤ h1.length ∧ h1.get? res = some (.mapSlice finalRefs) ∧
        ∀ h2 : Store, (∀ a, res < a → a < h1.length → h2.get? a = h1.get? a) →
          heap.readElems (fun m => (h2.strMapAt m).bind (heap.readEntries (rd h2)))
            finalRefs = some (done ++ outs) := by
  intro elems
  induction elems with
  | nil =>
    intro vals outs h doneRefs done hp hlt hread hall hget hacc
    simp only [heap.readElems, Option.some.injEq] at hread
    subst hread
    cases hall
    simp only [List.length_nil, List.replicate_zero, List.append_nil] at hget
    exact ⟨h, doneRefs, rfl, le_refl _, hget, by simpa using hacc⟩
  | cons item rest ih =>
    intro vals outs h doneRefs done hp hlt hread hall hget hacc
    simp only [heap.readElems] at hread
    split at hread
    · cases hread
    · rename_i val0 hval0
      simp only [Option.map_eq_some'] at hread
      obtain ⟨vals1, hvals1, rfl⟩ := hread
      cases hall with
      | cons hout0 hall1 =>
        rename_i out0 outs1
        have hval0h : (h.strMapAt item).bind (heap.readEntries (rd h)) = some val0 := by
          simp only [Option.bind_eq_some] at hval0 ⊢
          obtain ⟨es, hes, hv⟩ := hval0
          exact ⟨es, Store.strMapAt_extends h0 h hp item es hes,
            heap.readEntries_mono _ _ (fun w val => hmono h0 h w val hp) es val0 hv⟩
        obtain ⟨h1, x, hc, hx⟩ :=
          heap.processMap_refines call rd f hframe hmono hcall h item val0 out0 hval0h hout0
        have hp1 : h <+: h1 := (heap.processMap_frame call hframe h h1 item x hc).1
        have hlen1 := hp1.length_le
        have hget1 : h1.get? res =
            some (.mapSlice (doneRefs ++ List.replicate (item :: rest).length none)) := by
          rw [Store.get?_extends h h1 res hp1 hlt]
          exact hget
        have hsetl : (doneRefs ++ List.replicate (item :: rest).length (none : Option Nat)).set
            doneRefs.length (some x) = (doneRefs ++ [some x]) ++ List.replicate rest.length none := by
          rw [List.set_append_right _ _ (le_refl _)]
          simp [List.replicate_succ]
        have hset : h1.setMapIndex res doneRefs.length (some x) =
            some (h1.set res (.mapSlice ((doneRefs ++ [some x]) ++
              List.replicate rest.length none))) := by
          simp only [Store.setMapIndex, hget1]
          rw [if_pos (by simp), hsetl]
        have hp2 : h0 <+: h1.set res (.mapSlice ((doneRefs ++ [some x]) ++
            List.replicate rest.length none)) :=
          Store.set_extends h0 h1 res _ (hp.trans hp1) hres
        have hlen2 : (h1.set res (Obj.mapSlice ((doneRefs ++ [some x]) ++
            List.replicate rest.length none))).length = h1.length :=
          List.length_set _ _ _
        have hget2 : (h1.set res (Obj.mapSlice ((doneRefs ++ [some x]) ++
            List.replicate rest.length none))).get? res =
            some (.mapSlice ((doneRefs ++ [some x]) ++ List.replicate rest.length none)) := by
          simp only [List.get?_eq_getElem?]
          exact List.getElem?_set_self (by omega)
        have hother : ∀ a, a ≠ res →
            (h1.set res (Obj.mapSlice ((doneRefs ++ [some x]) ++
              List.replicate rest.length none))).get? a = h1.get? a := by
          intro a ha
          simp only [List.get?_eq_getElem?]
          exact List.getElem?_set_ne (Ne.symm ha)
        obtain ⟨hf, finalRefs, hrun, hlenf, hgetf, hreadf⟩ :=
          ih vals1 outs1 (h1.set res (.mapSlice ((doneRefs ++ [some x]) ++
              List.replicate rest.length none))) (doneRefs ++ [some x])
            (done ++ [out0]) hp2 (by omega) hvals1 hall1 hget2
            (by
              intro h2 hagree
              apply heap.readElems_concat
              · apply hacc
                intro a ha1 ha2
                rw [hagree a ha1 (by omega), hother a (by omega)]
                exact Store.get?_extends h h1 a hp1 ha2
              · apply hx
                intro a ha1 ha2
                rw [hagree a (by omega) (by omega), hother a (by omega)])
        refine ⟨hf, finalRefs, ?_, by omega, hgetf, ?_⟩
        · simp only [heap.processMapSliceLoop, hc, hset]
          simpa using hrun
        · intro h2 hagree
          simpa using hreadf h2 hagree

/-- `processMapSlice` on the store does what `processMapSlice` on values does. -/
theorem heap.processMapSlice_refines (call : Store → Ref → Option (Store × Ref))
    (rd : Store → Ref → Option Value) (f : Value → Option Value)
    (hframe : ∀ h v h1 r, call h v = some (h1, r) → h <+: h1)
    (hmono : ∀ h h1 w val, h <+: h1 → rd h w = some val → rd h1 w = some val)
    (hcall : ∀ h v val out, rd h v = some val → f val = some out →
      ∃ h1 r, call h v = some (h1, r) ∧
        ∀ h2 : Store, (∀ a, h.length ≤ a → a < h1.length → h2.get? a = h1.get? a) →
          rd h2 r = some out)
    (h : Store) (s : Option Nat) (vals outs : List (List (List Char × Value)))
    (hread : (h.mapSliceAt s).bind
      (heap.readElems (fun m => (h.strMapAt m).bind (heap.readEntries (rd h)))) = some vals)
    (hall : List.Forall₂ (fun x y => foldEntries f x [] = some y) vals outs) :
    ∃ h1 a, heap.processMapSlice call h s = some (h1, a) ∧
      ∀ h2 : Store, (∀ b, h.length ≤ b → b < h1.length → h2.get? b = h1.get? b) →
        (h2.mapSliceAt (some a)).bind
          (heap.readElems (fun m => (h2.strMapAt m).bind (heap.readEntries (rd h2)))) =
            some outs := by
  simp only [Option.bind_eq_some] at hread
  obtain ⟨elems, helems, hvals⟩ := hread
  have hget : (h ++ [Obj.mapSlice (List.replicate elems.length none)]).get? h.length =
      some (.mapSlice ([] ++ List.replicate elems.length none)) := by
    simp [List.get?_eq_getElem?]
  obtain ⟨h1, finalRefs, hrun, hlen, hgetf, hreadf⟩ :=
    heap.processMapSliceLoop_refines call rd f h h.length (le_refl _) hframe hmono hcall elems
      vals outs (h ++ [.mapSlice (List.replicate elems.length none)]) [] []
      (⟨_, rfl⟩) (by simp) hvals hall hget (fun _ _ => rfl)
  refine ⟨h1, h.length, ?_, ?_⟩
  · simp only [heap.processMapSlice, helems, Store.make]
    simp only [List.length_nil] at hrun
    rw [hrun]
  · intro h2 hagree
    have hlen1 : h.length < h1.length := by
      simp only [List.length_append, List.length_singleton] at hlen
      omega
    simp only [Store.mapSliceAt, hagree h.length (le_refl _) hlen1, hgetf, Option.some_bind]
    simpa using hreadf h2 (fun b hb1 hb2 => hagree b (by omega) hb2)

/-- `processValue` on the store does what `processValue` on values does:
when `val` is read through `v` and `processValue` returns `out` on `val`,
`processValue` on the store returns, with the depth of the reading, a value
through which `out` is read, in the store it returns and in every store that
holds the same new objects. -/
theorem heap.processValue_refines (MustCompile : List Char → Option Regexp)
    (dm : DefaultMasker) :
    ∀ (depth : Nat) (h : Store) (v : Ref) (val out : Value),
      heap.read depth h v = some val → masker.processValue MustCompile dm val = some out →
        ∃ h1 r, heap.processValue MustCompile dm depth h v = some (h1, r) ∧
          ∀ h2 : Store, (∀ a, h.length ≤ a → a < h1.length → h2.get? a = h1.get? a) →
            heap.read depth h2 r = some out := by
  intro depth
  induction depth with
  | zero =>
    intro h v val out hr
    simp [heap.read] at hr
  | succ depth ih =>
    have hframe : ∀ h v h1 r, heap.processValue MustCompile dm depth h v = some (h1, r) →
        h <+: h1 := fun h v h1 r hr => (heap.processValue_frame MustCompile dm depth h h1 v r hr).1
    have hmono : ∀ (h h1 : Store) (w : Ref) (val : Value), h <+: h1 →
        heap.read depth h w = some val → heap.read depth h1 w = some val :=
      fun h h1 w val hp hr => heap.read_extends h h1 hp depth w val hr
    intro h v val out hr hout
    cases v with
    | str s =>
      simp only [heap.read, Option.some.injEq] at hr
      subst hr
      simp only [masker.processValue, Option.map_eq_some'] at hout
      obtain ⟨s1, hs1, rfl⟩ := hout
      exact ⟨h, .str s1, by simp [heap.processValue, hs1], fun _ _ => rfl⟩
    | scalar x =>
      simp only [heap.read, Option.some.injEq] at hr
      subst hr
      simp only [masker.processValue, Option.some.injEq] at hout
      subst hout
      exact ⟨h, .scalar x, rfl, fun _ _ => rfl⟩
    | strMap m =>
      simp only [heap.read, Option.map_eq_some'] at hr
      obtain ⟨vals, hvals, rfl⟩ := hr
      simp only [masker.processValue, Option.map_eq_some', processMap_eq_foldEntries] at hout
      obtain ⟨outs, houts, rfl⟩ := hout
      obtain ⟨h1, a, hrun, hread⟩ := heap.processMap_refines _ _ _ hframe hmono ih h m vals
        outs hvals houts
      refine ⟨h1, .strMap (some a), by simp [heap.processValue, hrun], fun h2 hagree => ?_⟩
      simp only [heap.read, hread h2 hagree, Option.map_some']
    | ifaceMap m =>
      simp only [heap.read, Option.map_eq_some'] at hr
      obtain ⟨vals, hvals, rfl⟩ := hr
      simp only [masker.processValue, Option.map_eq_some', processInterfaceMap_eq_foldEntries] at hout
      obtain ⟨outs, houts, rfl⟩ := hout
      obtain ⟨h1, a, hrun, hread⟩ := heap.processInterfaceMap_refines _ _ _ hframe hmono ih h
        m vals outs hvals houts
      refine ⟨h1, .ifaceMap (some a), by simp [heap.processValue, hrun], fun h2 hagree => ?_⟩
      simp only [heap.read, hread h2 hagree, Option.map_some']
    | slice s =>
      simp only [heap.read, Option.map_eq_some'] at hr
      obtain ⟨vals, hvals, rfl⟩ := hr
      simp only [masker.processValue, Option.map_eq_some'] at hout
      obtain ⟨outs, houts, rfl⟩ := hout
      obtain ⟨h1, a, hrun, hread⟩ := heap.processSlice_refines _ _ _ hframe hmono ih h s vals
        outs hvals ((processSlice_iff MustCompile dm vals outs).1 houts)
      refine ⟨h1, .slice (some a), by simp [heap.processValue, hrun], fun h2 hagree => ?_⟩
      simp only [heap.read, hread h2 hagree, Option.map_some']
    | mapSlice s =>
      simp only [heap.read, Option.map_eq_some'] at hr
      obtain ⟨vals, hvals, rfl⟩ := hr
      simp only [masker.processValue, Option.map_eq_some'] at hout
      obtain ⟨outs, houts, rfl⟩ := hout
      have hall := (processMapSlice_iff MustCompile dm vals outs).1 houts
      simp only [processMap_eq_foldEntries] at hall
      obtain ⟨h1, a, hrun, hread⟩ := heap.processMapSlice_refines _ _ _ hframe hmono ih h s
        vals outs hvals hall
      refine ⟨h1, .mapSlice (some a), by simp [heap.processValue, hrun], fun h2 hagree => ?_⟩
      simp only [heap.read, hread h2 hagree, Option.map_some']

/-- `Mask` on the store does what `Mask` on values does: when `val` is read
through `v` and `Mask` returns `out` on `val`, `Mask` on the store returns a
value through which `out` is read, and `val` is still read through `v`. -/
theorem heap.Mask_refines (MustCompile : List Char → Option Regexp) (dm : DefaultMasker)
    (depth : Nat) (h : Store) (v : Ref) (val out : Value)
    (hread : heap.read depth h v = some val)
    (hout : masker.Mask MustCompile dm val = some out) :
    ∃ h1 r, heap.Mask MustCompile dm depth h v = some (h1, r) ∧
      heap.read depth h1 r = some out ∧ heap.read depth h1 v = some val := by
  obtain ⟨h1, r, hrun, hres⟩ :=
    heap.processValue_refines MustCompile dm depth h v val out hread hout
  exact ⟨h1, r, hrun, hres h1 (fun _ _ _ => rfl),
    heap.read_extends h h1 (heap.processValue_frame MustCompile dm depth h h1 v r hrun).1
      depth v val hread⟩

/-- On the example store, what is read through the result of `Mask` is the
result of `Mask` on what is read through the map at address 0. -/
theorem heap_Mask_example :
    heap.read 4 (exampleStore ++ exampleStoreNew) (.strMap (some 4)) =
      (heap.read 4 exampleStore (.strMap (some 0))).bind
        (Mask regexp.MustCompile defaultMasker) := by
  rfl

/-- C20: `Mask` writes to new objects only.  When `Mask` returns on a value
`v` in a store `h`, the store after the call is `h` followed by new objects:
every object of `h`, the containers of `v` among them, is as it was, and
whatever was read through a value before the call (keys, elements, strings)
is read through it after the call.  When `v` is a map or a slice, the result
is a container of the same type at an address that was not in use. -/
theorem Mask_never_writes_input (MustCompile : List Char → Option Regexp)
    (dm : DefaultMasker) (depth : Nat) (h h1 : Store) (v r : Ref)
    (hret : heap.Mask MustCompile dm depth h v = some (h1, r)) :
    h <+: h1 ∧
      (∀ a, a < h.length → h1.get? a = h.get? a) ∧
      (∀ (n : Nat) (w : Ref) (val : Value),
        heap.read n h w = some val → heap.read n h1 w = some val) ∧
      (v.isContainer = true →
        r.sameKind v = true ∧ r.addr = some h.length ∧ h.length < h1.length) := by
  have hf := heap.processValue_frame MustCompile dm depth h h1 v r hret
  exact ⟨hf.1, fun a ha => Store.get?_extends h h1 a hf.1 ha, heap.read_extends h h1 hf.1, hf.2⟩

/-- C20, on the example store: `Mask` of the map at address 0 returns a new
map at address 4 and adds six objects after the four of the store. -/
theorem Mask_never_writes_input_witness :
    heap.Mask regexp.MustCompile defaultMasker 4 exampleStore (.strMap (some 0)) =
        some (exampleStore ++ exampleStoreNew, .strMap (some 4)) ∧
      (exampleStore <+: exampleStore ++ exampleStoreNew ∧
        (∀ a, a < exampleStore.length →
          (exampleStore ++ exampleStoreNew).get? a = exampleStore.get? a) ∧
        (∀ (n : Nat) (w : Ref) (val : Value),
          heap.read n exampleStore w = some val →
            heap.read n (exampleStore ++ exampleStoreNew) w = some val) ∧
        ((Ref.strMap (some 0)).isContainer = true →
          (Ref.strMap (some 4)).sameKind (.strMap (some 0)) = true ∧
            (Ref.strMap (some 4)).addr = some exampleStore.length ∧
            exampleStore.length < (exampleStore ++ exampleStoreNew).length)) :=
  ⟨by decide,
    Mask_never_writes_input regexp.MustCompile defaultMasker 4 exampleStore
      (exampleStore ++ exampleStoreNew) (.strMap (some 0)) (.strMap (some 4)) (by decide)⟩

end masker

/-! ### The rule a match is dispatched to -/

namespace masker

open regexp

/-- C22, as the claim states it, fails: with the rules `digitRule` and
`wordRule` the combined scan of `"ab12"` finds one match, all of `"ab12"`,
which the expression of `wordRule` matches in full and the expression of
`digitRule` only in part, at `"1"`; the text is replaced by `"D"`, the result
of the function of `digitRule`. -/
theorem partial_match_counterexample :
    (regexp.MustCompile (stringsJoin (regexParts [digitRule, wordRule]) ['|'])).map
        (fun re => re.FindAllStringIndex "ab12".toList) = some [(0, 4)] ∧
      (regexp.Parse wordRule.Regex).map (fun re => re.matchesAll "ab12".toList) = some true ∧
      (regexp.Parse digitRule.Regex).map (fun re => re.matchesAll "ab12".toList) = some false ∧
      (regexp.Parse digitRule.Regex).map (fun re => re.exec "ab12".toList 0) =
        some (some (2, 3)) ∧
      digitRule.MaskFunc.map (fun f => f "ab12".toList) = some "D".toList ∧
      wordRule.MaskFunc.map (fun f => f "ab12".toList) = some "W".toList ∧
      MaskString regexp.MustCompile "ab12".toList [WithPatterns [digitRule, wordRule]] =
        some "D".toList :=
  ⟨by decide, by decide, by decide, by decide, rfl, rfl, by decide⟩

/-- C22, amended: when the dispatch of a match `m` returns `out`, either no
rule with a replace function has an expression with a match in `m` and `out`
is `m`, or `out` is `f m` for the replace function `f` of the first rule, in
declaration order, that has a replace function and an expression with a
match somewhere in `m` (`MatchString`: a match of any part of `m`). -/
theorem dispatch_result_cases (MustCompile : List Char → Option Regexp) (ps : List Pattern)
    (m out : List Char) (hret : dispatch MustCompile ps m = some out) :
    (out = m ∧ ∀ p ∈ ps, ∀ f, p.MaskFunc = some f →
        ∃ re, MustCompile p.Regex = some re ∧ re.MatchString m = false) ∨
      ∃ pre r post f re, ps = pre ++ r :: post ∧ r.MaskFunc = some f ∧
        MustCompile r.Regex = some re ∧ out = f m ∧
        (∃ a b, re.doExecute m 0 = some (a, b) ∧ a ≤ b ∧ b ≤ m.length) ∧
        ∀ p ∈ pre, ∀ f1, p.MaskFunc = some f1 →
          ∃ re1, MustCompile p.Regex = some re1 ∧ re1.MatchString m = false := by
  induction ps with
  | nil =>
    simp only [dispatch, Option.some.injEq] at hret
    exact Or.inl ⟨hret.symm, fun _ h => (List.not_mem_nil _ h).elim⟩
  | cons q rest ih =>
    simp only [dispatch] at hret
    cases hq : q.MaskFunc with
    | none =>
      rw [hq] at hret
      rcases ih hret with ⟨hout, hall⟩ | ⟨pre, r, post, f, re, hps, hf, hre, hout, hm, hpre⟩
      · refine Or.inl ⟨hout, fun p hp f hf => ?_⟩
        rcases List.mem_cons.1 hp with rfl | hp
        · rw [hq] at hf; cases hf
        · exact hall p hp f hf
      · refine Or.inr ⟨q :: pre, r, post, f, re, by rw [hps]; rfl, hf, hre, hout, hm, ?_⟩
        intro p hp f1 hf1
        rcases List.mem_cons.1 hp with rfl | hp
        · rw [hq] at hf1; cases hf1
        · exact hpre p hp f1 hf1
    | some g =>
      rw [hq] at hret
      simp only at hret
      cases hc : MustCompile q.Regex with
      | none => rw [hc] at hret; cases hret
      | some reQ =>
        rw [hc] at hret
        simp only at hret
        by_cases hmatch : reQ.MatchString m = true
        · simp only [hmatch, if_true, Option.some.injEq] at hret
          refine Or.inr ⟨[], q, rest, g, reQ, rfl, hq, hc, hret.symm, ?_,
            fun _ h => (List.not_mem_nil _ h).elim⟩
          unfold Regexp.MatchString at hmatch
          cases hx : reQ.doExecute m 0 with
          | none => rw [hx] at hmatch; cases hmatch
          | some ab =>
            obtain ⟨a, b⟩ := ab
            have hr := reQ.inRange _ _ _ _ hx
            exact ⟨a, b, rfl, hr.2.1, hr.2.2⟩
        · have hfalse : reQ.MatchString m = false := by
            cases hb : reQ.MatchString m with
            | true => exact absurd hb hmatch
            | false => rfl
          simp only [hfalse, Bool.false_eq_true, if_false] at hret
          rcases ih hret with ⟨hout, hall⟩ | ⟨pre, r, post, f, re, hps, hf, hre, hout, hm, hpre⟩
          · refine Or.inl ⟨hout, fun p hp f hf => ?_⟩
            rcases List.mem_cons.1 hp with rfl | hp
            · exact ⟨reQ, hc, hfalse⟩
            · exact hall p hp f hf
          · refine Or.inr ⟨q :: pre, r, post, f, re, by rw [hps]; rfl, hf, hre, hout, hm, ?_⟩
            intro p hp f1 hf1
            rcases List.mem_cons.1 hp with rfl | hp
            · exact ⟨reQ, hc, hfalse⟩
            · exact hpre p hp f1 hf1

/-- C22, amended, on the rules `digitRule` and `wordRule`: the match `"ab12"`
is dispatched to `digitRule`. -/
theorem dispatch_result_cases_witness :
    dispatch regexp.MustCompile [digitRule, wordRule] "ab12".toList = some "D".toList ∧
      (("D".toList = "ab12".toList ∧ ∀ p ∈ [digitRule, wordRule], ∀ f, p.MaskFunc = some f →
          ∃ re, regexp.MustCompile p.Regex = some re ∧ re.MatchString "ab12".toList = false) ∨
        ∃ pre r post f re, [digitRule, wordRule] = pre ++ r :: post ∧ r.MaskFunc = some f ∧
          regexp.MustCompile r.Regex = some re ∧ "D".toList = f "ab12".toList ∧
          (∃ a b, re.doExecute "ab12".toList 0 = some (a, b) ∧ a ≤ b ∧
            b ≤ "ab12".toList.length) ∧
          ∀ p ∈ pre, ∀ f1, p.MaskFunc = some f1 →
            ∃ re1, regexp.MustCompile p.Regex = some re1 ∧
              re1.MatchString "ab12".toList = false) :=
  ⟨by decide,
    dispatch_result_cases regexp.MustCompile [digitRule, wordRule] "ab12".toList "D".toList
      (by decide)⟩

end masker

/-! ### Construction -/

namespace masker

open regexp

/-- `regexParts` keeps the expressions of the rules that are not empty, in order. -/
theorem regexParts_eq_filter (ps : List Pattern) :
    regexParts ps = (ps.map Pattern.Regex).filter (fun r => decide (r ≠ [])) := by
  induction ps with
  | nil => rfl
  | cons p rest ih =>
    by_cases hp : p.Regex = []
    · simp [regexParts, hp, ih]
    · simp [regexParts, hp, ih]

/-- `stringsJoin` puts the separator between consecutive parts. -/
theorem stringsJoin_eq_intercalate (sep : List Char) :
    ∀ (parts : List (List Char)), stringsJoin parts sep = List.intercalate sep parts := by
  intro parts
  induction parts with
  | nil => rfl
  | cons a rest ih =>
    cases rest with
    | nil => simp [stringsJoin, List.intercalate]
    | cons b rest =>
      rw [stringsJoin, ih]
      simp [List.intercalate, List.intersperse]

/-- C23: for every rule list `ps`, the expressions that enter the combined
expression are the non-empty expressions of `ps` in order, joined by `|`;
when every expression of `ps` is empty, construction gives the masker that
holds `ps` and is not active, and when one is not empty, construction
compiles the combined expression and, unless that panics, gives the masker
that holds `ps`, the compiled expression and is active.  `NewWithOpts`
constructs from the list its options build. -/
theorem compilePatterns_rule_list (MustCompile : List Char → Option Regexp)
    (ps : List Pattern) :
    regexParts ps = (ps.map Pattern.Regex).filter (fun r => decide (r ≠ [])) ∧
      stringsJoin (regexParts ps) ['|'] = List.intercalate ['|'] (regexParts ps) ∧
      (regexParts ps ≠ [] ↔ ∃ p ∈ ps, p.Regex ≠ []) ∧
      (regexParts ps = [] →
        compilePatterns MustCompile { patterns := ps, cache := none, compiled := false } =
          some { patterns := ps, cache := none, compiled := false }) ∧
      (regexParts ps ≠ [] →
        compilePatterns MustCompile { patterns := ps, cache := none, compiled := false } =
          (MustCompile (stringsJoin (regexParts ps) ['|'])).map
            (fun re => { patterns := ps, cache := some re, compiled := true })) ∧
      (∀ dm, compilePatterns MustCompile { patterns := ps, cache := none, compiled := false } =
          some dm →
        dm.patterns = ps ∧ (dm.compiled = true ↔ ∃ p ∈ ps, p.Regex ≠ []) ∧
          (dm.compiled = true →
            dm.cache = MustCompile (stringsJoin (regexParts ps) ['|']))) ∧
      (∀ opts : List ConfigOption,
        NewWithOpts MustCompile opts =
          compilePatterns MustCompile
            { patterns := (opts.foldl (fun (c : Config) (opt : ConfigOption) => opt c)
                (if opts.length = 0 then DefaultConfig else { Patterns := [] })).Patterns,
              cache := none, compiled := false }) := by
  have hiff : regexParts ps ≠ [] ↔ ∃ p ∈ ps, p.Regex ≠ [] := by
    constructor
    · intro h
      by_contra hno
      apply h
      rw [regexParts_eq_filter]
      simp only [List.filter_eq_nil_iff, List.mem_map, forall_exists_index, and_imp,
        forall_apply_eq_imp_iff₂, decide_eq_true_eq, not_not]
      intro p hp
      by_contra hne
      exact hno ⟨p, hp, hne⟩
    · exact regexParts_ne_nil ps
  have hnil : regexParts ps = [] →
      compilePatterns MustCompile { patterns := ps, cache := none, compiled := false } =
        some { patterns := ps, cache := none, compiled := false } := by
    intro h
    simp [compilePatterns, h]
  have hcons : regexParts ps ≠ [] →
      compilePatterns MustCompile { patterns := ps, cache := none, compiled := false } =
        (MustCompile (stringsJoin (regexParts ps) ['|'])).map
          (fun re => { patterns := ps, cache := some re, compiled := true }) := by
    intro h
    have hplen : (regexParts ps).length > 0 := List.length_pos.2 h
    have hlen : ps.length > 0 := by
      obtain ⟨p, hp, _⟩ := hiff.1 h
      exact List.length_pos_of_mem hp
    simp only [compilePatterns, hlen, hplen, if_true]
    cases MustCompile (stringsJoin (regexParts ps) ['|']) <;> rfl
  refine ⟨regexParts_eq_filter ps, stringsJoin_eq_intercalate _ _, hiff, hnil, hcons, ?_,
    fun opts => rfl⟩
  intro dm hdm
  by_cases h : regexParts ps = []
  · rw [hnil h] at hdm
    simp only [Option.some.injEq] at hdm
    subst hdm
    refine ⟨rfl, ?_, fun hc => by cases hc⟩
    constructor
    · intro hc; cases hc
    · intro hex; exact absurd h (hiff.2 hex)
  · rw [hcons h] at hdm
    simp only [Option.map_eq_some'] at hdm
    obtain ⟨re, hre, rfl⟩ := hdm
    exact ⟨rfl, ⟨fun _ => hiff.1 h, fun _ => rfl⟩, fun _ => hre.symm⟩

end masker

/-! ### Panics while masking -/

namespace regexp

/-- The replacement of the spans returns when `repl` returns on every text. -/
theorem splice_returns (s : List Char) (repl : List Char → Option (List Char))
    (hrepl : ∀ m, ∃ r, repl m = some r) :
    ∀ (ms : List (Nat × Nat)) (last : Nat), ∃ out, splice s repl last ms = some out := by
  intro ms
  induction ms with
  | nil => intro last; exact ⟨_, rfl⟩
  | cons ab ms ih =>
    obtain ⟨a, b⟩ := ab
    intro last
    obtain ⟨r, hr⟩ := hrepl (substr s a b)
    obtain ⟨rest, hrest⟩ := ih b
    exact ⟨substr s last a ++ r ++ rest, by simp only [splice, hr, hrest]⟩

end regexp

namespace masker

open regexp

/-- The dispatch returns when the expression of every rule that has a
replace function compiles. -/
theorem dispatch_returns (MustCompile : List Char → Option Regexp) :
    ∀ (ps : List Pattern),
      (∀ p ∈ ps, p.MaskFunc ≠ none → MustCompile p.Regex ≠ none) →
      ∀ m, ∃ r, dispatch MustCompile ps m = some r := by
  intro ps
  induction ps with
  | nil => intro _ m; exact ⟨m, rfl⟩
  | cons q rest ih =>
    intro hvalid m
    have ih1 := ih (fun p hp => hvalid p (List.mem_cons_of_mem _ hp)) m
    simp only [dispatch]
    cases hq : q.MaskFunc with
    | none => exact ih1
    | some g =>
      have hc := hvalid q (List.mem_cons_self _ _) (by rw [hq]; exact Option.some_ne_none _)
      cases hre : MustCompile q.Regex with
      | none => exact absurd hre hc
      | some re =>
        simp only
        by_cases hm : re.MatchString m = true
        · exact ⟨g m, by simp only [hm, if_true]⟩
        · simp only [hm, if_false]
          exact ih1

/-- The result of `compilePatterns` is either not active or holds a compiled
expression; `maskString` returns on it when the dispatch does. -/
theorem maskString_returns (MustCompile : List Char → Option Regexp) (dm : DefaultMasker)
    (hdm : dm.compiled = false ∨ ∃ cache, dm.cache = some cache)
    (hvalid : ∀ p ∈ dm.patterns, p.MaskFunc ≠ none → MustCompile p.Regex ≠ none)
    (s : List Char) : ∃ r, maskString MustCompile dm s = some r := by
  rcases hdm with hc | ⟨cache, hc⟩
  · exact ⟨s, by simp [maskString, hc]⟩
  · simp only [maskString, hc]
    split
    · exact ⟨s, rfl⟩
    · rw [Regexp.ReplaceAllStringFunc_eq_splice]
      exact splice_returns s _ (dispatch_returns MustCompile dm.patterns hvalid) _ _

mutual
theorem processValue_returns (MustCompile : List Char → Option Regexp) (dm : DefaultMasker)
    (hmask : ∀ s, ∃ r, maskString MustCompile dm s = some r) :
    ∀ (v : Value), ∃ out, processValue MustCompile dm v = some out
  | .str s => by
    obtain ⟨r, hr⟩ := hmask s
    exact ⟨.str r, by simp [processValue, hr]⟩
  | .strMap m => by
    obtain ⟨r, hr⟩ := processMap_returns MustCompile dm hmask m []
    exact ⟨.strMap r, by simp [processValue, hr]⟩
  | .slice xs => by
    obtain ⟨r, hr⟩ := processSlice_returns MustCompile dm hmask xs
    exact ⟨.slice r, by simp [processValue, hr]⟩
  | .mapSlice xs => by
    obtain ⟨r, hr⟩ := processMapSlice_returns MustCompile dm hmask xs
    exact ⟨.mapSlice r, by simp [processValue, hr]⟩
  | .ifaceMap m => by
    obtain ⟨r, hr⟩ := processInterfaceMap_returns MustCompile dm hmask m []
    exact ⟨.ifaceMap r, by simp [processValue, hr]⟩
  | .scalar x => ⟨.scalar x, by simp [processValue]⟩
theorem processMap_returns (MustCompile : List Char → Option Regexp) (dm : DefaultMasker)
    (hmask : ∀ s, ∃ r, maskString MustCompile dm s = some r) :
    ∀ (m result : List (List Char × Value)),
      ∃ out, processMap MustCompile dm m result = some out
  | [], result => ⟨result, by simp [processMap]⟩
  | (k, v) :: rest, result => by
    obtain ⟨w, hw⟩ := processValue_returns MustCompile dm hmask v
    obtain ⟨out, hout⟩ := processMap_returns MustCompile dm hmask rest (mapSet result k w)
    exact ⟨out, by simp [processMap, hw, hout]⟩
theorem processInterfaceMap_returns (MustCompile : List Char → Option Regexp)
    (dm : DefaultMasker) (hmask : ∀ s, ∃ r, maskString MustCompile dm s = some r) :
    ∀ (m result : List (Key × Value)),
      ∃ out, processInterfaceMap MustCompile dm m result = some out
  | [], result => ⟨result, by simp [processInterfaceMap]⟩
  | (k, v) :: rest, result => by
    obtain ⟨w, hw⟩ := processValue_returns MustCompile dm hmask v
    obtain ⟨out, hout⟩ :=
      processInterfaceMap_returns MustCompile dm hmask rest (mapSet result k w)
    exact ⟨out, by simp [processInterfaceMap, hw, hout]⟩
theorem processSlice_returns (MustCompile : List Char → Option Regexp) (dm : DefaultMasker)
    (hmask : ∀ s, ∃ r, maskString MustCompile dm s = some r) :
    ∀ (xs : List Value), ∃ out, processSlice MustCompile dm xs = some out
  | [] => ⟨[], by simp [processSlice]⟩
  | v :: rest => by
    obtain ⟨w, hw⟩ := processValue_returns MustCompile dm hmask v
    obtain ⟨out, hout⟩ := processSlice_returns MustCompile dm hmask rest
    exact ⟨w :: out, by simp [processSlice, hw, hout]⟩
theorem processMapSlice_returns (MustCompile : List Char → Option Regexp) (dm : DefaultMasker)
    (hmask : ∀ s, ∃ r, maskString MustCompile dm s = some r) :
    ∀ (xs : List (List (List Char × Value))),
      ∃ out, processMapSlice MustCompile dm xs = some out
  | [] => ⟨[], by simp [processMapSlice]⟩
  | m :: rest => by
    obtain ⟨w, hw⟩ := processMap_returns MustCompile dm hmask m []
    obtain ⟨out, hout⟩ := processMapSlice_returns MustCompile dm hmask rest
    exact ⟨w :: out, by simp [processMapSlice, hw, hout]⟩
end

/-- On a store whose first object is a map that holds itself, `processValue`
does not return on that map, whatever the bound on the depth of the calls. -/
theorem heap.processValue_cyclic (MustCompile : List Char → Option Regexp) (dm : DefaultMasker) :
    ∀ (depth : Nat) (h : Store),
      h.get? 0 = some (.strMap [("self".toList, .strMap (some 0))]) →
        heap.processValue MustCompile dm depth h (.strMap (some 0)) = none := by
  intro depth
  induction depth with
  | zero => intro h _; rfl
  | succ depth ih =>
    intro h hget
    have hget1 : (h ++ [Obj.strMap []]).get? 0 =
        some (.strMap [("self".toList, .strMap (some 0))]) := by
      cases h with
      | nil => cases hget
      | cons o rest => exact hget
    simp only [heap.processValue, heap.processMap, Store.strMapAt, hget, Store.make,
      heap.processMapLoop, ih _ hget1, Option.map_none']

/-- C24, as the claim states it, fails.  The rules `openRule` and `closeRule`
have total replace functions and the combined expression `a(|b)` compiles, so
construction succeeds; on the text `"a"` the dispatch compiles the expression
`a(` of `openRule` alone, and `regexp.MustCompile` panics.  And with the
default rules `Mask` does not return on a map that holds itself. -/
theorem mask_panic_counterexample :
    (NewWithOpts regexp.MustCompile [WithPatterns [openRule, closeRule]]).isSome = true ∧
      regexp.MustCompile openRule.Regex = none ∧
      MaskString regexp.MustCompile "a".toList [WithPatterns [openRule, closeRule]] = none ∧
      MaskData regexp.MustCompile (.str "a".toList) [WithPatterns [openRule, closeRule]] =
        none ∧
      NewWithOpts regexp.MustCompile [] = some defaultMasker ∧
      (∀ depth, heap.Mask regexp.MustCompile defaultMasker depth cyclicStore
        (.strMap (some 0)) = none) :=
  ⟨by decide, by rfl, by decide, by rfl, rfl,
    fun depth => heap.processValue_cyclic regexp.MustCompile defaultMasker depth cyclicStore rfl⟩

/-- C24, amended: when construction has returned the masker `dm` and the
expression of every rule of `dm` that has a replace function compiles alone,
`Mask` returns on every value; on a store it returns on every value that is
read to the end within the bound on the depth, that is, on every value that
does not hold itself. -/
theorem Mask_returns (MustCompile : List Char → Option Regexp) (opts : List ConfigOption)
    (dm : DefaultMasker) (hnew : NewWithOpts MustCompile opts = some dm)
    (hvalid : ∀ p ∈ dm.patterns, p.MaskFunc ≠ none → MustCompile p.Regex ≠ none) :
    (∀ v : Value, ∃ out, Mask MustCompile dm v = some out) ∧
      ∀ (depth : Nat) (h : Store) (r : Ref) (val : Value),
        heap.read depth h r = some val →
          ∃ h1 r1, heap.Mask MustCompile dm depth h r = some (h1, r1) := by
  have hdm : dm.compiled = false ∨ ∃ cache, dm.cache = some cache := by
    rcases compilePatterns_cases MustCompile _ dm hnew with h | ⟨cache, h⟩
    · left; rw [h]
    · right; exact ⟨cache, by rw [h]⟩
  have hall : ∀ v : Value, ∃ out, Mask MustCompile dm v = some out := fun v =>
    processValue_returns MustCompile dm (maskString_returns MustCompile dm hdm hvalid) v
  refine ⟨hall, fun depth h r val hread => ?_⟩
  obtain ⟨out, hout⟩ := hall val
  obtain ⟨h1, r1, hrun, _⟩ := heap.Mask_refines MustCompile dm depth h r val out hread hout
  exact ⟨h1, r1, hrun⟩

/-- C24, amended, on the default rules. -/
theorem Mask_returns_witness :
    NewWithOpts regexp.MustCompile [] = some defaultMasker ∧
      (∀ p ∈ defaultMasker.patterns, p.MaskFunc ≠ none →
        regexp.MustCompile p.Regex ≠ none) ∧
      ((∀ v : Value, ∃ out, Mask regexp.MustCompile defaultMasker v = some out) ∧
        ∀ (depth : Nat) (h : Store) (r : Ref) (val : Value),
          heap.read depth h r = some val →
            ∃ h1 r1, heap.Mask regexp.MustCompile defaultMasker depth h r = some (h1, r1)) :=
  have hvalid : ∀ p ∈ defaultMasker.patterns, p.MaskFunc ≠ none →
      regexp.MustCompile p.Regex ≠ none := by
    intro p hp _
    rw [List.mem_singleton.1 hp]
    show regexp.MustCompile creditCardRegex ≠ none
    rw [show regexp.MustCompile creditCardRegex = some creditCardRe.toRegexp from rfl]
    exact Option.some_ne_none _
  ⟨rfl, hvalid, Mask_returns regexp.MustCompile [] defaultMasker rfl hvalid⟩

end masker

/-! ### A second pass over a masked string -/

namespace regexp

/-- The text from `last` on: the text up to a span, the span, and the text
after it. -/
theorem drop_eq_substr_append (s : List Char) (last a b : Nat) (h1 : last ≤ a) (h2 : a ≤ b)
    (h3 : b ≤ s.length) :
    s.drop last = substr s last a ++ (substr s a b ++ s.drop b) := by
  have key : ∀ i j : Nat, i ≤ j → j ≤ s.length → s.drop i = (s.take j).drop i ++ s.drop j := by
    intro i j hij hj
    conv_lhs => rw [← List.take_append_drop j s]
    rw [List.drop_append_of_le_length (by simp; omega)]
  unfold substr
  rw [← key a b h2 h3]
  exact key last a h1 (by omega)

/-- When `repl` returns every text as it is or with at least eight digits
fewer, of sixteen or more, the same holds of the replacement of the spans. -/
theorem splice_digits (s : List Char) (repl : List Char → Option (List Char))
    (hrepl : ∀ m, ∃ r, repl m = some r ∧
      (r = m ∨ ((r.filter Char.isDigit).length + 8 ≤ (m.filter Char.isDigit).length ∧
        16 ≤ (m.filter Char.isDigit).length))) :
    ∀ (ms : List (Nat × Nat)) (last : Nat), Spans last ms s.length →
      ∃ out, splice s repl last ms = some out ∧
        (out = s.drop last ∨
          ((out.filter Char.isDigit).length + 8 ≤ ((s.drop last).filter Char.isDigit).length ∧
            16 ≤ ((s.drop last).filter Char.isDigit).length)) := by
  intro ms
  induction ms with
  | nil => intro last _; exact ⟨s.drop last, rfl, Or.inl rfl⟩
  | cons ab ms ih =>
    obtain ⟨a, b⟩ := ab
    intro last hsp
    simp only [Spans] at hsp
    obtain ⟨h1, h2, h3, hrest⟩ := hsp
    obtain ⟨r, hr, hrcase⟩ := hrepl (substr s a b)
    obtain ⟨rest, hsplice, hcase⟩ := ih b hrest
    refine ⟨substr s last a ++ r ++ rest, by simp only [splice, hr, hsplice], ?_⟩
    rw [drop_eq_substr_append s last a b h1 h2 h3]
    simp only [List.filter_append, List.length_append]
    rcases hrcase with hr1 | ⟨hr1, hr2⟩
    · rcases hcase with hc1 | ⟨hc1, hc2⟩
      · left
        rw [hr1, hc1, List.append_assoc]
      · right
        rw [hr1]
        omega
    · right
      rcases hcase with hc1 | ⟨hc1, hc2⟩
      · rw [hc1]
        omega
      · omega

end regexp

namespace masker

open regexp

/-- `CleanNumber` removes characters and adds none. -/
theorem CleanNumber_sublist (s : List Char) : (CleanNumber s).Sublist s := by
  simp only [CleanNumber, stringsReplaceAll_nil_eq_filter, List.filter_filter]
  exact List.filter_sublist s

/-- The replace function of the `credit_card` rule returns its argument as
it is, or a text with at least eight digits fewer than its argument, which
has sixteen or more. -/
theorem creditCardMaskFunc_digits (m : List Char) :
    creditCardMaskFunc m = m ∨
      (((creditCardMaskFunc m).filter Char.isDigit).length + 8 ≤
          (m.filter Char.isDigit).length ∧
        16 ≤ (m.filter Char.isDigit).length) := by
  by_cases hg : len (CleanNumber m) = 16 ∧ IsAllDigits (CleanNumber m) = true
  · right
    have hg1 := (creditCard_guard_iff (CleanNumber m)).1 hg
    have hclean : ((CleanNumber m).filter Char.isDigit).length = 16 := by
      rw [List.filter_eq_self.2 hg1.2]
      exact hg1.1
    have hm : 16 ≤ (m.filter Char.isDigit).length := by
      rw [← hclean]
      exact ((CleanNumber_sublist m).filter Char.isDigit).length_le
    have hval : creditCardMaskFunc m =
        (CleanNumber m).take 4 ++ "********".toList ++ (CleanNumber m).drop 12 := by
      simp only [creditCardMaskFunc, hg, and_self, if_true]
    refine ⟨?_, hm⟩
    rw [hval]
    simp only [List.filter_append, List.length_append]
    have ht : (((CleanNumber m).take 4).filter Char.isDigit).length ≤ 4 :=
      le_trans (List.length_filter_le _ _) (by simp)
    have hd : (((CleanNumber m).drop 12).filter Char.isDigit).length ≤ 4 :=
      le_trans (List.length_filter_le _ _) (by simp [hg1.1])
    have hs : ("********".toList.filter Char.isDigit).length = 0 := by decide
    omega
  · left
    simp only [creditCardMaskFunc, hg, if_false]

/-- The dispatch over the default rules returns the match as it is, or a
text with at least eight digits fewer. -/
theorem dispatch_default_digits (m : List Char) :
    ∃ r, dispatch regexp.MustCompile DefaultPatterns m = some r ∧
      (r = m ∨ ((r.filter Char.isDigit).length + 8 ≤ (m.filter Char.isDigit).length ∧
        16 ≤ (m.filter Char.isDigit).length)) := by
  have hc : regexp.MustCompile creditCardRegex = some creditCardRe.toRegexp := rfl
  by_cases hm : creditCardRe.toRegexp.MatchString m = true
  · exact ⟨creditCardMaskFunc m, by simp [dispatch, DefaultPatterns, hc, hm],
      creditCardMaskFunc_digits m⟩
  · exact ⟨m, by simp [dispatch, DefaultPatterns, hc, hm], Or.inl rfl⟩

/-- With the default rules `MaskString` is `maskString` of the masker `New()` builds. -/
theorem MaskString_default (s : List Char) :
    MaskString regexp.MustCompile s [] = maskString regexp.MustCompile defaultMasker s := by
  have hnew : NewWithOpts regexp.MustCompile [] = some defaultMasker := rfl
  simp only [MaskString, hnew, Mask, processValue]
  cases maskString regexp.MustCompile defaultMasker s <;> rfl

/-- With the default rules `MaskString` returns its argument as it is, or a
text with at least eight digits fewer than its argument, which has sixteen
or more. -/
theorem MaskString_default_digits (s : List Char) :
    ∃ out, MaskString regexp.MustCompile s [] = some out ∧
      (out = s ∨ ((out.filter Char.isDigit).length + 8 ≤ (s.filter Char.isDigit).length ∧
        16 ≤ (s.filter Char.isDigit).length)) := by
  rw [MaskString_default]
  have h := splice_digits s (dispatch regexp.MustCompile DefaultPatterns)
    dispatch_default_digits (creditCardRe.toRegexp.FindAllStringIndex s) 0
    (Regexp.allMatchesLoop_spans _ s _ _ _)
  simp only [List.drop_zero] at h
  obtain ⟨out, hout, hcase⟩ := h
  refine ⟨out, ?_, hcase⟩
  simp only [maskString, defaultMasker, Bool.not_true, Bool.false_eq_true, if_false]
  rw [Regexp.ReplaceAllStringFunc_eq_splice]
  exact hout

/-- C25, as the claim states it, fails: the first pass masks the sixteen
digits at the end of the text, and the second pass finds the sixteen digits
that now end at the first asterisk and masks them. -/
theorem idempotence_counterexample :
    MaskString regexp.MustCompile "1234 5678 9012 4111111111111111".toList [] =
        some "1234 5678 9012 4111********1111".toList ∧
      MaskString regexp.MustCompile "1234 5678 9012 4111********1111".toList [] =
        some "1234********4111********1111".toList ∧
      "1234********4111********1111".toList ≠ "1234 5678 9012 4111********1111".toList :=
  ⟨by decide, by decide, by decide⟩

/-- C25, amended: with the default rules, on a string with at most 23 ASCII
digits `MaskString` returns, and a second pass returns the result of the
first as it is. -/
theorem MaskString_idempotent_few_digits (s : List Char)
    (hfew : (s.filter Char.isDigit).length ≤ 23) :
    ∃ out, MaskString regexp.MustCompile s [] = some out ∧
      MaskString regexp.MustCompile out [] = some out := by
  obtain ⟨out, hout, hcase⟩ := MaskString_default_digits s
  refine ⟨out, hout, ?_⟩
  rcases hcase with rfl | ⟨h1, _⟩
  · exact hout
  · obtain ⟨out2, hout2, hcase2⟩ := MaskString_default_digits out
    rcases hcase2 with rfl | ⟨_, h2⟩
    · exact hout2
    · omega

/-- C25, amended, on a card number: the second pass leaves `"4111********1111"` as it is. -/
theorem MaskString_idempotent_few_digits_witness :
    ("4111-1111-1111-1111".toList.filter Char.isDigit).length ≤ 23 ∧
      ∃ out, MaskString regexp.MustCompile "4111-1111-1111-1111".toList [] = some out ∧
        MaskString regexp.MustCompile out [] = some out :=
  ⟨by decide, MaskString_idempotent_few_digits "4111-1111-1111-1111".toList (by decide)⟩

end masker

/-! ### Containers by reference: values that hold no nil map or slice -/

namespace masker

open regexp

/-- What is read, with no nil on the way, through a value in an initial part
of the store is read through it in the store. -/
theorem heap.readNonNil_extends (h h1 : Store) (hp : h <+: h1) :
    ∀ (depth : Nat) (w : Ref) (val : Value),
      heap.readNonNil depth h w = some val → heap.readNonNil depth h1 w = some val := by
  intro depth
  induction depth with
  | zero =>
    intro w val hr
    simp [heap.readNonNil] at hr
  | succ depth ih =>
    intro w val hr
    cases w with
    | str s => exact hr
    | scalar x => exact hr
    | strMap m0 =>
      cases m0 with
      | none => simp [heap.readNonNil] at hr
      | some m =>
        simp only [heap.readNonNil, Option.map_eq_some', Option.bind_eq_some] at hr ⊢
        obtain ⟨out, ⟨es, hes, hout⟩, rfl⟩ := hr
        exact ⟨out, ⟨es, Store.strMapAt_extends h h1 hp (some m) es hes,
          heap.readEntries_mono _ _ ih es out hout⟩, rfl⟩
    | slice s0 =>
      cases s0 with
      | none => simp [heap.readNonNil] at hr
      | some s =>
        simp only [heap.readNonNil, Option.map_eq_some', Option.bind_eq_some] at hr ⊢
        obtain ⟨out, ⟨es, hes, hout⟩, rfl⟩ := hr
        exact ⟨out, ⟨es, Store.sliceAt_extends h h1 hp (some s) es hes,
          heap.readElems_mono _ _ ih es out hout⟩, rfl⟩
    | ifaceMap m0 =>
      cases m0 with
      | none => simp [heap.readNonNil] at hr
      | some m =>
        simp only [heap.readNonNil, Option.map_eq_some', Option.bind_eq_some] at hr ⊢
        obtain ⟨out, ⟨es, hes, hout⟩, rfl⟩ := hr
        exact ⟨out, ⟨es, Store.ifaceMapAt_extends h h1 hp (some m) es hes,
          heap.readEntries_mono _ _ ih es out hout⟩, rfl⟩
    | mapSlice s0 =>
      cases s0 with
      | none => simp [heap.readNonNil] at hr
      | some s =>
        simp only [heap.readNonNil, Option.map_eq_some', Option.bind_eq_some] at hr ⊢
        obtain ⟨out, ⟨es, hes, hout⟩, rfl⟩ := hr
        refine ⟨out, ⟨es, Store.mapSliceAt_extends h h1 hp (some s) es hes, ?_⟩, rfl⟩
        refine heap.readElems_mono _ _ ?_ es out hout
        intro m val hm
        cases m with
        | none => simp [heap.readMapNonNil] at hm
        | some b =>
          simp only [heap.readMapNonNil, Option.bind_eq_some] at hm ⊢
          obtain ⟨ms, hms, hval⟩ := hm
          exact ⟨ms, Store.strMapAt_extends h h1 hp (some b) ms hms,
            heap.readEntries_mono _ _ ih ms val hval⟩

/-- The loop of `processMapSlice` on the store, for slices that hold no nil
map: the maps it writes are not nil. -/
theorem heap.processMapSliceLoop_nonNil (call : Store → Ref → Option (Store × Ref))
    (rd : Store → Ref → Option Value) (f : Value → Option Value) (h0 : Store) (res : Nat)
    (hres : h0.length ≤ res)
    (hframe : ∀ h v h1 r, call h v = some (h1, r) → h <+: h1)
    (hmono : ∀ h h1 w val, h <+: h1 → rd h w = some val → rd h1 w = some val)
    (hcall : ∀ h v val out, rd h v = some val → f val = some out →
      ∃ h1 r, call h v = some (h1, r) ∧
        ∀ h2 : Store, (∀ a, h.length ≤ a → a < h1.length → h2.get? a = h1.get? a) →
          rd h2 r = some out) :
    ∀ (elems : List (Option Nat)) (vals outs : List (List (List Char × Value))) (h : Store)
      (doneRefs : List (Option Nat)) (done : List (List (List Char × Value))),
      h0 <+: h → res < h.length →
      heap.readElems (heap.readMapNonNil h0 (rd h0)) elems =
        some vals →
      List.Forall₂ (fun x y => foldEntries f x [] = some y) vals outs →
      h.get? res = some (.mapSlice (doneRefs ++ List.replicate elems.length none)) →
      (∀ h2 : Store, (∀ a, res < a → a < h.length → h2.get? a = h.get? a) →
        heap.readElems (heap.readMapNonNil h2 (rd h2)) doneRefs =
          some done) →
      ∃ h1 finalRefs, heap.processMapSliceLoop call res elems doneRefs.length h = some h1 ∧
        h.length ≤ h1.length ∧ h1.get? res = some (.mapSlice finalRefs) ∧
        ∀ h2 : Store, (∀ a, res < a → a < h1.length → h2.get? a = h1.get? a) →
          heap.readElems (heap.readMapNonNil h2 (rd h2))
            finalRefs = some (done ++ outs) := by
  intro elems
  induction elems with
  | nil =>
    intro vals outs h doneRefs done hp hlt hread hall hget hacc
    simp only [heap.readElems, Option.some.injEq] at hread
    subst hread
    cases hall
    simp only [List.length_nil, List.replicate_zero, List.append_nil] at hget
    exact ⟨h, doneRefs, rfl, le_refl _, hget, by simpa using hacc⟩
  | cons item rest ih =>
    intro vals outs h doneRefs done hp hlt hread hall hget hacc
    simp only [heap.readElems] at hread
    split at hread
    · cases hread
    · rename_i val0 hval0
      simp only [Option.map_eq_some'] at hread
      obtain ⟨vals1, hvals1, rfl⟩ := hread
      cases hall with
      | cons hout0 hall1 =>
        rename_i out0 outs1
        have hval0h : (h.strMapAt item).bind (heap.readEntries (rd h)) = some val0 := by
          cases item with
          | none => simp [heap.readMapNonNil] at hval0
          | some b =>
            simp only [heap.readMapNonNil, Option.bind_eq_some] at hval0 ⊢
            obtain ⟨es, hes, hv⟩ := hval0
            exact ⟨es, Store.strMapAt_extends h0 h hp (some b) es hes,
              heap.readEntries_mono _ _ (fun w val => hmono h0 h w val hp) es val0 hv⟩
        obtain ⟨h1, x, hc, hx⟩ :=
          heap.processMap_refines call rd f hframe hmono hcall h item val0 out0 hval0h hout0
        have hp1 : h <+: h1 := (heap.processMap_frame call hframe h h1 item x hc).1
        have hlen1 := hp1.length_le
        have hget1 : h1.get? res =
            some (.mapSlice (doneRefs ++ List.replicate (item :: rest).length none)) := by
          rw [Store.get?_extends h h1 res hp1 hlt]
          exact hget
        have hsetl : (doneRefs ++ List.replicate (item :: rest).length (none : Option Nat)).set
            doneRefs.length (some x) = (doneRefs ++ [some x]) ++ List.replicate rest.length none := by
          rw [List.set_append_right _ _ (le_refl _)]
          simp [List.replicate_succ]
        have hset : h1.setMapIndex res doneRefs.length (some x) =
            some (h1.set res (.mapSlice ((doneRefs ++ [some x]) ++
              List.replicate rest.length none))) := by
          simp only [Store.setMapIndex, hget1]
          rw [if_pos (by simp), hsetl]
        have hp2 : h0 <+: h1.set res (.mapSlice ((doneRefs ++ [some x]) ++
            List.replicate rest.length none)) :=
          Store.set_extends h0 h1 res _ (hp.trans hp1) hres
        have hlen2 : (h1.set res (Obj.mapSlice ((doneRefs ++ [some x]) ++
            List.replicate rest.length none))).length = h1.length :=
          List.length_set _ _ _
        have hget2 : (h1.set res (Obj.mapSlice ((doneRefs ++ [some x]) ++
            List.replicate rest.length none))).get? res =
            some (.mapSlice ((doneRefs ++ [some x]) ++ List.replicate rest.length none)) := by
          simp only [List.get?_eq_getElem?]
          exact List.getElem?_set_self (by omega)
        have hother : ∀ a, a ≠ res →
            (h1.set res (Obj.mapSlice ((doneRefs ++ [some x]) ++
              List.replicate rest.length none))).get? a = h1.get? a := by
          intro a ha
          simp only [List.get?_eq_getElem?]
          exact List.getElem?_set_ne (Ne.symm ha)
        obtain ⟨hf, finalRefs, hrun, hlenf, hgetf, hreadf⟩ :=
          ih vals1 outs1 (h1.set res (.mapSlice ((doneRefs ++ [some x]) ++
              List.replicate rest.length none))) (doneRefs ++ [some x])
            (done ++ [out0]) hp2 (by omega) hvals1 hall1 hget2
            (by
              intro h2 hagree
              apply heap.readElems_concat
              · apply hacc
                intro a ha1 ha2
                rw [hagree a ha1 (by omega), hother a (by omega)]
                exact Store.get?_extends h h1 a hp1 ha2
              · show (h2.strMapAt (some x)).bind (heap.readEntries (rd h2)) = some out0
                apply hx
                intro a ha1 ha2
                rw [hagree a (by omega) (by omega), hother a (by omega)])
        refine ⟨hf, finalRefs, ?_, by omega, hgetf, ?_⟩
        · simp only [heap.processMapSliceLoop, hc, hset]
          simpa using hrun
        · intro h2 hagree
          simpa using hreadf h2 hagree

/-- `processMapSlice` on the store, for a slice that holds no nil map. -/
theorem heap.processMapSlice_nonNil (call : Store → Ref → Option (Store × Ref))
    (rd : Store → Ref → Option Value) (f : Value → Option Value)
    (hframe : ∀ h v h1 r, call h v = some (h1, r) → h <+: h1)
    (hmono : ∀ h h1 w val, h <+: h1 → rd h w = some val → rd h1 w = some val)
    (hcall : ∀ h v val out, rd h v = some val → f val = some out →
      ∃ h1 r, call h v = some (h1, r) ∧
        ∀ h2 : Store, (∀ a, h.length ≤ a → a < h1.length → h2.get? a = h1.get? a) →
          rd h2 r = some out)
    (h : Store) (s : Option Nat) (vals outs : List (List (List Char × Value)))
    (hread : (h.mapSliceAt s).bind
      (heap.readElems (heap.readMapNonNil h (rd h))) = some vals)
    (hall : List.Forall₂ (fun x y => foldEntries f x [] = some y) vals outs) :
    ∃ h1 a, heap.processMapSlice call h s = some (h1, a) ∧
      ∀ h2 : Store, (∀ b, h.length ≤ b → b < h1.length → h2.get? b = h1.get? b) →
        (h2.mapSliceAt (some a)).bind
          (heap.readElems (heap.readMapNonNil h2 (rd h2))) =
            some outs := by
  simp only [Option.bind_eq_some] at hread
  obtain ⟨elems, helems, hvals⟩ := hread
  have hget : (h ++ [Obj.mapSlice (List.replicate elems.length none)]).get? h.length =
      some (.mapSlice ([] ++ List.replicate elems.length none)) := by
    simp [List.get?_eq_getElem?]
  obtain ⟨h1, finalRefs, hrun, hlen, hgetf, hreadf⟩ :=
    heap.processMapSliceLoop_nonNil call rd f h h.length (le_refl _) hframe hmono hcall elems
      vals outs (h ++ [.mapSlice (List.replicate elems.length none)]) [] []
      (⟨_, rfl⟩) (by simp) hvals hall hget (fun _ _ => rfl)
  refine ⟨h1, h.length, ?_, ?_⟩
  · simp only [heap.processMapSlice, helems, Store.make]
    simp only [List.length_nil] at hrun
    rw [hrun]
  · intro h2 hagree
    have hlen1 : h.length < h1.length := by
      simp only [List.length_append, List.length_singleton] at hlen
      omega
    simp only [Store.mapSliceAt, hagree h.length (le_refl _) hlen1, hgetf, Option.some_bind]
    simpa using hreadf h2 (fun b hb1 hb2 => hagree b (by omega) hb2)

/-- `processValue` on the store, for a value that holds no nil map or slice:
when `val` is read through `v` with no nil on the way and `processValue`
returns `out` on `val`, `processValue` on the store returns a value through
which `out` is read with no nil on the way. -/
theorem heap.processValue_nonNil (MustCompile : List Char → Option Regexp)
    (dm : DefaultMasker) :
    ∀ (depth : Nat) (h : Store) (v : Ref) (val out : Value),
      heap.readNonNil depth h v = some val → masker.processValue MustCompile dm val = some out →
        ∃ h1 r, heap.processValue MustCompile dm depth h v = some (h1, r) ∧
          ∀ h2 : Store, (∀ a, h.length ≤ a → a < h1.length → h2.get? a = h1.get? a) →
            heap.readNonNil depth h2 r = some out := by
  intro depth
  induction depth with
  | zero =>
    intro h v val out hr
    simp [heap.readNonNil] at hr
  | succ depth ih =>
    have hframe : ∀ h v h1 r, heap.processValue MustCompile dm depth h v = some (h1, r) →
        h <+: h1 := fun h v h1 r hr => (heap.processValue_frame MustCompile dm depth h h1 v r hr).1
    have hmono : ∀ (h h1 : Store) (w : Ref) (val : Value), h <+: h1 →
        heap.readNonNil depth h w = some val → heap.readNonNil depth h1 w = some val :=
      fun h h1 w val hp hr => heap.readNonNil_extends h h1 hp depth w val hr
    intro h v val out hr hout
    cases v with
    | str s =>
      simp only [heap.readNonNil, Option.some.injEq] at hr
      subst hr
      simp only [masker.processValue, Option.map_eq_some'] at hout
      obtain ⟨s1, hs1, rfl⟩ := hout
      exact ⟨h, .str s1, by simp [heap.processValue, hs1], fun _ _ => rfl⟩
    | scalar x =>
      simp only [heap.readNonNil, Option.some.injEq] at hr
      subst hr
      simp only [masker.processValue, Option.some.injEq] at hout
      subst hout
      exact ⟨h, .scalar x, rfl, fun _ _ => rfl⟩
    | strMap m0 =>
      cases m0 with
      | none => simp [heap.readNonNil] at hr
      | some m =>
      simp only [heap.readNonNil, Option.map_eq_some'] at hr
      obtain ⟨vals, hvals, rfl⟩ := hr
      simp only [masker.processValue, Option.map_eq_some', processMap_eq_foldEntries] at hout
      obtain ⟨outs, houts, rfl⟩ := hout
      obtain ⟨h1, a, hrun, hread⟩ := heap.processMap_refines _ _ _ hframe hmono ih h (some m) vals
        outs hvals houts
      refine ⟨h1, .strMap (some a), by simp [heap.processValue, hrun], fun h2 hagree => ?_⟩
      simp only [heap.readNonNil, hread h2 hagree, Option.map_some']
    | ifaceMap m0 =>
      cases m0 with
      | none => simp [heap.readNonNil] at hr
      | some m =>
      simp only [heap.readNonNil, Option.map_eq_some'] at hr
      obtain ⟨vals, hvals, rfl⟩ := hr
      simp only [masker.processValue, Option.map_eq_some', processInterfaceMap_eq_foldEntries] at hout
      obtain ⟨outs, houts, rfl⟩ := hout
      obtain ⟨h1, a, hrun, hread⟩ := heap.processInterfaceMap_refines _ _ _ hframe hmono ih h
        (some m) vals outs hvals houts
      refine ⟨h1, .ifaceMap (some a), by simp [heap.processValue, hrun], fun h2 hagree => ?_⟩
      simp only [heap.readNonNil, hread h2 hagree, Option.map_some']
    | slice s0 =>
      cases s0 with
      | none => simp [heap.readNonNil] at hr
      | some s =>
      simp only [heap.readNonNil, Option.map_eq_some'] at hr
      obtain ⟨vals, hvals, rfl⟩ := hr
      simp only [masker.processValue, Option.map_eq_some'] at hout
      obtain ⟨outs, houts, rfl⟩ := hout
      obtain ⟨h1, a, hrun, hread⟩ := heap.processSlice_refines _ _ _ hframe hmono ih h (some s) vals
        outs hvals ((processSlice_iff MustCompile dm vals outs).1 houts)
      refine ⟨h1, .slice (some a), by simp [heap.processValue, hrun], fun h2 hagree => ?_⟩
      simp only [heap.readNonNil, hread h2 hagree, Option.map_some']
    | mapSlice s0 =>
      cases s0 with
      | none => simp [heap.readNonNil] at hr
      | some s =>
      simp only [heap.readNonNil, Option.map_eq_some'] at hr
      obtain ⟨vals, hvals, rfl⟩ := hr
      simp only [masker.processValue, Option.map_eq_some'] at hout
      obtain ⟨outs, houts, rfl⟩ := hout
      have hall := (processMapSlice_iff MustCompile dm vals outs).1 houts
      simp only [processMap_eq_foldEntries] at hall
      obtain ⟨h1, a, hrun, hread⟩ := heap.processMapSlice_nonNil _ _ _ hframe hmono ih h (some s)
        vals outs hvals hall
      refine ⟨h1, .mapSlice (some a), by simp [heap.processValue, hrun], fun h2 hagree => ?_⟩
      simp only [heap.readNonNil, hread h2 hagree, Option.map_some']

/-- `Mask` on the store, for a value that holds no nil map or slice: when
`val` is read through `v` with no nil on the way and `Mask` returns `out` on
`val`, `Mask` on the store returns a value through which `out` is read with
no nil on the way, and `val` is still read through `v`. -/
theorem heap.Mask_nonNil (MustCompile : List Char → Option Regexp) (dm : DefaultMasker)
    (depth : Nat) (h : Store) (v : Ref) (val out : Value)
    (hread : heap.readNonNil depth h v = some val)
    (hout : masker.Mask MustCompile dm val = some out) :
    ∃ h1 r, heap.Mask MustCompile dm depth h v = some (h1, r) ∧
      heap.readNonNil depth h1 r = some out ∧ heap.readNonNil depth h1 v = some val := by
  obtain ⟨h1, r, hrun, hres⟩ :=
    heap.processValue_nonNil MustCompile dm depth h v val out hread hout
  exact ⟨h1, r, hrun, hres h1 (fun _ _ _ => rfl),
    heap.readNonNil_extends h h1
      (heap.processValue_frame MustCompile dm depth h h1 v r hrun).1 depth v val hread⟩

end masker

/-! ### Masking that changes nothing -/

namespace regexp

/-- Where an alternation has a match, one of its two branches has one. -/
theorem Re.searchFrom_alternate (r1 r2 : Re) :
    ∀ (rest : List Char) (prev : Option Char) (pos : Nat),
      ((Re.alternate r1 r2).searchFrom prev rest pos).isSome = true →
        (r1.searchFrom prev rest pos).isSome = true ∨
          (r2.searchFrom prev rest pos).isSome = true := by
  intro rest
  induction rest with
  | nil =>
    intro prev pos h
    simp only [Re.searchFrom, Re.run] at h ⊢
    cases h1 : r1.run prev [] (fun _ r => some r) with
    | some x => left; simp
    | none =>
      cases h2 : r2.run prev [] (fun _ r => some r) with
      | some y => right; simp
      | none => simp [h1, h2, firstOf] at h
  | cons c cs ih =>
    intro prev pos h
    simp only [Re.searchFrom, Re.run] at h ⊢
    cases h1 : r1.run prev (c :: cs) (fun _ r => some r) with
    | some x => left; simp
    | none =>
      cases h2 : r2.run prev (c :: cs) (fun _ r => some r) with
      | some y => right; simp
      | none =>
        simp only [h1, h2, firstOf] at h
        exact ih (some c) (pos + 1) h

/-- A text in which an alternation has a match is one in which one of its
two branches has a match. -/
theorem Re.MatchString_alternate (r1 r2 : Re) (s : List Char)
    (h : (Re.alternate r1 r2).toRegexp.MatchString s = true) :
    r1.toRegexp.MatchString s = true ∨ r2.toRegexp.MatchString s = true := by
  simp only [Regexp.MatchString, Re.toRegexp, Re.exec, Nat.zero_le, if_true] at h ⊢
  exact Re.searchFrom_alternate r1 r2 _ _ _ h

end regexp

namespace masker

open regexp

/-- What is read through the map at address 0 of `plainStore`, no nil on the
way, and what `Mask` without any rule makes of it. -/
theorem heap_Mask_plainStore :
    heap.readNonNil 4 plainStore (.strMap (some 0)) = some plainValue ∧
      (heap.Mask regexp.MustCompile { patterns := [], cache := none, compiled := false } 4
          plainStore (.strMap (some 0))).map
        (fun p => (p.2, heap.readNonNil 4 p.1 p.2)) =
          some (.strMap (some 5), some plainValue) := by
  exact ⟨rfl, rfl⟩

/-- C9, as the claim states it, fails.  Without any rule `Mask` of a nil map
is a new map that is not nil, and `Mask` of a nil slice a new slice that is
not nil; and `Mask` does not return on a map that holds itself. -/
theorem nil_container_counterexample :
    compilePatterns regexp.MustCompile { patterns := [], cache := none, compiled := false } =
        some { patterns := [], cache := none, compiled := false } ∧
      heap.Mask regexp.MustCompile { patterns := [], cache := none, compiled := false } 1 []
          (.strMap none) = some ([.strMap []], .strMap (some 0)) ∧
      (Ref.strMap none).isNil = true ∧ (Ref.strMap (some 0)).isNil = false ∧
      heap.Mask regexp.MustCompile { patterns := [], cache := none, compiled := false } 1 []
          (.slice none) = some ([.slice []], .slice (some 0)) ∧
      (Ref.slice none).isNil = true ∧ (Ref.slice (some 0)).isNil = false ∧
      (∀ depth, heap.Mask regexp.MustCompile
        { patterns := [], cache := none, compiled := false } depth cyclicStore
        (.strMap (some 0)) = none) :=
  ⟨rfl, rfl, rfl, rfl, rfl, rfl, rfl,
    fun depth => heap.processValue_cyclic regexp.MustCompile _ depth cyclicStore rfl⟩

/-- `Mask` on the store, both readings: when `v` is read through a value,
a nil map or slice read as an empty one, and `Mask` returns `v` on `v`, then
`Mask` on the store returns a value through which `v` is read; and when the
argument holds no nil map or slice, neither does the result. -/
theorem heap.Mask_identity (MustCompile : List Char → Option Regexp) (dm : DefaultMasker)
    (depth : Nat) (h : Store) (r : Ref) (v : Value)
    (hread : heap.read depth h r = some v)
    (hmask : masker.Mask MustCompile dm v = some v) :
    ∃ h1 r1, heap.Mask MustCompile dm depth h r = some (h1, r1) ∧
      heap.read depth h1 r1 = some v ∧ heap.read depth h1 r = some v ∧
      (heap.readNonNil depth h r = some v →
        heap.readNonNil depth h1 r1 = some v ∧ heap.readNonNil depth h1 r = some v) := by
  obtain ⟨h1, r1, hrun, hres, hold⟩ := heap.Mask_refines MustCompile dm depth h r v v hread hmask
  refine ⟨h1, r1, hrun, hres, hold, fun hexact => ?_⟩
  obtain ⟨h2, r2, hrun2, hres2, hold2⟩ :=
    heap.Mask_nonNil MustCompile dm depth h r v v hexact hmask
  rw [hrun] at hrun2
  simp only [Option.some.injEq, Prod.mk.injEq] at hrun2
  obtain ⟨rfl, rfl⟩ := hrun2
  exact ⟨hres2, hold2⟩

/-- C9, amended: when no rule has a non-empty expression (the empty rule
list included), construction succeeds without compiling anything, and for
every value that is read to the end within the depth (it does not hold
itself; `v` is what is read through it, its maps with distinct keys), `Mask`
returns a value through which the same `v` is read, whatever replace
functions the rules carry: the same keys, elements and strings, a nil map or
slice of the argument being an empty one in the result.  When the argument
holds no nil map or slice, neither does the result: it is structurally equal
to the argument. -/
theorem Mask_identity_without_patterns (MustCompile : List Char → Option Regexp)
    (patterns : List Pattern) (v : Value) (depth : Nat) (h : Store) (r : Ref)
    (hempty : ∀ p ∈ patterns, p.Regex = []) (hwf : v.WF)
    (hread : heap.read depth h r = some v) :
    compilePatterns MustCompile { patterns := patterns, cache := none, compiled := false } =
        some { patterns := patterns, cache := none, compiled := false } ∧
      ∃ h1 r1,
        heap.Mask MustCompile { patterns := patterns, cache := none, compiled := false }
            depth h r = some (h1, r1) ∧
          heap.read depth h1 r1 = some v ∧ heap.read depth h1 r = some v ∧
          (heap.readNonNil depth h r = some v →
            heap.readNonNil depth h1 r1 = some v ∧ heap.readNonNil depth h1 r = some v) := by
  have hparts := regexParts_eq_nil patterns hempty
  have hmask : Mask MustCompile { patterns := patterns, cache := none, compiled := false } v =
      some v :=
    processValue_id MustCompile _ (fun _ => True) (fun s _ => by simp [maskString]) v hwf
      (fun _ _ => trivial)
  exact ⟨by simp [compilePatterns, hparts],
    heap.Mask_identity MustCompile _ depth h r v hread hmask⟩

/-- C9, amended, on the rule of `TestEmptyCustomPattern` and the map at
address 0 of `plainStore`, which holds no nil map or slice. -/
theorem Mask_identity_without_patterns_witness :
    (∀ p ∈ [emptyRule], p.Regex = []) ∧ plainValue.WF ∧
      heap.read 4 plainStore (.strMap (some 0)) = some plainValue ∧
      heap.readNonNil 4 plainStore (.strMap (some 0)) = some plainValue ∧
      (compilePatterns regexp.MustCompile
          { patterns := [emptyRule], cache := none, compiled := false } =
        some { patterns := [emptyRule], cache := none, compiled := false } ∧
      ∃ h1 r1,
        heap.Mask regexp.MustCompile
            { patterns := [emptyRule], cache := none, compiled := false }
            4 plainStore (.strMap (some 0)) = some (h1, r1) ∧
          heap.read 4 h1 r1 = some plainValue ∧
          heap.read 4 h1 (.strMap (some 0)) = some plainValue ∧
          (heap.readNonNil 4 plainStore (.strMap (some 0)) = some plainValue →
            heap.readNonNil 4 h1 r1 = some plainValue ∧
              heap.readNonNil 4 h1 (.strMap (some 0)) = some plainValue)) :=
  have h1 : ∀ p ∈ [emptyRule], p.Regex = [] := by
    intro p hp
    rw [List.mem_singleton.1 hp]
    rfl
  have h2 : plainValue.WF := by
    simp [plainValue, Value.WF, entriesWF, valuesWF, mapsWF, ifaceEntriesWF]
  ⟨h1, h2, rfl, rfl,
    Mask_identity_without_patterns regexp.MustCompile [emptyRule] plainValue 4 plainStore
      (.strMap (some 0)) h1 h2 rfl⟩

/-- C8, as the claim states it, fails.  With the default rules `Mask` of a
nil slice, which has no string in it, is a new slice that is not nil, and
`Mask` does not return on a map that holds itself.  And the join of the
expressions is not their alternation: neither `(?i)token` nor `^B|b` has a
match in `"cB"`, but in the combined expression `(?i)token|^B|b` the flag of
the first rule reaches the second, the scan finds `"B"`, and the second rule,
asked about `"B"` alone, matches it at its beginning and replaces it. -/
theorem no_match_counterexample :
    NewWithOpts regexp.MustCompile [] = some defaultMasker ∧
      heap.Mask regexp.MustCompile defaultMasker 1 [] (.slice none) =
        some ([.slice []], .slice (some 0)) ∧
      (Ref.slice none).isNil = true ∧ (Ref.slice (some 0)).isNil = false ∧
      (∀ depth, heap.Mask regexp.MustCompile defaultMasker depth cyclicStore
        (.strMap (some 0)) = none) ∧
      (∃ re, regexp.MustCompile tokenRule.Regex = some re ∧
        re.MatchString "cB".toList = false) ∧
      (∃ re, regexp.MustCompile tagRule.Regex = some re ∧ re.MatchString "cB".toList = false) ∧
      MaskString regexp.MustCompile "cB".toList [WithPatterns [tokenRule, tagRule]] =
        some "cX".toList ∧
      "cX".toList ≠ "cB".toList :=
  ⟨rfl, rfl, rfl, rfl,
    fun depth => heap.processValue_cyclic regexp.MustCompile defaultMasker depth cyclicStore rfl,
    ⟨_, rfl, by decide⟩, ⟨_, rfl, by decide⟩, by decide, by decide⟩

/-- C8, amended: for every rule list whose construction succeeds and whose
combined expression has a match in a text only if the expression of one of
the rules has, and for every value that is read to the end within the depth
(it does not hold itself; `v` is what is read through it, its maps with
distinct keys), if no string leaf of the value contains a match of the
expression of any rule, `Mask` returns a value through which the same `v` is
read: the same keys, elements and strings, a nil map or slice of the
argument being an empty one in the result.  When the argument holds no nil
map or slice, neither does the result: it is structurally and value-equal to
the argument. -/
theorem Mask_identity_without_match (MustCompile : List Char → Option Regexp)
    (patterns : List Pattern) (dm : DefaultMasker) (v : Value) (depth : Nat) (h : Store)
    (r : Ref)
    (hnew : compilePatterns MustCompile { patterns := patterns, cache := none, compiled := false } =
      some dm)
    (hwf : v.WF)
    (hread : heap.read depth h r = some v)
    (hjoin : ∀ cache, dm.cache = some cache → ∀ s, cache.MatchString s = true →
      ∃ p ∈ patterns, p.Regex ≠ [] ∧
        ∃ re, MustCompile p.Regex = some re ∧ re.MatchString s = true)
    (hnomatch : ∀ s ∈ v.strings, ∀ p ∈ patterns, p.Regex ≠ [] →
      ∀ re, MustCompile p.Regex = some re → re.MatchString s = false) :
    ∃ h1 r1, heap.Mask MustCompile dm depth h r = some (h1, r1) ∧
      heap.read depth h1 r1 = some v ∧ heap.read depth h1 r = some v ∧
      (heap.readNonNil depth h r = some v →
        heap.readNonNil depth h1 r1 = some v ∧ heap.readNonNil depth h1 r = some v) := by
  have hdm : dm.compiled = false ∨ ∃ cache, dm.cache = some cache := by
    rcases compilePatterns_cases MustCompile _ dm hnew with h | ⟨cache, h⟩
    · left; rw [h]
    · right; exact ⟨cache, by rw [h]⟩
  have hcache : ∀ s ∈ v.strings, ∀ cache, dm.cache = some cache →
      cache.MatchString s = false := by
    intro s hs cache hc
    cases hm : cache.MatchString s with
    | false => rfl
    | true =>
      obtain ⟨p, hp, hne, re, hre, hmatch⟩ := hjoin cache hc s hm
      rw [hnomatch s hs p hp hne re hre] at hmatch
      cases hmatch
  have hmask : Mask MustCompile dm v = some v := by
    apply processValue_id MustCompile dm (fun s => s ∈ v.strings) _ v hwf (fun s hs => hs)
    intro s hs
    exact maskString_no_match MustCompile dm s hdm (hcache s hs)
  exact heap.Mask_identity MustCompile dm depth h r v hread hmask

/-- C8, amended, on the rules `upperRule` and `digitsRule`, whose combined
expression `[A-Z]+|\d+` is the alternation of the two, and the map at
address 0 of `plainStore`, which holds no capital letter and no digit. -/
theorem Mask_identity_without_match_witness :
    compilePatterns regexp.MustCompile
        { patterns := [upperRule, digitsRule], cache := none, compiled := false } =
        some upperDigitsMasker ∧
      plainValue.WF ∧
      heap.read 4 plainStore (.strMap (some 0)) = some plainValue ∧
      heap.readNonNil 4 plainStore (.strMap (some 0)) = some plainValue ∧
      (∀ cache, upperDigitsMasker.cache = some cache → ∀ s, cache.MatchString s = true →
        ∃ p ∈ [upperRule, digitsRule], p.Regex ≠ [] ∧
          ∃ re, regexp.MustCompile p.Regex = some re ∧ re.MatchString s = true) ∧
      (∀ s ∈ plainValue.strings, ∀ p ∈ [upperRule, digitsRule], p.Regex ≠ [] →
        ∀ re, regexp.MustCompile p.Regex = some re → re.MatchString s = false) ∧
      ∃ h1 r1, heap.Mask regexp.MustCompile upperDigitsMasker 4 plainStore
          (.strMap (some 0)) = some (h1, r1) ∧
        heap.read 4 h1 r1 = some plainValue ∧
        heap.read 4 h1 (.strMap (some 0)) = some plainValue ∧
        (heap.readNonNil 4 plainStore (.strMap (some 0)) = some plainValue →
          heap.readNonNil 4 h1 r1 = some plainValue ∧
            heap.readNonNil 4 h1 (.strMap (some 0)) = some plainValue) :=
  have hwf : plainValue.WF := by
    simp [plainValue, Value.WF, entriesWF, valuesWF, mapsWF, ifaceEntriesWF]
  have hupper : regexp.MustCompile upperRule.Regex = some upperRe.toRegexp := rfl
  have hdigits : regexp.MustCompile digitsRule.Regex = some digitsRe.toRegexp := rfl
  have hjoin : ∀ cache, upperDigitsMasker.cache = some cache → ∀ s,
      cache.MatchString s = true →
      ∃ p ∈ [upperRule, digitsRule], p.Regex ≠ [] ∧
        ∃ re, regexp.MustCompile p.Regex = some re ∧ re.MatchString s = true := by
    intro cache hc s hm
    simp only [upperDigitsMasker, Option.some.injEq] at hc
    subst hc
    rcases Re.MatchString_alternate upperRe digitsRe s hm with h | h
    · exact ⟨upperRule, List.mem_cons_self _ _, by decide, _, hupper, h⟩
    · exact ⟨digitsRule, List.mem_cons_of_mem _ (List.mem_cons_self _ _), by decide, _,
        hdigits, h⟩
  have hno : ∀ s ∈ plainValue.strings, ∀ p ∈ [upperRule, digitsRule], p.Regex ≠ [] →
      ∀ re, regexp.MustCompile p.Regex = some re → re.MatchString s = false := by
    intro s hs p hp _ re hre
    simp only [plainValue, Value.strings, valuesStrings, entriesStrings, mapsStrings,
      ifaceEntriesStrings, List.append_nil, List.nil_append, List.cons_append,
      List.mem_cons, List.mem_singleton, List.not_mem_nil, or_false] at hs
    simp only [List.mem_cons, List.mem_singleton, List.not_mem_nil, or_false] at hp
    rcases hp with rfl | rfl
    · rw [hupper] at hre
      simp only [Option.some.injEq] at hre
      subst hre
      rcases hs with rfl | rfl <;> decide
    · rw [hdigits] at hre
      simp only [Option.some.injEq] at hre
      subst hre
      rcases hs with rfl | rfl <;> decide
  ⟨rfl, hwf, rfl, rfl, hjoin, hno,
    Mask_identity_without_match regexp.MustCompile [upperRule, digitsRule] upperDigitsMasker
      plainValue 4 plainStore (.strMap (some 0)) rfl hwf rfl hjoin hno⟩

/-- C12, the code at the failing input.  The masker built from `joinOptions`
holds exactly the three custom rules, in order.  The expression `[x` of the
first does not compile alone, and those of the second and the third have no
match in `"4111-1111-1111-1111"`; but the join `[x|1]|^1$` of the three is a
class that matches every `1`, each `1` goes to the third rule, and the text
comes back changed. -/
theorem joined_rules_change_card :
    (NewWithOpts regexp.MustCompile joinOptions).map
        (fun dm => dm.patterns.map Pattern.Regex) =
        some ["[x".toList, "1]".toList, "^1$".toList] ∧
      stringsJoin ["[x".toList, "1]".toList, "^1$".toList] ['|'] = "[x|1]|^1$".toList ∧
      regexp.MustCompile "[x".toList = none ∧
      (regexp.MustCompile "1]".toList).map
        (fun re => re.MatchString "4111-1111-1111-1111".toList) = some false ∧
      (regexp.MustCompile "^1$".toList).map
        (fun re => re.MatchString "4111-1111-1111-1111".toList) = some false ∧
      MaskString regexp.MustCompile "4111-1111-1111-1111".toList joinOptions =
        some "4ZZZ-ZZZZ-ZZZZ-ZZZZ".toList ∧
      "4ZZZ-ZZZZ-ZZZZ-ZZZZ".toList ≠ "4111-1111-1111-1111".toList :=
  ⟨by decide, by decide, by rfl, by decide, by decide, by decide, by decide⟩

end masker
